import Mathlib

/-!
Shallow embedding of the C extension `fast_diff_match_patch`
(src/ext/fast_diff_match_patch: match.c, match.h, diff.c,
fast_diff_match_patch.h), together with theorems checking the
natural-language specification against it.

Modelling conventions:
* A `DMPString` (`struct DMPString { unsigned int size; long *chars; }`)
  is a `List Int`; `size` is `List.length`, `chars[i]` is list indexing.
* C `double` arithmetic is modelled exactly over `ℚ`; the score
  computations of match.c only add, divide and compare, so the case
  structure is preserved.
* The C `VALUE` bit-vectors are `Nat` with exact arithmetic.  A real
  `VALUE` wraps at `2 ^ 64`, but the `maxBits` check is exactly the
  guard meant to keep patterns inside the machine word (the C shifts
  `1 << (pattern.size - i - 1)` are undefined behaviour beyond it), and
  the Ruby reference implementation this code ports computes the same
  recurrences over arbitrary-precision integers; the embedding uses
  that reference semantics.
* The stack arrays `v1`, `v2`, `rd`, `last_rd` are modelled as total
  maps (`Int → Int`, `Int → Nat`): an out-of-bounds access in C is
  undefined behaviour; the embedding gives it the idealized "flat
  infinite array" semantics and, separately, *instruments* every access
  with a bounds flag (`vOk`, `readsOk`) so that the safety claims about
  the declared array extents can be settled.
* `rb_raise` is modelled with `Except`; the Ruby `Qnil` sentinel returns
  of `index_of` / `rindex_of` are modelled as `Option` (`none` = the
  `Qnil` return), and the nil deadline as `Option Int`.
* The wall clock (`Time.now.to_i`, one call per bisection depth) is a
  parameter `clock : Nat → Int`; the call made at depth `d` reads
  `clock d`.
-/

namespace FastDMP

/-- A comparable-unit sequence: `struct DMPString`.  Units are the
`long` hash values produced by the (external) `rb_str_to_dmp_hash`. -/
abbrev DMPString := List Int

/-- `text.chars[i]` for `i` of C type `int`.  In-bounds accesses return
the unit; out-of-bounds accesses (undefined behaviour in C) return the
idealized junk value `0`.  Safety claims are settled through the
separate instrumentation flags, never through this default. -/
def charAt (t : DMPString) (i : Int) : Int :=
  if h : 0 ≤ i ∧ i.toNat < t.length then t.get ⟨i.toNat, h.2⟩ else 0

/-- Pointwise update of a total map modelling a C array store. -/
def upd (f : Int → Int) (i v : Int) : Int → Int :=
  fun j => if j = i then v else f j

/-- Pointwise update of a total map of bit-vectors (`VALUE rd[]`). -/
def updN (f : Int → Nat) (i : Int) (v : Nat) : Int → Nat :=
  fun j => if j = i then v else f j

/-! ## Pattern hash table (match.h, match.c lines 40-96) -/

/-- `struct DMP_HT`: `values` is the bucket array (index = hash slot);
each bucket is the linked chain, head first.  A chain node
`DMP_HT_ELM` is a `(key, value)` pair (`long key; long value;` — the
values stored are the nonnegative Bitap masks, kept as `Nat`). -/
structure DMP_HT where
  size : Nat
  count : Nat
  values : List (List (Int × Nat))

/-- `DMP_HASH_KEY(hash, key)` from match.h:
`(uint)((key % size) < 0 ? size + key % size : key % size)`.
C `%` on `long` is truncated division remainder (`Int.tmod`). -/
def dmp_hash_key (size : Nat) (key : Int) : Nat :=
  let r := Int.tmod key (size : Int)
  (if r < 0 then (size : Int) + r else r).toNat

/-- `new_hash(size)`: empty buckets, zero count. -/
def new_hash (size : Nat) : DMP_HT :=
  { size := size, count := 0, values := List.replicate size [] }

/-- Chain walk of `hash_lookup`: first node whose key matches. -/
def chain_lookup (chain : List (Int × Nat)) (key : Int) : Option Nat :=
  match chain with
  | [] => none
  | (k, v) :: rest => if k = key then some v else chain_lookup rest key

/-- `hash_lookup(hash, key)` (match.c lines 63-81): `none` models the
`NULL` return; the `count == 0` early exit is kept. -/
def hash_lookup (hash : DMP_HT) (key : Int) : Option Nat :=
  if hash.count = 0 then none
  else chain_lookup (hash.values.getD (dmp_hash_key hash.size key) []) key

/-- `hash_insert(hash, key, value)` (match.c lines 85-96): prepend a
fresh node to the head of the bucket chain, bump `count`. -/
def hash_insert (hash : DMP_HT) (key : Int) (value : Nat) : DMP_HT :=
  let idx := dmp_hash_key hash.size key
  { size := hash.size
    count := hash.count + 1
    values := hash.values.set idx ((key, value) :: hash.values.getD idx []) }

/-- `element->value |= val` performed through the pointer returned by
`hash_lookup`: OR `val` into the first node of the chain whose key
matches. -/
def chain_bump (chain : List (Int × Nat)) (key : Int) (val : Nat) :
    List (Int × Nat) :=
  match chain with
  | [] => []
  | (k, v) :: rest =>
      if k = key then (k, v ||| val) :: rest
      else (k, v) :: chain_bump rest key val

/-- In-place `|=` on the node found for `key` (the mutation in
match.c lines 186-188). -/
def hash_bump (hash : DMP_HT) (key : Int) (val : Nat) : DMP_HT :=
  let idx := dmp_hash_key hash.size key
  { size := hash.size
    count := hash.count
    values := hash.values.set idx
      (chain_bump (hash.values.getD idx []) key val) }

/-- One iteration of the `generate_pattern_hash` loop body at position
`i`: `val = 1 << (pattern.size - i - 1)`; merge or insert. -/
def generate_pattern_hash_step (psize : Nat) (alphabet : DMP_HT)
    (i : Nat) (c : Int) : DMP_HT :=
  let val : Nat := 2 ^ (psize - i - 1)
  match hash_lookup alphabet c with
  | some _ => hash_bump alphabet c val
  | none => hash_insert alphabet c val

/-- Loop of `generate_pattern_hash` over positions `i, i+1, …`. -/
def generate_pattern_hash_go (psize : Nat) (alphabet : DMP_HT)
    (i : Nat) (rest : List Int) : DMP_HT :=
  match rest with
  | [] => alphabet
  | c :: cs =>
      generate_pattern_hash_go psize
        (generate_pattern_hash_step psize alphabet i c) (i + 1) cs

/-- `generate_pattern_hash(pattern)` (match.c lines 174-195): the Bitap
alphabet table, bucket count = `pattern.size`. -/
def generate_pattern_hash (pattern : DMPString) : DMP_HT :=
  generate_pattern_hash_go pattern.length (new_hash pattern.length) 0 pattern

/-! ## Kernel-reducible rational arithmetic

The C `double` arithmetic of the scorer is modelled exactly over `ℚ`.
The bundled `ℚ` operations of this toolchain do not reduce inside the
kernel, so the embedding uses the following wrappers, built from
`Rat.divInt` (which does reduce); each is proved equal to the standard
operation below, so theorems can be stated with the ordinary `ℚ`
API while concrete runs still evaluate by `decide`. -/

def qdiv (a b : ℚ) : ℚ := Rat.divInt (a.num * b.den) (a.den * b.num)

def qadd (a b : ℚ) : ℚ :=
  Rat.divInt (a.num * b.den + b.num * a.den) (a.den * b.den)

def qsub (a b : ℚ) : ℚ :=
  Rat.divInt (a.num * b.den - b.num * a.den) (a.den * b.den)

def qmul (a b : ℚ) : ℚ := Rat.divInt (a.num * b.num) (a.den * b.den)

theorem rat_num_eq_mul_den (a : ℚ) : (a.num : ℚ) = a * (a.den : ℚ) := by
  have had : ((a.den : ℚ)) ≠ 0 := by
    exact_mod_cast a.den_nz
  exact (div_eq_iff had).mp (Rat.num_div_den a)

theorem qdiv_eq (a b : ℚ) : qdiv a b = a / b := by
  rw [qdiv, Rat.divInt_eq_div]
  rcases eq_or_ne b 0 with rfl | hb
  · simp
  · have hbn : (b.num : ℚ) ≠ 0 := by exact_mod_cast Rat.num_ne_zero.mpr hb
    have had : ((a.den : ℚ)) ≠ 0 := by exact_mod_cast a.den_nz
    have hbd : ((b.den : ℚ)) ≠ 0 := by exact_mod_cast b.den_nz
    rw [div_eq_div_iff (by push_cast; exact mul_ne_zero had hbn) hb]
    push_cast
    rw [rat_num_eq_mul_den a, rat_num_eq_mul_den b]
    ring

theorem qadd_eq (a b : ℚ) : qadd a b = a + b := by
  have had : ((a.den : ℚ)) ≠ 0 := by exact_mod_cast a.den_nz
  have hbd : ((b.den : ℚ)) ≠ 0 := by exact_mod_cast b.den_nz
  rw [qadd, Rat.divInt_eq_div,
    div_eq_iff (by push_cast; exact mul_ne_zero had hbd)]
  push_cast
  rw [rat_num_eq_mul_den a, rat_num_eq_mul_den b]
  ring

theorem qsub_eq (a b : ℚ) : qsub a b = a - b := by
  have had : ((a.den : ℚ)) ≠ 0 := by exact_mod_cast a.den_nz
  have hbd : ((b.den : ℚ)) ≠ 0 := by exact_mod_cast b.den_nz
  rw [qsub, Rat.divInt_eq_div,
    div_eq_iff (by push_cast; exact mul_ne_zero had hbd)]
  push_cast
  rw [rat_num_eq_mul_den a, rat_num_eq_mul_den b]
  ring

theorem qmul_eq (a b : ℚ) : qmul a b = a * b := by
  have had : ((a.den : ℚ)) ≠ 0 := by exact_mod_cast a.den_nz
  have hbd : ((b.den : ℚ)) ≠ 0 := by exact_mod_cast b.den_nz
  rw [qmul, Rat.divInt_eq_div,
    div_eq_iff (by push_cast; exact mul_ne_zero had hbd)]
  push_cast
  rw [rat_num_eq_mul_den a, rat_num_eq_mul_den b]
  ring

/-! ## Scoring (match.c lines 151-163) -/

/-- `match_bitap_score(start, end, pattern, location)`: `start` is the
error count, `end` the candidate match index.  `dmp_match_distance`
(an `unsigned int` instance variable) is passed explicitly.  C double
arithmetic modelled exactly over `ℚ`; the manual negate-if-negative is
kept. -/
def match_bitap_score (start : Nat) (e : Int) (pattern : DMPString)
    (location : Int) (dmp_match_distance : Nat) : ℚ :=
  let accuracy : ℚ := qdiv (start : ℚ) (pattern.length : ℚ)
  let proximity0 : ℚ := qsub (location : ℚ) (e : ℚ)
  let proximity : ℚ :=
    if proximity0 < 0 then qmul proximity0 (((-1 : Int)) : ℚ) else proximity0
  if dmp_match_distance = 0 then
    (if proximity = 0 then accuracy else 1)
  else
    qadd accuracy (qdiv proximity (dmp_match_distance : ℚ))

/-! ## Exact pre-scan searches (match.c lines 100-147) -/

/-- Inner loop of `index_of`: the exit value of `j`, which counts up
while `j < pattern.size && i + j < text.size` and the units agree.
The fuel only bounds the (finite) iteration count; `pattern.length + 1`
is always enough since `j` stops at `pattern.length`. -/
def index_of_scan (text pattern : DMPString) (i : Nat) :
    Nat → Nat → Nat
  | 0, j => j
  | f + 1, j =>
    if j < pattern.length ∧ i + j < text.length then
      if charAt text ((i : Int) + (j : Int)) = charAt pattern (j : Int) then
        index_of_scan text pattern i f (j + 1)
      else j
    else j

/-- Outer loop of `index_of` over start positions `i`. -/
def index_of_go (text pattern : DMPString) : Nat → Nat → Option Nat
  | 0, _ => none
  | f + 1, i =>
    if i < text.length then
      if index_of_scan text pattern i (pattern.length + 1) 0 >
          pattern.length then some i
      else index_of_go text pattern f (i + 1)
    else none

/-- `index_of(text, pattern, pos)` (match.c lines 100-122).  The `Qnil`
return is `none`.  The comparison deciding a hit is `j > pattern.size`,
exactly as in the source. -/
def index_of (text pattern : DMPString) (pos : Nat) : Option Nat :=
  index_of_go text pattern (text.length + 1) pos

/-- Inner loop of `rindex_of`: the exit value of `j : Int`, counting
down from `pattern.size - 1` while `j >= 0 && i - j >= pos` and
`text.chars[i-j] == pattern.chars[j]`. -/
def rindex_of_scan (text pattern : DMPString) (pos : Int) (i : Int)
    (fuel : Nat) (j : Int) : Int :=
  match fuel with
  | 0 => j
  | f + 1 =>
    if 0 ≤ j ∧ pos ≤ i - j then
      if charAt text (i - j) = charAt pattern j then
        rindex_of_scan text pattern pos i f (j - 1)
      else j
    else j

/-- Outer loop of `rindex_of` over end positions `i` counting down. -/
def rindex_of_go (text pattern : DMPString) (pos : Int) (fuel : Nat)
    (i : Int) : Option Int :=
  match fuel with
  | 0 => none
  | f + 1 =>
    if pos ≤ i then
      let j := rindex_of_scan text pattern pos i (pattern.length + 1)
        ((pattern.length : Int) - 1)
      if j ≤ 0 then some (i - ((pattern.length : Int) - 1))
      else rindex_of_go text pattern pos f (i - 1)
    else none

/-- `rindex_of(text, pattern, pos)` (match.c lines 126-147).  The `Qnil`
return is `none`. -/
def rindex_of (text pattern : DMPString) (pos : Int) : Option Int :=
  rindex_of_go text pattern pos (((text.length : Int) - pos).toNat + 1)
    ((text.length : Int) - 1)

/-! ## The Bitap matcher (match.c lines 199-328) -/

/-- The instance-level configuration read by `set_instance_vars`
(`@match_threshold`, `@match_distance`, `@match_max_bits`). -/
structure MatchCfg where
  threshold : ℚ
  distance : Nat
  maxBits : Nat

/-- The one fatal condition: `rb_raise(rb_eArgError, "Pattern is too
large for this application")`. -/
inductive MatchErr where
  | patternTooLarge
deriving DecidableEq

/-- State of the bit-vector loop over `j` (match.c lines 275-313):
`rd`, `score_threshold`, `best_loc` and the mutable `start`; `readsOk`
instruments whether every `text.chars[j-1]` read so far was in
bounds. -/
structure RdState where
  rd : Int → Nat
  scoreThreshold : ℚ
  bestLoc : Int
  start : Int
  readsOk : Bool

/-- The `for(j = finish; j >= start; j--)` loop (match.c lines
275-313).  `i` is the error level, `lastRd` the previous level's
bit-vectors, `matchMask = 1 << (pattern.size - 1)`.  A `break`
returns the state directly; fuel only bounds the (finite) iteration
count. -/
def match_bitap_inner (cfg : MatchCfg) (alpha : DMP_HT)
    (text pattern : DMPString) (loc : Int) (i : Nat)
    (lastRd : Int → Nat) (matchMask : Nat) :
    Nat → Int → RdState → RdState
  | 0, _, st => st
  | f + 1, j, st =>
    if j < st.start then st
    else
      let readsOk := st.readsOk && decide (1 ≤ j ∧ j - 1 < (text.length : Int))
      let alphaValue := (hash_lookup alpha (charAt text (j - 1))).getD 0
      let rdj : Nat :=
        if i = 0 then
          ((st.rd (j + 1) <<< 1) ||| 1) &&& alphaValue
        else
          (((st.rd (j + 1) <<< 1) ||| 1) &&& alphaValue) |||
            ((((lastRd (j + 1) ||| lastRd j) <<< 1) ||| 1) ||| lastRd (j + 1))
      let rd1 := updN st.rd j rdj
      if rdj &&& matchMask = 0 then
        match_bitap_inner cfg alpha text pattern loc i lastRd matchMask f (j - 1)
          { st with rd := rd1, readsOk := readsOk }
      else
        let tmpScore := match_bitap_score i (j - 1) pattern loc cfg.distance
        if tmpScore ≤ st.scoreThreshold then
          if j - 1 > loc then
            match_bitap_inner cfg alpha text pattern loc i lastRd matchMask f (j - 1)
              { rd := rd1, scoreThreshold := tmpScore, bestLoc := j - 1,
                start := max 1 (2 * loc - (j - 1)), readsOk := readsOk }
          else
            { rd := rd1, scoreThreshold := tmpScore, bestLoc := j - 1,
              start := st.start, readsOk := readsOk }
        else
          match_bitap_inner cfg alpha text pattern loc i lastRd matchMask f (j - 1)
            { st with rd := rd1, readsOk := readsOk }

/-- The binary search over `bin_mid` (match.c lines 254-264).  All the
`/ 2` divisions act on nonnegative operands (`bin_min ≤ bin_mid ≤
bin_max` throughout), where C and Lean integer division agree. -/
def match_bitap_binsearch (pattern : DMPString) (loc : Int)
    (distance : Nat) (thr : ℚ) (i : Nat) :
    Nat → Int → Int → Int → Int
  | 0, _, binMid, _ => binMid
  | f + 1, binMin, binMid, binMax =>
    if binMin < binMid then
      if match_bitap_score i (loc + binMid) pattern loc distance ≤ thr then
        match_bitap_binsearch pattern loc distance thr i f binMid
          ((binMax - binMid) / 2 + binMid) binMax
      else
        match_bitap_binsearch pattern loc distance thr i f binMin
          ((binMid - binMin) / 2 + binMin) binMid
    else binMid

/-- State carried across error levels `i` (match.c lines 246-323):
`bin_max`, `last_rd`, `score_threshold`, `best_loc`. -/
structure MatchLoopState where
  binMax : Int
  lastRd : Int → Nat
  scoreThreshold : ℚ
  bestLoc : Int
  readsOk : Bool

/-- The error-level loop `for(i = 0; i < pattern.size; i++)` (match.c
lines 246-323). -/
def match_bitap_outer (cfg : MatchCfg) (alpha : DMP_HT)
    (text pattern : DMPString) (loc : Int) (matchMask : Nat) :
    Nat → Nat → MatchLoopState → MatchLoopState
  | 0, _, st => st
  | f + 1, i, st =>
    if i < pattern.length then
      let binMid := match_bitap_binsearch pattern loc cfg.distance
        st.scoreThreshold i (st.binMax.toNat + 2) 0 st.binMax st.binMax
      let start := max 1 (loc - binMid + 1)
      let finish := min (loc + binMid) (text.length : Int) + (pattern.length : Int)
      let rd0 := updN (fun _ => 0) (finish + 1) (2 ^ i - 1)
      let stIn : RdState :=
        { rd := rd0, scoreThreshold := st.scoreThreshold,
          bestLoc := st.bestLoc, start := start, readsOk := st.readsOk }
      let stOut := match_bitap_inner cfg alpha text pattern loc i st.lastRd
        matchMask (finish.toNat + 1) finish stIn
      let st1 : MatchLoopState :=
        { binMax := binMid, lastRd := st.lastRd,
          scoreThreshold := stOut.scoreThreshold, bestLoc := stOut.bestLoc,
          readsOk := stOut.readsOk }
      if match_bitap_score (i + 1) loc pattern loc cfg.distance >
          stOut.scoreThreshold then
        st1
      else
        match_bitap_outer cfg alpha text pattern loc matchMask f (i + 1)
          { st1 with lastRd := stOut.rd }
    else st

instance : DecidableEq (Except MatchErr Int) := fun x y =>
  match x, y with
  | .error a, .error b => isTrue (by cases a; cases b; rfl)
  | .ok a, .ok b =>
      if h : a = b then isTrue (by rw [h]) else isFalse (by simp [h])
  | .error _, .ok _ => isFalse (by simp)
  | .ok _, .error _ => isFalse (by simp)

/-- Result of one `match_bitap` call plus the bounds instrumentation of
its `text.chars[j-1]` reads. -/
structure MatchRun where
  result : Except MatchErr Int
  readsOk : Bool

/-- `match_bitap(self, text, pattern, loc)` (match.c lines 199-328).
`loc` is `FIX2UINT(rb_loc)`, hence nonnegative.  Exactly as in the
source, the alphabet hash table is generated *before* the
`pattern.size > dmp_max_bits` check; `last_rd` starts as an arbitrary
(never read before first copy) stack array, modelled as all zeroes. -/
def match_bitap_run (cfg : MatchCfg) (text pattern : DMPString)
    (loc : Nat) : MatchRun :=
  let alpha := generate_pattern_hash pattern
  let maxRd := pattern.length + text.length + 2
  let matchMask : Nat := 2 ^ (pattern.length - 1)
  if pattern.length > cfg.maxBits then
    { result := .error .patternTooLarge, readsOk := true }
  else
    let pre : ℚ :=
      match index_of text pattern loc with
      | some bl =>
        let t1 := min (match_bitap_score 0 (bl : Int) pattern loc cfg.distance)
          cfg.threshold
        match rindex_of text pattern ((loc : Int) + (pattern.length : Int)) with
        | some bl2 =>
            min (match_bitap_score 0 bl2 pattern loc cfg.distance) t1
        | none => t1
      | none => cfg.threshold
    let st0 : MatchLoopState :=
      { binMax := (maxRd : Int) - 2, lastRd := fun _ => 0,
        scoreThreshold := pre, bestLoc := -1, readsOk := true }
    let stF := match_bitap_outer cfg alpha text pattern (loc : Int) matchMask
      (pattern.length + 1) 0 st0
    { result := .ok stF.bestLoc, readsOk := stF.readsOk }

/-- The returned match index (`INT2FIX(best_loc)`), or the raised
error. -/
def match_bitap (cfg : MatchCfg) (text pattern : DMPString) (loc : Nat) :
    Except MatchErr Int :=
  (match_bitap_run cfg text pattern loc).result

/-- `true` iff every `text.chars[j-1]` read performed by the call was
within the text's bounds. -/
def match_bitap_text_reads_ok (cfg : MatchCfg) (text pattern : DMPString)
    (loc : Nat) : Bool :=
  (match_bitap_run cfg text pattern loc).readsOk

/-- Observable phases of a `match_bitap` call, for stating ordering
properties. -/
inductive MatchStep where
  | buildPatternHash
  | raisePatternTooLarge
  | prescan
  | mainLoop
deriving DecidableEq

/-- The phases of `match_bitap` in source order (match.c lines
199-328): the alphabet table is generated at line 207, the
`pattern.size > dmp_max_bits` check raises at lines 224-228, the
pre-scan and the error-level loop follow. -/
def match_bitap_steps (maxBits : Nat) (pattern : DMPString) :
    List MatchStep :=
  [MatchStep.buildPatternHash] ++
    (if pattern.length > maxBits then [MatchStep.raisePatternTooLarge]
     else [MatchStep.prescan, MatchStep.mainLoop])

/-! ## The Myers bisection (diff.c lines 30-159) -/

/-- Bounds test instrumenting one access to `v1`/`v2` against the
declared extent `int v[v_length]`. -/
def inB (vLen i : Int) : Bool := decide (0 ≤ i ∧ i < vLen)

/-- State across the bisection loops: the two diagonal vectors (total
maps; the declared C extent is `v_length`), the four frontier trim
counters, and two instrumentation fields: `vOk` (all `v1`/`v2` accesses
so far within `[0, v_length)`) and `diags` (number of inner `k1`/`k2`
loop iterations executed). -/
structure DiffState where
  v1 : Int → Int
  v2 : Int → Int
  k1start : Int
  k1end : Int
  k2start : Int
  k2end : Int
  vOk : Bool
  diags : Nat

/-- Outcome of one inner loop pass: an early `return` through
`diff_bisect_split` with `(x, y)`, or continuation. -/
inductive LoopRes where
  | split (x y : Int) (st : DiffState)
  | cont (st : DiffState)

/-- The forward "snake" `while` loop (diff.c lines 81-87). -/
def fwd_snake (t1 t2 : DMPString) : Nat → Int → Int → Int × Int
  | 0, x1, y1 => (x1, y1)
  | f + 1, x1, y1 =>
    if x1 < (t1.length : Int) ∧ y1 < (t2.length : Int) ∧
        charAt t1 x1 = charAt t2 y1 then
      fwd_snake t1 t2 f (x1 + 1) (y1 + 1)
    else (x1, y1)

/-- The backward "snake" `while` loop (diff.c lines 120-128). -/
def bwd_snake (t1 t2 : DMPString) : Nat → Int → Int → Int × Int
  | 0, x2, y2 => (x2, y2)
  | f + 1, x2, y2 =>
    if x2 < (t1.length : Int) ∧ y2 < (t2.length : Int) ∧
        charAt t1 ((t1.length : Int) - x2 - 1) =
          charAt t2 ((t2.length : Int) - y2 - 1) then
      bwd_snake t1 t2 f (x2 + 1) (y2 + 1)
    else (x2, y2)

/-- Body of the forward diagonal loop at diagonal `k1` (diff.c lines
70-107).  The reads instrumented in `vOk` follow C short-circuit
evaluation: `k1 == -d` reads only `v1[k1_offset+1]`, `k1 == d` (with
`d > 0`) only `v1[k1_offset-1]`, anything else reads both; the
cross-check read of `v2[k2_offset]` is guarded by the source's own
`0 <= k2_offset < v_length` test and cannot be out of bounds. -/
def diff_fwd_body (t1 t2 : DMPString) (vOff vLen delta : Int)
    (front : Bool) (d : Nat) (k1 : Int) (st : DiffState) : LoopRes :=
  let len1 : Int := t1.length
  let len2 : Int := t2.length
  let a := vOff + k1
  let ok0 := st.vOk &&
    (if k1 = -(d : Int) then inB vLen (a + 1)
     else if k1 = (d : Int) then inB vLen (a - 1)
     else inB vLen (a - 1) && inB vLen (a + 1))
  let x0 : Int :=
    if k1 = -(d : Int) ∨ (k1 ≠ (d : Int) ∧ st.v1 (a - 1) < st.v1 (a + 1)) then
      st.v1 (a + 1)
    else st.v1 (a - 1) + 1
  let p := fwd_snake t1 t2 (t1.length + t2.length + 2) x0 (x0 - k1)
  let x1 := p.1
  let y1 := p.2
  let st1 : DiffState :=
    { st with v1 := upd st.v1 a x1, vOk := ok0 && inB vLen a,
              diags := st.diags + 1 }
  if x1 > len1 then .cont { st1 with k1end := st1.k1end + 2 }
  else if y1 > len2 then .cont { st1 with k1start := st1.k1start + 2 }
  else if front then
    let k2off := vOff + delta - k1
    if 0 ≤ k2off ∧ k2off < vLen ∧ st1.v2 k2off ≠ -1 then
      let x2 := len1 - st1.v2 k2off
      if x1 ≥ x2 then .split x1 y1 st1 else .cont st1
    else .cont st1
  else .cont st1

/-- The forward loop `for(k1 = -d + k1start; k1 <= d - k1end; k1 += 2)`
(diff.c lines 70-107); the bound re-reads `k1end` mutated by the
body. -/
def diff_fwd_loop (t1 t2 : DMPString) (vOff vLen delta : Int)
    (front : Bool) (d : Nat) : Nat → Int → DiffState → LoopRes
  | 0, _, st => .cont st
  | f + 1, k1, st =>
    if k1 ≤ (d : Int) - st.k1end then
      match diff_fwd_body t1 t2 vOff vLen delta front d k1 st with
      | .split x y st1 => .split x y st1
      | .cont st1 =>
          diff_fwd_loop t1 t2 vOff vLen delta front d f (k1 + 2) st1
    else .cont st

/-- Body of the backward diagonal loop at diagonal `k2` (diff.c lines
109-149). -/
def diff_bwd_body (t1 t2 : DMPString) (vOff vLen delta : Int)
    (front : Bool) (d : Nat) (k2 : Int) (st : DiffState) : LoopRes :=
  let len1 : Int := t1.length
  let len2 : Int := t2.length
  let a := vOff + k2
  let ok0 := st.vOk &&
    (if k2 = -(d : Int) then inB vLen (a + 1)
     else if k2 = (d : Int) then inB vLen (a - 1)
     else inB vLen (a - 1) && inB vLen (a + 1))
  let x0 : Int :=
    if k2 = -(d : Int) ∨ (k2 ≠ (d : Int) ∧ st.v2 (a - 1) < st.v2 (a + 1)) then
      st.v2 (a + 1)
    else st.v2 (a - 1) + 1
  let p := bwd_snake t1 t2 (t1.length + t2.length + 2) x0 (x0 - k2)
  let x2 := p.1
  let y2 := p.2
  let st1 : DiffState :=
    { st with v2 := upd st.v2 a x2, vOk := ok0 && inB vLen a,
              diags := st.diags + 1 }
  if x2 > len1 then .cont { st1 with k2end := st1.k2end + 2 }
  else if y2 > len2 then .cont { st1 with k2start := st1.k2start + 2 }
  else if !front then
    let k1off := vOff + delta - k2
    if 0 ≤ k1off ∧ k1off < vLen ∧ st1.v1 k1off ≠ -1 then
      let x1 := st1.v1 k1off
      let y1 := vOff + x1 - k1off
      let x2f := len1 - x2
      if x1 ≥ x2f then .split x1 y1 st1 else .cont st1
    else .cont st1
  else .cont st1

/-- The backward loop `for(k2 = -d + k2start; k2 <= d - k2end; k2 += 2)`
(diff.c lines 109-149). -/
def diff_bwd_loop (t1 t2 : DMPString) (vOff vLen delta : Int)
    (front : Bool) (d : Nat) : Nat → Int → DiffState → LoopRes
  | 0, _, st => .cont st
  | f + 1, k2, st =>
    if k2 ≤ (d : Int) - st.k2end then
      match diff_bwd_body t1 t2 vOff vLen delta front d k2 st with
      | .split x y st1 => .split x y st1
      | .cont st1 =>
          diff_bwd_loop t1 t2 vOff vLen delta front d f (k2 + 2) st1
    else .cont st

/-- Tagged result of one bisection call. -/
inductive BisectResult where
  | split (x y : Int)
  | fallback
deriving DecidableEq

/-- Result plus instrumentation: the depth `d` at which a split was
returned (if any), the bounds flag for all `v1`/`v2` accesses, and the
count of diagonal iterations executed. -/
structure BisectRun where
  result : BisectResult
  splitDepth : Option Nat
  vOk : Bool
  diags : Nat
deriving DecidableEq

/-- `deadline_l != Qnil && time_now() >= deadline_l` (diff.c line 65);
`t` is the value of the `time_now()` call, made only when a deadline
was supplied. -/
def deadline_hit (deadline : Option Int) (t : Int) : Bool :=
  match deadline with
  | none => false
  | some dl => decide (t ≥ dl)

/-- The depth loop `for(d = 0; d < max_d; d++)` (diff.c lines 63-150);
`remaining` is `max_d - d`.  The deadline poll at depth `d` reads
`clock d` (the `d`-th `time_now()` call). -/
def diff_dloop (t1 t2 : DMPString) (vOff vLen delta : Int) (front : Bool)
    (deadline : Option Int) (clock : Nat → Int) :
    Nat → Nat → DiffState → BisectRun
  | 0, _, st =>
    { result := .fallback, splitDepth := none, vOk := st.vOk,
      diags := st.diags }
  | r + 1, d, st =>
    if deadline_hit deadline (clock d) then
      { result := .fallback, splitDepth := none, vOk := st.vOk,
        diags := st.diags }
    else
      match diff_fwd_loop t1 t2 vOff vLen delta front d (d + 2)
          (-(d : Int) + st.k1start) st with
      | .split x y st1 =>
          { result := .split x y, splitDepth := some d, vOk := st1.vOk,
            diags := st1.diags }
      | .cont st1 =>
        match diff_bwd_loop t1 t2 vOff vLen delta front d (d + 2)
            (-(d : Int) + st1.k2start) st1 with
        | .split x y st2 =>
            { result := .split x y, splitDepth := some d, vOk := st2.vOk,
              diags := st2.diags }
        | .cont st2 =>
            diff_dloop t1 t2 vOff vLen delta front deadline clock r (d + 1) st2

/-- `max_d = (text1_length + text2_length + 1) / 2` (diff.c line 37):
`⌈(m+n)/2⌉`. -/
def bisect_max_d (len1 len2 : Nat) : Nat := (len1 + len2 + 1) / 2

/-- `v_length = 2 * max_d` (diff.c line 39): the declared length of
each of `int v1[v_length]`, `int v2[v_length]`. -/
def bisect_v_length (len1 len2 : Nat) : Nat := 2 * bisect_max_d len1 len2

/-- `diff_bisect(self, text1, text2, deadline)` (diff.c lines 30-159).
The `memset(v, -1, …)` initialization is the constant `-1` map (the
idealized flat memory also reads `-1` outside the declared extent);
the two seed writes `v1[v_offset+1] = 0`, `v2[v_offset+1] = 0` are
instrumented against the declared extent `v_length`. -/
def diff_bisect_run (t1 t2 : DMPString) (deadline : Option Int)
    (clock : Nat → Int) : BisectRun :=
  let len1 := t1.length
  let len2 := t2.length
  let delta : Int := (len1 : Int) - (len2 : Int)
  let maxD := bisect_max_d len1 len2
  let vOff : Int := (maxD : Int)
  let vLen : Int := (bisect_v_length len1 len2 : Int)
  let front : Bool := decide (delta % 2 ≠ 0)
  let okInit := inB vLen (vOff + 1)
  let st0 : DiffState :=
    { v1 := upd (fun _ => -1) (vOff + 1) 0
      v2 := upd (fun _ => -1) (vOff + 1) 0
      k1start := 0, k1end := 0, k2start := 0, k2end := 0
      vOk := okInit && okInit, diags := 0 }
  diff_dloop t1 t2 vOff vLen delta front deadline clock maxD 0 st0

/-- The tagged outcome: `SplitPoint(x, y)` (the
`diff_bisect_split` callback), or the fallback delete+insert pair. -/
def diff_bisect (t1 t2 : DMPString) (deadline : Option Int)
    (clock : Nat → Int) : BisectResult :=
  (diff_bisect_run t1 t2 deadline clock).result

/-! ## Spec-side definitions used to compare against the code -/

/-- The score formula exactly as the spec sentence for claim C6 words
it: `score = accuracy + proximity_term`, with `proximity_term = 0`
when `distance = 0` and the proximity is `0`, `1.0` when
`distance = 0` and the proximity is nonzero, and
`|matchIndex - location| / distance` when `distance > 0`. -/
def spec_score (errors : Nat) (matchIndex : Int) (pattern : DMPString)
    (location : Int) (distance : Nat) : ℚ :=
  let accuracy : ℚ := (errors : ℚ) / (pattern.length : ℚ)
  let proximity : ℚ := |(matchIndex : ℚ) - (location : ℚ)|
  let proximityTerm : ℚ :=
    if distance = 0 then (if proximity = 0 then 0 else 1)
    else proximity / (distance : ℚ)
  accuracy + proximityTerm

/-! ## Score lemmas (claim C6) -/

theorem neg_fix_eq_abs (x : ℚ) : (if x < 0 then x * (-1) else x) = |x| := by
  rcases lt_or_ge x 0 with h | h
  · rw [if_pos h, abs_of_neg h]
    ring
  · rw [if_neg (not_lt.mpr h), abs_of_nonneg h]

theorem match_bitap_score_eq (errors : Nat) (e : Int) (pattern : DMPString)
    (location : Int) (distance : Nat) :
    match_bitap_score errors e pattern location distance =
      if distance = 0 then
        (if |(e : ℚ) - (location : ℚ)| = 0 then
          (errors : ℚ) / (pattern.length : ℚ)
        else 1)
      else
        (errors : ℚ) / (pattern.length : ℚ) +
          |(e : ℚ) - (location : ℚ)| / (distance : ℚ) := by
  simp only [match_bitap_score, qdiv_eq, qsub_eq, qmul_eq, qadd_eq,
    Int.cast_neg, Int.cast_one]
  rw [neg_fix_eq_abs, abs_sub_comm]

/-- Claim C6, counterexample: at one error, pattern length 2,
`distance = 0` and a candidate one unit away from the expected
location, the code returns the flat score `1.0`
(match.c line 159), whereas the claimed formula
`accuracy + proximity_term` gives `1/2 + 1 = 3/2`. -/
theorem match_bitap_score_ne_spec_score :
    match_bitap_score 1 1 [5, 6] 0 0 = 1 ∧
    spec_score 1 1 [5, 6] 0 0 = 3 / 2 ∧
    match_bitap_score 1 1 [5, 6] 0 0 ≠ spec_score 1 1 [5, 6] 0 0 := by
  refine ⟨by rw [match_bitap_score_eq]; norm_num,
    by norm_num [spec_score], ?_⟩
  rw [match_bitap_score_eq]
  norm_num [spec_score]

/-- Claim C6 (amended): for a nonzero-length pattern the score is
`accuracy + |matchIndex - location| / distance` when `distance > 0`;
when `distance = 0` it is `accuracy` for an exact positional match and
the flat value `1.0` (not `accuracy + 1.0`) otherwise. -/
theorem match_bitap_score_formula (errors : Nat) (matchIndex : Int)
    (pattern : DMPString) (location : Int) (distance : Nat)
    (_hp : pattern.length ≠ 0) :
    (0 < distance →
      match_bitap_score errors matchIndex pattern location distance =
        (errors : ℚ) / (pattern.length : ℚ) +
          |(matchIndex : ℚ) - (location : ℚ)| / (distance : ℚ)) ∧
    (distance = 0 → matchIndex = location →
      match_bitap_score errors matchIndex pattern location distance =
        (errors : ℚ) / (pattern.length : ℚ)) ∧
    (distance = 0 → matchIndex ≠ location →
      match_bitap_score errors matchIndex pattern location distance = 1) := by
  rw [match_bitap_score_eq]
  refine ⟨fun hd => ?_, fun hd he => ?_, fun hd he => ?_⟩
  · rw [if_neg (by omega)]
  · rw [if_pos hd, if_pos (by rw [he]; simp)]
  · rw [if_pos hd, if_neg ?_]
    rw [abs_eq_zero, sub_eq_zero]
    exact_mod_cast he

/-- Witness for `match_bitap_score_formula` at a concrete input:
one error, pattern `[5, 6]`, candidate 3, location 1, distance 4. -/
theorem match_bitap_score_formula_witness :
    match_bitap_score 1 3 [5, 6] 1 4 = 1 := by
  have h := (match_bitap_score_formula 1 3 [5, 6] 1 4 (by decide)).1
    (by norm_num)
  rw [h]
  norm_num

/-! ## The out-of-bounds text read in the bit-vector loop (claim C7) -/

/-- Claim C7 fails on the code: with `text = [7]`, `pattern = [7]`,
`location = 0`, `threshold = 1`, `distance = 1000`, `maxBits = 32`,
the first error level computes `bin_mid = 2` and
`finish = min(0 + 2, 1) + 1 = 2`, so the loop's first iteration reads
`text.chars[1]` while `text.length = 1`: the lookup index `j - 1` is
not within `0 ≤ j-1 < text.length`.  (The reference implementations
guard this read with an explicit range check that this port lacks.) -/
theorem match_bitap_reads_out_of_bounds :
    match_bitap_text_reads_ok ⟨1, 1000, 32⟩ [7] [7] 0 = false := by
  decide

/-! ## Pattern-too-large validation (claim C4) -/

/-- Claim C4, counterexample to the ordering part: for a pattern of
length 2 with `maxBits = 1`, the phases of `match_bitap` in source
order put the pattern-hash construction (match.c line 207) strictly
before the size validation and raise (match.c lines 224-228): the
validation does not happen before the allocation of the table. -/
theorem match_bitap_builds_hash_before_validation :
    match_bitap_steps 1 [1, 2] =
      [MatchStep.buildPatternHash, MatchStep.raisePatternTooLarge] := by
  decide

/-- Claim C4 (amended): for `pattern.length > maxBits` the call raises
`PatternTooLarge` regardless of the other arguments — but only after
the pattern hash table has been built — and for
`pattern.length ≤ maxBits` no error is raised. -/
theorem match_bitap_pattern_too_large (cfg : MatchCfg)
    (text pattern : DMPString) (loc : Nat) :
    (pattern.length > cfg.maxBits →
      match_bitap cfg text pattern loc = .error .patternTooLarge ∧
      match_bitap_steps cfg.maxBits pattern =
        [MatchStep.buildPatternHash, MatchStep.raisePatternTooLarge]) ∧
    (pattern.length ≤ cfg.maxBits →
      ∃ v, match_bitap cfg text pattern loc = .ok v) := by
  constructor
  · intro h
    constructor
    · unfold match_bitap match_bitap_run
      rw [if_pos h]
    · unfold match_bitap_steps
      rw [if_pos h]
      rfl
  · intro h
    unfold match_bitap match_bitap_run
    rw [if_neg (by omega)]
    exact ⟨_, rfl⟩

/-- Witness for `match_bitap_pattern_too_large`: both halves at
concrete inputs. -/
theorem match_bitap_pattern_too_large_witness :
    match_bitap ⟨1/2, 1000, 1⟩ [3] [1, 2] 0 = .error .patternTooLarge ∧
    ∃ v, match_bitap ⟨1/2, 1000, 2⟩ [3] [1, 2] 0 = .ok v :=
  ⟨((match_bitap_pattern_too_large ⟨1/2, 1000, 1⟩ [3] [1, 2] 0).1
      (by decide)).1,
    (match_bitap_pattern_too_large ⟨1/2, 1000, 2⟩ [3] [1, 2] 0).2
      (by decide)⟩

/-! ## The broken exact pre-scan (claim C3) -/

/-- The inner scan counter `j` can never exceed `pattern.size`: it
starts at `0` and only increments while `j < pattern.size` holds. -/
theorem index_of_scan_le (text pattern : DMPString) (i : Nat) :
    ∀ fuel j, j ≤ pattern.length →
      index_of_scan text pattern i fuel j ≤ pattern.length := by
  intro fuel
  induction fuel with
  | zero => intro j hj; exact hj
  | succ f ih =>
    intro j hj
    simp only [index_of_scan]
    by_cases h1 : j < pattern.length ∧ i + j < text.length
    · rw [if_pos h1]
      by_cases h2 : charAt text ((i : Int) + (j : Int)) = charAt pattern (j : Int)
      · rw [if_pos h2]
        exact ih (j + 1) (by omega)
      · rw [if_neg h2]
        exact hj
    · rw [if_neg h1]
      exact hj

theorem index_of_go_none (text pattern : DMPString) :
    ∀ fuel i, index_of_go text pattern fuel i = none := by
  intro fuel
  induction fuel with
  | zero => intro i; rfl
  | succ f ih =>
    intro i
    simp only [index_of_go]
    by_cases h1 : i < text.length
    · rw [if_pos h1, if_neg ?_, ih]
      have := index_of_scan_le text pattern i (pattern.length + 1) 0
        (Nat.zero_le _)
      omega
    · rw [if_neg h1]

/-- Claim C3 fails on the code: the hit test of `index_of` (match.c
line 115) is `j > pattern.size`, but the scan counter `j` never
exceeds `pattern.size` (its loop runs only while `j < pattern.size`),
so `index_of` returns the `Qnil` sentinel on *every* input — even when
the pattern does occur, contradicting the function's own documented
Ruby equivalent (`"Zellow".index("l") == 2`, match.c line 99).  On the
concrete input below the pattern `[3]` occurs at index 2, yet the
search reports not-found; consequently the pre-scan of `match_bitap`
(lines 230-242) never tightens the threshold. -/
theorem index_of_always_none :
    (∀ text pattern : DMPString, ∀ pos : Nat,
      index_of text pattern pos = none) ∧
    index_of [1, 2, 3, 3, 4, 5] [3] 0 = none ∧
    charAt [1, 2, 3, 3, 4, 5] 2 = 3 :=
  ⟨fun text pattern pos => index_of_go_none text pattern _ pos,
    index_of_go_none _ _ _ _, by decide⟩

/-! ## Deadline behaviour of the bisection (claim C9) -/

theorem diff_dloop_deadline (t1 t2 : DMPString) (vOff vLen delta : Int)
    (front : Bool) (dl : Int) (clock : Nat → Int) (h : dl ≤ clock 0) :
    ∀ r st, diff_dloop t1 t2 vOff vLen delta front (some dl) clock r 0 st =
      { result := .fallback, splitDepth := none, vOk := st.vOk,
        diags := st.diags } := by
  intro r st
  cases r with
  | zero => rfl
  | succ r =>
    simp only [diff_dloop, deadline_hit]
    rw [if_pos (by simpa using h)]

/-- Claim C9: supplying a deadline at or before the clock value read on
entry makes `diff_bisect` return the delete+insert fallback without
executing a single diagonal iteration (the poll at depth 0 precedes
both inner loops, diff.c lines 63-68; the fall-through result is the
delete+insert pair, lines 152-158). -/
theorem diff_bisect_past_deadline (t1 t2 : DMPString) (dl : Int)
    (clock : Nat → Int) (h : dl ≤ clock 0) :
    (diff_bisect_run t1 t2 (some dl) clock).result = .fallback ∧
    (diff_bisect_run t1 t2 (some dl) clock).diags = 0 ∧
    (diff_bisect_run t1 t2 (some dl) clock).splitDepth = none := by
  simp only [diff_bisect_run]
  rw [diff_dloop_deadline t1 t2 _ _ _ _ dl clock h]
  exact ⟨rfl, rfl, rfl⟩

/-- Witness for `diff_bisect_past_deadline` at concrete inputs: two
nonempty differing texts, deadline 5, clock stuck at 9. -/
theorem diff_bisect_past_deadline_witness :
    (diff_bisect_run [1, 2, 3] [1, 9, 3] (some 5) (fun _ => 9)).result =
      .fallback ∧
    (diff_bisect_run [1, 2, 3] [1, 9, 3] (some 5) (fun _ => 9)).diags = 0 :=
  ⟨(diff_bisect_past_deadline [1, 2, 3] [1, 9, 3] 5 (fun _ => 9)
      (by norm_num)).1,
    (diff_bisect_past_deadline [1, 2, 3] [1, 9, 3] 5 (fun _ => 9)
      (by norm_num)).2.1⟩

/-! ## Hash table invariants (claim C10) -/

/-- Number of live nodes carrying `key`, across the whole table. -/
def countKey (h : DMP_HT) (key : Int) : Nat :=
  (h.values.map (fun chain => (chain.filter (fun e => e.1 = key)).length)).sum

/-- Total number of live nodes in the table. -/
def totalNodes (h : DMP_HT) : Nat := (h.values.map List.length).sum

/-- Bitwise OR of `1 << (psize - j - 1)` over the positions `j < n` at
which unit `c` occurs in `pattern` — the mask the spec describes for
the Bitap alphabet table, cut off after the first `n` positions. -/
def maskUpTo (psize : Nat) (pattern : DMPString) (c : Int) (n : Nat) :
    Nat :=
  (List.range n).foldl
    (fun acc j =>
      if pattern.getD j 0 = c then acc ||| 2 ^ (psize - j - 1) else acc) 0

/-- The full spec mask for unit `c`: OR of `1 << (psize - i - 1)` over
exactly the positions `i` at which `c` occurs in the pattern. -/
def patternMask (pattern : DMPString) (c : Int) : Nat :=
  maskUpTo pattern.length pattern c pattern.length

theorem maskUpTo_succ (psize : Nat) (p : DMPString) (c : Int) (n : Nat) :
    maskUpTo psize p c (n + 1) =
      if p.getD n 0 = c then maskUpTo psize p c n ||| 2 ^ (psize - n - 1)
      else maskUpTo psize p c n := by
  unfold maskUpTo
  rw [List.range_succ, List.foldl_append]
  simp only [List.foldl_cons, List.foldl_nil]

theorem chain_lookup_eq_none_iff (chain : List (Int × Nat)) (key : Int) :
    chain_lookup chain key = none ↔ ∀ e ∈ chain, e.1 ≠ key := by
  induction chain with
  | nil => simp [chain_lookup]
  | cons e rest ih =>
    obtain ⟨k, v⟩ := e
    by_cases hk : k = key
    · subst hk
      constructor
      · intro hnone
        simp [chain_lookup] at hnone
      · intro hall
        exact absurd rfl (hall (k, v) (by simp))
    · simp [chain_lookup, hk, ih]

theorem chain_bump_lookup_self (chain : List (Int × Nat)) (key : Int)
    (val : Nat) :
    chain_lookup (chain_bump chain key val) key =
      (chain_lookup chain key).map (fun v => v ||| val) := by
  induction chain with
  | nil => rfl
  | cons e rest ih =>
    obtain ⟨k, v⟩ := e
    by_cases hk : k = key
    · subst hk
      simp [chain_bump, chain_lookup]
    · simp [chain_bump, chain_lookup, hk, ih]

theorem chain_bump_lookup_ne (chain : List (Int × Nat)) (key : Int)
    (val : Nat) (k2 : Int) (h : k2 ≠ key) :
    chain_lookup (chain_bump chain key val) k2 = chain_lookup chain k2 := by
  induction chain with
  | nil => rfl
  | cons e rest ih =>
    obtain ⟨k, v⟩ := e
    by_cases hk : k = key
    · subst hk
      have hkk : ¬ (k = k2) := fun hc => h hc.symm
      simp [chain_bump, chain_lookup, hkk]
    · by_cases hk2 : k = k2
      · subst hk2
        simp [chain_bump, chain_lookup, hk]
      · simp [chain_bump, chain_lookup, hk, hk2, ih]

theorem chain_bump_mem (chain : List (Int × Nat)) (key : Int) (val : Nat) :
    ∀ e ∈ chain_bump chain key val, ∃ v0, (e.1, v0) ∈ chain := by
  induction chain with
  | nil => simp [chain_bump]
  | cons a rest ih =>
    obtain ⟨k, v⟩ := a
    intro e he
    by_cases hk : k = key
    · subst hk
      simp only [chain_bump, if_pos rfl] at he
      cases he with
      | head => exact ⟨v, by simp⟩
      | tail b h1 =>
        refine ⟨e.2, ?_⟩
        rw [Prod.mk.eta]
        exact List.mem_cons_of_mem _ h1
    · simp only [chain_bump, if_neg hk] at he
      cases he with
      | head => exact ⟨v, by simp⟩
      | tail b h1 =>
        obtain ⟨v0, hv0⟩ := ih e h1
        exact ⟨v0, by simp [hv0]⟩

theorem chain_bump_filter_len (chain : List (Int × Nat)) (key : Int)
    (val : Nat) (k2 : Int) :
    ((chain_bump chain key val).filter (fun e => e.1 = k2)).length =
      (chain.filter (fun e => e.1 = k2)).length := by
  induction chain with
  | nil => rfl
  | cons a rest ih =>
    obtain ⟨k, v⟩ := a
    by_cases hk : k = key
    · subst hk
      simp only [chain_bump, if_pos rfl, List.filter_cons]
      by_cases hk2 : (k = k2)
      · simp [hk2]
      · simp [hk2]
    · simp only [chain_bump, if_neg hk, List.filter_cons]
      by_cases hk2 : (k = k2)
      · simp [hk2, ih]
      · simp [hk2, ih]

theorem chain_bump_length (chain : List (Int × Nat)) (key : Int)
    (val : Nat) :
    (chain_bump chain key val).length = chain.length := by
  induction chain with
  | nil => rfl
  | cons a rest ih =>
    obtain ⟨k, v⟩ := a
    by_cases hk : k = key
    · subst hk
      simp [chain_bump]
    · simp [chain_bump, hk, ih]

theorem getD_set_self {α : Type} (l : List α) (i : Nat) (x d : α)
    (h : i < l.length) : (l.set i x).getD i d = x := by
  induction l generalizing i with
  | nil => simp at h
  | cons a t ih =>
    cases i with
    | zero => rfl
    | succ n => exact ih n (by simpa using h)

theorem getD_set_ne {α : Type} :
    ∀ (l : List α) (i j : Nat) (x d : α), j ≠ i →
      (l.set i x).getD j d = l.getD j d := by
  intro l
  induction l with
  | nil => intro i j x d h; simp
  | cons a t ih =>
    intro i j x d h
    cases i with
    | zero =>
      cases j with
      | zero => exact absurd rfl h
      | succ m => rfl
    | succ n =>
      cases j with
      | zero => rfl
      | succ m => exact ih n m x d (fun hc => h (by rw [hc]))

theorem map_sum_set_get {α : Type} (f : α → Nat) :
    ∀ (l : List α) (i : Nat) (hi : i < l.length) (x : α),
      ((l.set i x).map f).sum + f (l.get ⟨i, hi⟩) = (l.map f).sum + f x := by
  intro l
  induction l with
  | nil => intro i hi; simp at hi
  | cons a t ih =>
    intro i hi x
    cases i with
    | zero =>
      simp only [List.set, List.map, List.sum_cons, List.get]
      omega
    | succ n =>
      simp only [List.set, List.map, List.sum_cons, List.get]
      have := ih n (by simpa using hi) x
      omega

theorem tmod_gt_neg (key : Int) (size : Nat) (hs : 0 < size) :
    -(size : Int) < Int.tmod key (size : Int) := by
  rcases key with n | n
  · have h0 : (0 : Int) ≤ Int.ofNat n := Int.ofNat_nonneg n
    have := Int.tmod_nonneg (size : Int) h0
    omega
  · have hred : Int.tmod (Int.negSucc n) ((size : Nat) : Int) =
        -((((n + 1) % size : Nat)) : Int) := rfl
    have hlt : (n + 1) % size < size := Nat.mod_lt _ hs
    rw [hred]
    omega

theorem dmp_hash_key_lt (size : Nat) (hs : 0 < size) (key : Int) :
    dmp_hash_key size key < size := by
  simp only [dmp_hash_key]
  have h1 := Int.tmod_lt_of_pos key (b := (size : Int)) (by exact_mod_cast hs)
  have h2 := tmod_gt_neg key size hs
  by_cases hr : Int.tmod key (size : Int) < 0
  · rw [if_pos hr]
    omega
  · rw [if_neg hr]
    omega

theorem get_eq_getD {α : Type} :
    ∀ (l : List α) (i : Nat) (h : i < l.length) (d : α),
      l.get ⟨i, h⟩ = l.getD i d := by
  intro l
  induction l with
  | nil => intro i h; simp at h
  | cons a t ih =>
    intro i h d
    cases i with
    | zero => rfl
    | succ n => exact ih n (by simpa using h) d

theorem getD_replicate_nil :
    ∀ (n b : Nat), (List.replicate n ([] : List (Int × Nat))).getD b [] = [] := by
  intro n
  induction n with
  | zero => intro b; cases b <;> rfl
  | succ m ih =>
    intro b
    cases b with
    | zero => rfl
    | succ b2 => exact ih b2

theorem mem_take_succ_iff (p : DMPString) (i : Nat) (hi : i < p.length)
    (c : Int) : c ∈ p.take (i + 1) ↔ c ∈ p.take i ∨ c = p.getD i 0 := by
  have hgd : p.getD i 0 = p.get ⟨i, hi⟩ := (get_eq_getD p i hi 0).symm
  have hg : p[i]? = some (p.get ⟨i, hi⟩) := by
    rw [List.getElem?_eq_getElem hi]
    rfl
  rw [List.take_succ, List.mem_append, hgd, hg]
  simp

theorem maskUpTo_eq_zero (psize : Nat) (p : DMPString) (c : Int) :
    ∀ n, n ≤ p.length → c ∉ p.take n → maskUpTo psize p c n = 0 := by
  intro n
  induction n with
  | zero => intro _ _; rfl
  | succ m ih =>
    intro hm hc
    have hne : ¬ p.getD m 0 = c := by
      intro he
      exact hc ((mem_take_succ_iff p m (by omega) c).mpr (Or.inr he.symm))
    have hni : c ∉ p.take m := by
      intro he
      exact hc ((mem_take_succ_iff p m (by omega) c).mpr (Or.inl he))
    rw [maskUpTo_succ, if_neg hne, ih (by omega) hni]

/-- The conjunction of structural invariants maintained while
`generate_pattern_hash` processes the first `i` pattern positions. -/
def HTInv (p : DMPString) (i : Nat) (al : DMP_HT) : Prop :=
  al.size = p.length ∧
  al.values.length = p.length ∧
  al.count = totalNodes al ∧
  (∀ b : Nat, ∀ e ∈ al.values.getD b [], dmp_hash_key p.length e.1 = b) ∧
  (∀ key, countKey al key ≤ 1) ∧
  (∀ c, hash_lookup al c =
    if c ∈ p.take i then some (maskUpTo p.length p c i) else none)

theorem HTInv_init (p : DMPString) : HTInv p 0 (new_hash p.length) := by
  refine ⟨rfl, by simp [new_hash], ?_, ?_, ?_, ?_⟩
  · simp [new_hash, totalNodes, List.map_replicate]
  · intro b e he
    rw [show (new_hash p.length).values = List.replicate p.length [] from rfl,
      getD_replicate_nil] at he
    simp at he
  · intro key
    unfold countKey
    simp [new_hash, List.map_replicate]
  · intro c
    simp [hash_lookup, new_hash]

/-- With `count` consistent, `hash_lookup` agrees with the chain-level
lookup in the key's bucket. -/
theorem hash_lookup_eq_chain (al : DMP_HT)
    (hcnt : al.count = totalNodes al) (c : Int) :
    hash_lookup al c =
      chain_lookup (al.values.getD (dmp_hash_key al.size c) []) c := by
  unfold hash_lookup
  by_cases h0 : al.count = 0
  · rw [if_pos h0]
    have htot : totalNodes al = 0 := by omega
    have hempty : al.values.getD (dmp_hash_key al.size c) [] = [] := by
      unfold totalNodes at htot
      have hall : ∀ x ∈ al.values.map List.length, x = 0 :=
        (List.sum_eq_zero_iff).mp htot
      by_cases hb : dmp_hash_key al.size c < al.values.length
      · have hmem : (al.values.getD (dmp_hash_key al.size c) []).length ∈
            al.values.map List.length := by
          apply List.mem_map_of_mem
          rw [← get_eq_getD al.values _ hb []]
          exact List.get_mem _ _ hb
        have := hall _ hmem
        exact List.length_eq_zero.mp this
      · rw [List.getD_eq_default]
        omega
    rw [hempty]
    rfl
  · rw [if_neg h0]

theorem hash_insert_size (al : DMP_HT) (k : Int) (v : Nat) :
    (hash_insert al k v).size = al.size := rfl

theorem hash_insert_count (al : DMP_HT) (k : Int) (v : Nat) :
    (hash_insert al k v).count = al.count + 1 := rfl

theorem hash_insert_values (al : DMP_HT) (k : Int) (v : Nat) :
    (hash_insert al k v).values =
      al.values.set (dmp_hash_key al.size k)
        ((k, v) :: al.values.getD (dmp_hash_key al.size k) []) := rfl

theorem hash_bump_size (al : DMP_HT) (k : Int) (v : Nat) :
    (hash_bump al k v).size = al.size := rfl

theorem hash_bump_count (al : DMP_HT) (k : Int) (v : Nat) :
    (hash_bump al k v).count = al.count := rfl

theorem hash_bump_values (al : DMP_HT) (k : Int) (v : Nat) :
    (hash_bump al k v).values =
      al.values.set (dmp_hash_key al.size k)
        (chain_bump (al.values.getD (dmp_hash_key al.size k) []) k v) := rfl

theorem totalNodes_hash_insert (al : DMP_HT) (k : Int) (v : Nat)
    (h : dmp_hash_key al.size k < al.values.length) :
    totalNodes (hash_insert al k v) = totalNodes al + 1 := by
  unfold totalNodes
  rw [hash_insert_values]
  have hmss := map_sum_set_get List.length al.values
    (dmp_hash_key al.size k) h
    ((k, v) :: al.values.getD (dmp_hash_key al.size k) [])
  rw [get_eq_getD al.values _ h []] at hmss
  simp only [List.length_cons] at hmss
  omega

theorem totalNodes_hash_bump (al : DMP_HT) (k : Int) (v : Nat)
    (h : dmp_hash_key al.size k < al.values.length) :
    totalNodes (hash_bump al k v) = totalNodes al := by
  unfold totalNodes
  rw [hash_bump_values]
  have hmss := map_sum_set_get List.length al.values
    (dmp_hash_key al.size k) h
    (chain_bump (al.values.getD (dmp_hash_key al.size k) []) k v)
  rw [get_eq_getD al.values _ h [], chain_bump_length] at hmss
  omega

theorem countKey_hash_bump (al : DMP_HT) (k : Int) (v : Nat) (key : Int)
    (h : dmp_hash_key al.size k < al.values.length) :
    countKey (hash_bump al k v) key = countKey al key := by
  unfold countKey
  rw [hash_bump_values]
  have hmss := map_sum_set_get
    (fun chain => (chain.filter (fun e => e.1 = key)).length) al.values
    (dmp_hash_key al.size k) h
    (chain_bump (al.values.getD (dmp_hash_key al.size k) []) k v)
  rw [get_eq_getD al.values _ h []] at hmss
  simp only [chain_bump_filter_len] at hmss
  omega

theorem countKey_hash_insert (al : DMP_HT) (k : Int) (v : Nat) (key : Int)
    (h : dmp_hash_key al.size k < al.values.length) :
    countKey (hash_insert al k v) key =
      countKey al key + (if k = key then 1 else 0) := by
  unfold countKey
  rw [hash_insert_values]
  have hmss := map_sum_set_get
    (fun chain => (chain.filter (fun e => e.1 = key)).length) al.values
    (dmp_hash_key al.size k) h
    ((k, v) :: al.values.getD (dmp_hash_key al.size k) [])
  rw [get_eq_getD al.values _ h []] at hmss
  simp only [List.filter_cons] at hmss
  by_cases hk : k = key
  · rw [if_pos hk]
    rw [if_pos (by simpa using hk)] at hmss
    simp only [List.length_cons] at hmss
    omega
  · rw [if_neg hk]
    rw [if_neg (by simpa using hk)] at hmss
    omega

theorem hash_lookup_hash_insert (al : DMP_HT) (k : Int) (v : Nat) (c : Int)
    (h : dmp_hash_key al.size k < al.values.length) :
    hash_lookup (hash_insert al k v) c =
      if dmp_hash_key al.size c = dmp_hash_key al.size k then
        (if k = c then some v
         else chain_lookup (al.values.getD (dmp_hash_key al.size k) []) c)
      else chain_lookup (al.values.getD (dmp_hash_key al.size c) []) c := by
  unfold hash_lookup
  rw [hash_insert_count, if_neg (Nat.succ_ne_zero _), hash_insert_values,
    hash_insert_size]
  by_cases hbb : dmp_hash_key al.size c = dmp_hash_key al.size k
  · rw [if_pos hbb, hbb, getD_set_self _ _ _ _ h]
    simp only [chain_lookup]
  · rw [if_neg hbb, getD_set_ne _ _ _ _ _ hbb]

theorem hash_lookup_hash_bump (al : DMP_HT) (k : Int) (v : Nat) (c : Int)
    (h : dmp_hash_key al.size k < al.values.length)
    (hcnt_ne : al.count ≠ 0) :
    hash_lookup (hash_bump al k v) c =
      if c = k then
        (chain_lookup (al.values.getD (dmp_hash_key al.size k) []) k).map
          (fun x => x ||| v)
      else chain_lookup (al.values.getD (dmp_hash_key al.size c) []) c := by
  unfold hash_lookup
  rw [hash_bump_count, if_neg hcnt_ne, hash_bump_values, hash_bump_size]
  by_cases hcc : c = k
  · subst hcc
    rw [if_pos rfl, getD_set_self _ _ _ _ h, chain_bump_lookup_self]
  · rw [if_neg hcc]
    by_cases hbb : dmp_hash_key al.size c = dmp_hash_key al.size k
    · rw [hbb, getD_set_self _ _ _ _ h, chain_bump_lookup_ne _ _ _ _ hcc,
        ← hbb]
    · rw [getD_set_ne _ _ _ _ _ hbb]

/-- No node with key `c0` is live anywhere when `hash_lookup` misses:
combination of placement, count consistency and the lookup result. -/
theorem countKey_eq_zero_of_lookup_none (p : DMPString) (al : DMP_HT)
    (hsz : al.size = p.length) (hcnt : al.count = totalNodes al)
    (hplace : ∀ b : Nat, ∀ e ∈ al.values.getD b [],
      dmp_hash_key p.length e.1 = b)
    (c0 : Int) (hca : hash_lookup al c0 = none) :
    countKey al c0 = 0 := by
  have hca2 : chain_lookup
      (al.values.getD (dmp_hash_key p.length c0) []) c0 = none := by
    have h3 := hash_lookup_eq_chain al hcnt c0
    rw [hca, hsz] at h3
    exact h3.symm
  unfold countKey
  apply List.sum_eq_zero
  intro x hx
  rw [List.mem_map] at hx
  obtain ⟨chain, hcmem, rfl⟩ := hx
  rw [List.length_eq_zero, List.filter_eq_nil_iff]
  intro e he hek
  rw [decide_eq_true_eq] at hek
  obtain ⟨⟨b, hb⟩, hget⟩ := List.mem_iff_get.mp hcmem
  have hchain_b : al.values.getD b [] = chain := by
    rw [← hget, get_eq_getD]
  have hplaceb := hplace b e (by rw [hchain_b]; exact he)
  rw [hek] at hplaceb
  rw [hplaceb, hchain_b] at hca2
  exact (chain_lookup_eq_none_iff chain c0).mp hca2 e he hek

theorem HTInv_step (p : DMPString) (hp : 0 < p.length) (i : Nat)
    (hi : i < p.length) (al : DMP_HT) (h : HTInv p i al) :
    HTInv p (i + 1)
      (generate_pattern_hash_step p.length al i (p.getD i 0)) := by
  obtain ⟨hsz, hvl, hcnt, hplace, hcount, hlook⟩ := h
  have hidxlt : dmp_hash_key al.size (p.getD i 0) < al.values.length := by
    rw [hsz, hvl]
    exact dmp_hash_key_lt p.length hp (p.getD i 0)
  have hchain : ∀ c, hash_lookup al c =
      chain_lookup (al.values.getD (dmp_hash_key al.size c) []) c :=
    fun c => hash_lookup_eq_chain al hcnt c
  cases hca : hash_lookup al (p.getD i 0) with
  | none =>
    have hnotin : p.getD i 0 ∉ p.take i := by
      intro hmem
      have hl0 := hlook (p.getD i 0)
      rw [if_pos hmem, hca] at hl0
      exact Option.noConfusion hl0
    have hckey0 : countKey al (p.getD i 0) = 0 :=
      countKey_eq_zero_of_lookup_none p al hsz hcnt hplace _ hca
    simp only [generate_pattern_hash_step, hca]
    refine ⟨?_, ?_, ?_, ?_, ?_, ?_⟩
    · rw [hash_insert_size, hsz]
    · rw [hash_insert_values, List.length_set, hvl]
    · rw [hash_insert_count, totalNodes_hash_insert al _ _ hidxlt, hcnt]
    · intro b e he
      rw [hash_insert_values] at he
      by_cases hb : b = dmp_hash_key al.size (p.getD i 0)
      · subst hb
        rw [getD_set_self _ _ _ _ hidxlt] at he
        cases he with
        | head => rw [hsz]
        | tail b2 h1 =>
          have := hplace _ e h1
          rw [hsz] at this ⊢
          exact this
      · rw [getD_set_ne _ _ _ _ _ hb] at he
        exact hplace b e he
    · intro key
      rw [countKey_hash_insert al _ _ key hidxlt]
      by_cases hk : p.getD i 0 = key
      · rw [if_pos hk, ← hk, hckey0]
      · rw [if_neg hk]
        have := hcount key
        omega
    · intro c
      rw [hash_lookup_hash_insert al _ _ c hidxlt]
      by_cases hcc : c = p.getD i 0
      · rw [hcc]
        rw [if_pos rfl, if_pos rfl]
        rw [if_pos ((mem_take_succ_iff p i hi (p.getD i 0)).mpr
          (Or.inr rfl))]
        rw [maskUpTo_succ, if_pos rfl,
          maskUpTo_eq_zero p.length p (p.getD i 0) i (by omega) hnotin,
          Nat.zero_or]
      · have hmem : c ∈ p.take (i + 1) ↔ c ∈ p.take i := by
          rw [mem_take_succ_iff p i hi c]
          exact ⟨fun hx => hx.elim id (fun he => absurd he hcc),
            fun hx => Or.inl hx⟩
        have hmask : maskUpTo p.length p c (i + 1) =
            maskUpTo p.length p c i := by
          rw [maskUpTo_succ, if_neg (fun he => hcc he.symm)]
        have hold := hlook c
        rw [hchain c] at hold
        by_cases hbb : dmp_hash_key al.size c =
            dmp_hash_key al.size (p.getD i 0)
        · rw [if_pos hbb, if_neg (fun he => hcc he.symm), ← hbb, hold]
          simp only [hmem, hmask]
        · rw [if_neg hbb, hold]
          simp only [hmem, hmask]
  | some v =>
    have hin : p.getD i 0 ∈ p.take i := by
      by_contra hmem
      have hl0 := hlook (p.getD i 0)
      rw [if_neg hmem, hca] at hl0
      exact Option.noConfusion hl0
    have hv : v = maskUpTo p.length p (p.getD i 0) i := by
      have hl0 := hlook (p.getD i 0)
      rw [if_pos hin, hca] at hl0
      exact ((Option.some.injEq _ _).mp hl0.symm).symm
    have hcnt_ne : al.count ≠ 0 := by
      intro h0
      unfold hash_lookup at hca
      rw [if_pos h0] at hca
      exact Option.noConfusion hca
    simp only [generate_pattern_hash_step, hca]
    refine ⟨?_, ?_, ?_, ?_, ?_, ?_⟩
    · rw [hash_bump_size, hsz]
    · rw [hash_bump_values, List.length_set, hvl]
    · rw [hash_bump_count, totalNodes_hash_bump al _ _ hidxlt, hcnt]
    · intro b e he
      rw [hash_bump_values] at he
      by_cases hb : b = dmp_hash_key al.size (p.getD i 0)
      · subst hb
        rw [getD_set_self _ _ _ _ hidxlt] at he
        obtain ⟨v0, hv0⟩ := chain_bump_mem _ _ _ e he
        have := hplace _ (e.1, v0) hv0
        rw [hsz] at this ⊢
        exact this
      · rw [getD_set_ne _ _ _ _ _ hb] at he
        exact hplace b e he
    · intro key
      rw [countKey_hash_bump al _ _ key hidxlt]
      exact hcount key
    · intro c
      rw [hash_lookup_hash_bump al _ _ c hidxlt hcnt_ne]
      by_cases hcc : c = p.getD i 0
      · rw [hcc]
        rw [if_pos rfl]
        have hcs : chain_lookup
            (al.values.getD (dmp_hash_key al.size (p.getD i 0)) [])
            (p.getD i 0) = some v := by
          rw [← hchain (p.getD i 0)]
          exact hca
        rw [hcs]
        rw [if_pos ((mem_take_succ_iff p i hi (p.getD i 0)).mpr
          (Or.inr rfl))]
        rw [maskUpTo_succ, if_pos rfl, hv]
        rfl
      · rw [if_neg hcc]
        have hmem : c ∈ p.take (i + 1) ↔ c ∈ p.take i := by
          rw [mem_take_succ_iff p i hi c]
          exact ⟨fun hx => hx.elim id (fun he => absurd he hcc),
            fun hx => Or.inl hx⟩
        have hmask : maskUpTo p.length p c (i + 1) =
            maskUpTo p.length p c i := by
          rw [maskUpTo_succ, if_neg (fun he => hcc he.symm)]
        have hold := hlook c
        rw [hchain c] at hold
        rw [hold]
        simp only [hmem, hmask]

theorem HTInv_go (p : DMPString) (hp : 0 < p.length) :
    ∀ (rest : List Int) (i : Nat) (al : DMP_HT),
      rest = p.drop i → i ≤ p.length → HTInv p i al →
      HTInv p p.length (generate_pattern_hash_go p.length al i rest) := by
  intro rest
  induction rest with
  | nil =>
    intro i al hdrop hile hinv
    have hlen : p.length - i = 0 := by
      have := congrArg List.length hdrop
      simpa [List.length_drop] using this.symm
    have hieq : i = p.length := by omega
    rw [← hieq]
    exact hinv
  | cons c cs ih =>
    intro i al hdrop hile hinv
    have hi : i < p.length := by
      by_contra hge
      rw [List.drop_eq_nil_of_le (by omega)] at hdrop
      exact List.noConfusion hdrop
    have hc : p.getD i 0 = c := by
      have hh : (p.drop i).head? = some c := by rw [← hdrop]; rfl
      rw [List.head?_drop] at hh
      rw [List.getD_eq_getElem?_getD, hh]
      rfl
    have hcs : cs = p.drop (i + 1) := by
      rw [← List.tail_drop p i, ← hdrop]
      rfl
    simp only [generate_pattern_hash_go]
    have hstep := HTInv_step p hp i hi al hinv
    rw [hc] at hstep
    exact ih (i + 1) _ hcs (by omega) hstep

/-- Claim C10: for every nonempty pattern, the hash table built by
`generate_pattern_hash` holds at most one live node per distinct key
anywhere in the table, and the mask stored for each unit value that
occurs in the pattern is exactly the bitwise OR of
`1 << (pattern.size - i - 1)` over the positions `i` at which that
unit occurs (`patternMask`). -/
theorem generate_pattern_hash_spec (pattern : DMPString)
    (hp : pattern ≠ []) :
    (∀ key, countKey (generate_pattern_hash pattern) key ≤ 1) ∧
    (∀ c, c ∈ pattern →
      hash_lookup (generate_pattern_hash pattern) c =
        some (patternMask pattern c)) := by
  have hlen : 0 < pattern.length := List.length_pos.mpr hp
  have hfin := HTInv_go pattern hlen pattern 0 (new_hash pattern.length)
    (by simp) (by omega) (HTInv_init pattern)
  obtain ⟨_, _, _, _, hcount, hlook⟩ := hfin
  refine ⟨hcount, ?_⟩
  intro c hc
  have hl := hlook c
  simp only [List.take_length] at hl
  rw [if_pos hc] at hl
  exact hl

/-- Witness for `generate_pattern_hash_spec` on the pattern
`[3, 5, 3]`: the unit `3` occurs at positions 0 and 2, so its stored
mask is `(1 <<< 2) ||| (1 <<< 0) = 5`, held by a single node. -/
theorem generate_pattern_hash_spec_witness :
    countKey (generate_pattern_hash [3, 5, 3]) 3 ≤ 1 ∧
    hash_lookup (generate_pattern_hash [3, 5, 3]) 3 = some 5 := by
  have h := generate_pattern_hash_spec [3, 5, 3] (by decide)
  refine ⟨h.1 3, ?_⟩
  rw [h.2 3 (by decide)]
  decide

/-! ## Bisecting a sequence against itself (claim C8) -/

theorem fwd_snake_diag (t : DMPString) :
    ∀ (f x : Nat), x ≤ t.length → t.length - x ≤ f →
      fwd_snake t t f (x : Int) (x : Int) =
        ((t.length : Int), (t.length : Int)) := by
  intro f
  induction f with
  | zero =>
    intro x hle hf
    have hx : x = t.length := by omega
    subst hx
    rfl
  | succ f ih =>
    intro x hle hf
    by_cases hx : x < t.length
    · have hcast : ((x + 1 : Nat) : Int) = (x : Int) + 1 := by push_cast; ring
      simp only [fwd_snake]
      rw [if_pos ⟨by exact_mod_cast hx, by exact_mod_cast hx, trivial⟩,
        ← hcast]
      exact ih (x + 1) (by omega) (by omega)
    · have hx2 : x = t.length := by omega
      subst hx2
      simp only [fwd_snake]
      rw [if_neg (fun hc => lt_irrefl _ hc.1)]

theorem bwd_snake_diag (t : DMPString) :
    ∀ (f x : Nat), x ≤ t.length → t.length - x ≤ f →
      bwd_snake t t f (x : Int) (x : Int) =
        ((t.length : Int), (t.length : Int)) := by
  intro f
  induction f with
  | zero =>
    intro x hle hf
    have hx : x = t.length := by omega
    subst hx
    rfl
  | succ f ih =>
    intro x hle hf
    by_cases hx : x < t.length
    · have hcast : ((x + 1 : Nat) : Int) = (x : Int) + 1 := by push_cast; ring
      simp only [bwd_snake]
      rw [if_pos ⟨by exact_mod_cast hx, by exact_mod_cast hx, trivial⟩,
        ← hcast]
      exact ih (x + 1) (by omega) (by omega)
    · have hx2 : x = t.length := by omega
      subst hx2
      simp only [bwd_snake]
      rw [if_neg (fun hc => lt_irrefl _ hc.1)]

theorem diff_fwd_loop_succ (t1 t2 : DMPString) (vOff vLen delta : Int)
    (front : Bool) (d : Nat) (f : Nat) (k1 : Int) (st : DiffState) :
    diff_fwd_loop t1 t2 vOff vLen delta front d (f + 1) k1 st =
      if k1 ≤ (d : Int) - st.k1end then
        match diff_fwd_body t1 t2 vOff vLen delta front d k1 st with
        | .split x y st1 => .split x y st1
        | .cont st1 =>
            diff_fwd_loop t1 t2 vOff vLen delta front d f (k1 + 2) st1
      else .cont st := rfl

theorem diff_bwd_loop_succ (t1 t2 : DMPString) (vOff vLen delta : Int)
    (front : Bool) (d : Nat) (f : Nat) (k2 : Int) (st : DiffState) :
    diff_bwd_loop t1 t2 vOff vLen delta front d (f + 1) k2 st =
      if k2 ≤ (d : Int) - st.k2end then
        match diff_bwd_body t1 t2 vOff vLen delta front d k2 st with
        | .split x y st1 => .split x y st1
        | .cont st1 =>
            diff_bwd_loop t1 t2 vOff vLen delta front d f (k2 + 2) st1
      else .cont st := rfl

/-- The forward half of depth 0 on identical texts: the single diagonal
`k1 = 0` snakes from `(0,0)` all the way to `(m,m)` and the loop
continues (no `front` cross-check since `delta = 0`). -/
theorem diff_fwd_loop_diag (t : DMPString) (vOff vLen : Int)
    (st : DiffState) (hm : 0 < t.length)
    (hvOff : vOff = (t.length : Int)) (hk1e : st.k1end = 0)
    (hv : st.v1 (vOff + 1) = 0) :
    ∃ st1 : DiffState,
      diff_fwd_loop t t vOff vLen 0 false 0 2 0 st = .cont st1 ∧
      st1.v1 vOff = (t.length : Int) ∧
      st1.v2 = st.v2 ∧ st1.k2start = st.k2start ∧ st1.k2end = st.k2end := by
  have hbody : diff_fwd_body t t vOff vLen 0 false 0 0 st =
      .cont { st with
        v1 := upd st.v1 (vOff + 0) (t.length : Int)
        vOk := (st.vOk && inB vLen (vOff + 0 + 1)) && inB vLen (vOff + 0)
        diags := st.diags + 1 } := by
    simp only [diff_fwd_body]
    rw [if_pos (Or.inl (by norm_num))]
    have hvv : st.v1 (vOff + 0 + 1) = 0 := by
      rw [add_zero]
      exact hv
    rw [hvv]
    have hsnake : fwd_snake t t (t.length + t.length + 2) 0 (0 - 0) =
        ((t.length : Int), (t.length : Int)) := by
      rw [sub_zero]
      exact_mod_cast fwd_snake_diag t (t.length + t.length + 2) 0
        (by omega) (by omega)
    rw [hsnake]
    rw [if_neg (by omega), if_neg (by omega)]
    rfl
  rw [show (2 : Nat) = 1 + 1 from rfl, diff_fwd_loop_succ]
  rw [if_pos (by rw [hk1e]; norm_num)]
  rw [hbody]
  show ∃ st1,
      diff_fwd_loop t t vOff vLen 0 false 0 1 (0 + 2)
        { st with
          v1 := upd st.v1 (vOff + 0) (t.length : Int)
          vOk := (st.vOk && inB vLen (vOff + 0 + 1)) && inB vLen (vOff + 0)
          diags := st.diags + 1 } = .cont st1 ∧ _
  rw [show (1 : Nat) = 0 + 1 from rfl, diff_fwd_loop_succ]
  rw [if_neg (by show ¬ ((0 : Int) + 2 ≤ 0 - st.k1end); rw [hk1e]; norm_num)]
  refine ⟨_, rfl, ?_, rfl, rfl, rfl⟩
  show upd st.v1 (vOff + 0) (t.length : Int) vOff = _
  unfold upd
  rw [if_pos (by ring)]

/-- The backward half of depth 0 on identical texts: the single
diagonal `k2 = 0` snakes to `(m,m)`, and since `delta = 0` (not
`front`) the cross-check against the forward vector fires and returns
the split `(m, m)`. -/
theorem diff_bwd_loop_diag (t : DMPString) (vOff vLen : Int)
    (st : DiffState) (hm : 0 < t.length)
    (hvOff : vOff = (t.length : Int)) (hlt : vOff < vLen)
    (hk2e : st.k2end = 0)
    (hv : st.v2 (vOff + 1) = 0) (hv1 : st.v1 vOff = (t.length : Int)) :
    ∃ st2 : DiffState,
      diff_bwd_loop t t vOff vLen 0 false 0 2 0 st =
        .split (t.length : Int) (t.length : Int) st2 := by
  have hbody : ∃ st2, diff_bwd_body t t vOff vLen 0 false 0 0 st =
      .split (t.length : Int) (t.length : Int) st2 := by
    simp only [diff_bwd_body]
    rw [if_pos (Or.inl (by norm_num))]
    have hvv : st.v2 (vOff + 0 + 1) = 0 := by
      rw [add_zero]
      exact hv
    rw [hvv]
    have hsnake : bwd_snake t t (t.length + t.length + 2) 0 (0 - 0) =
        ((t.length : Int), (t.length : Int)) := by
      rw [sub_zero]
      exact_mod_cast bwd_snake_diag t (t.length + t.length + 2) 0
        (by omega) (by omega)
    rw [hsnake]
    dsimp only
    rw [if_neg (by omega), if_neg (by omega)]
    rw [if_pos (show (!false) = true from rfl)]
    rw [show vOff + 0 - 0 = vOff from by ring]
    rw [if_pos ⟨by omega, by omega, by rw [hv1]; omega⟩]
    rw [hv1]
    rw [if_pos (show (t.length : Int) ≥ (t.length : Int) - (t.length : Int)
      from by omega)]
    rw [show vOff + (t.length : Int) - vOff = (t.length : Int) from by ring]
    exact ⟨_, rfl⟩
  obtain ⟨st2, hst2⟩ := hbody
  rw [show (2 : Nat) = 1 + 1 from rfl, diff_bwd_loop_succ]
  rw [if_pos (by rw [hk2e]; norm_num)]
  rw [hst2]
  exact ⟨st2, rfl⟩

theorem diff_dloop_eq_of_pos (t1 t2 : DMPString) (vOff vLen delta : Int)
    (front : Bool) (deadline : Option Int) (clock : Nat → Int)
    (r : Nat) (d : Nat) (st : DiffState) (hr : 0 < r) :
    diff_dloop t1 t2 vOff vLen delta front deadline clock r d st =
      if deadline_hit deadline (clock d) then
        { result := .fallback, splitDepth := none, vOk := st.vOk,
          diags := st.diags }
      else
        match diff_fwd_loop t1 t2 vOff vLen delta front d (d + 2)
            (-(d : Int) + st.k1start) st with
        | .split x y st1 =>
            { result := .split x y, splitDepth := some d, vOk := st1.vOk,
              diags := st1.diags }
        | .cont st1 =>
          match diff_bwd_loop t1 t2 vOff vLen delta front d (d + 2)
              (-(d : Int) + st1.k2start) st1 with
          | .split x y st2 =>
              { result := .split x y, splitDepth := some d, vOk := st2.vOk,
                diags := st2.diags }
          | .cont st2 =>
              diff_dloop t1 t2 vOff vLen delta front deadline clock
                (r - 1) (d + 1) st2 := by
  obtain ⟨r2, rfl⟩ : ∃ r2, r = r2 + 1 := ⟨r - 1, by omega⟩
  rfl

/-- Claim C8: bisecting a nonempty sequence `A` against itself returns
the split `(|A|, |A|)`, found at search depth `d = 0` (the backward
cross-check of the very first depth fires after both snakes run the
full diagonal). -/
theorem diff_bisect_self (t : DMPString) (clock : Nat → Int)
    (h : t ≠ []) :
    (diff_bisect_run t t none clock).result =
      .split (t.length : Int) (t.length : Int) ∧
    (diff_bisect_run t t none clock).splitDepth = some 0 := by
  have hm : 0 < t.length := List.length_pos.mpr h
  have hmd : bisect_max_d t.length t.length = t.length := by
    unfold bisect_max_d
    omega
  have hvl : bisect_v_length t.length t.length = 2 * t.length := by
    unfold bisect_v_length
    rw [hmd]
  have hdelta : ((t.length : Int) - (t.length : Int)) = 0 := sub_self _
  have hfront : (decide (((0 : Int)) % 2 ≠ 0)) = false := by decide
  have hrun : diff_bisect_run t t none clock =
      diff_dloop t t ((t.length : Int)) (((2 * t.length : Nat)) : Int)
        0 false none clock t.length 0
        { v1 := upd (fun _ => -1) ((t.length : Int) + 1) 0
          v2 := upd (fun _ => -1) ((t.length : Int) + 1) 0
          k1start := 0, k1end := 0, k2start := 0, k2end := 0
          vOk := inB (((2 * t.length : Nat)) : Int) ((t.length : Int) + 1) &&
            inB (((2 * t.length : Nat)) : Int) ((t.length : Int) + 1)
          diags := 0 } := by
    simp only [diff_bisect_run]
    rw [hmd, hvl, hdelta, hfront]
  rw [hrun]
  rw [diff_dloop_eq_of_pos t t _ _ _ _ _ _ _ _ _ hm]
  rw [if_neg (by simp [deadline_hit])]
  obtain ⟨st1, hst1, hv1, hv2eq, hk2s, hk2e⟩ :=
    diff_fwd_loop_diag t (t.length : Int) (((2 * t.length : Nat)) : Int)
      { v1 := upd (fun _ => -1) ((t.length : Int) + 1) 0
        v2 := upd (fun _ => -1) ((t.length : Int) + 1) 0
        k1start := 0, k1end := 0, k2start := 0, k2end := 0
        vOk := inB (((2 * t.length : Nat)) : Int) ((t.length : Int) + 1) &&
          inB (((2 * t.length : Nat)) : Int) ((t.length : Int) + 1)
        diags := 0 } hm rfl rfl
      (by simp [upd])
  have hfwd : diff_fwd_loop t t (t.length : Int)
      (((2 * t.length : Nat)) : Int) 0 false 0 (0 + 2)
      (-((0 : Nat) : Int) +
        (DiffState.k1start
          { v1 := upd (fun _ => -1) ((t.length : Int) + 1) 0
            v2 := upd (fun _ => -1) ((t.length : Int) + 1) 0
            k1start := 0, k1end := 0, k2start := 0, k2end := 0
            vOk := inB (((2 * t.length : Nat)) : Int) ((t.length : Int) + 1) &&
              inB (((2 * t.length : Nat)) : Int) ((t.length : Int) + 1)
            diags := 0 }))
      { v1 := upd (fun _ => -1) ((t.length : Int) + 1) 0
        v2 := upd (fun _ => -1) ((t.length : Int) + 1) 0
        k1start := 0, k1end := 0, k2start := 0, k2end := 0
        vOk := inB (((2 * t.length : Nat)) : Int) ((t.length : Int) + 1) &&
          inB (((2 * t.length : Nat)) : Int) ((t.length : Int) + 1)
        diags := 0 } = .cont st1 := by
    rw [show (0 + 2 : Nat) = 2 from rfl]
    rw [show (-((0 : Nat) : Int) + (0 : Int)) = 0 from by norm_num]
    exact hst1
  obtain ⟨st2, hst2⟩ :=
    diff_bwd_loop_diag t (t.length : Int) (((2 * t.length : Nat)) : Int)
      st1 hm rfl (by push_cast; omega)
      (by rw [hk2e])
      (by rw [hv2eq]; simp [upd]) hv1
  have hbwd : diff_bwd_loop t t (t.length : Int)
      (((2 * t.length : Nat)) : Int) 0 false 0 (0 + 2)
      (-((0 : Nat) : Int) + st1.k2start) st1 =
      .split (t.length : Int) (t.length : Int) st2 := by
    rw [show (0 + 2 : Nat) = 2 from rfl]
    rw [show (-((0 : Nat) : Int) + st1.k2start) = 0 from by
      rw [hk2s]
      norm_num]
    exact hst2
  simp only [hfwd, hbwd]
  exact ⟨trivial, trivial⟩

/-- Witness for `diff_bisect_self` at `A = [5, 6]`. -/
theorem diff_bisect_self_witness :
    (diff_bisect_run [5, 6] [5, 6] none (fun _ => 0)).result =
      .split 2 2 ∧
    (diff_bisect_run [5, 6] [5, 6] none (fun _ => 0)).splitDepth =
      some 0 :=
  diff_bisect_self [5, 6] (fun _ => 0) (by decide)

/-! ## Bounds of the diagonal-vector accesses (claim C5) -/

/-- The state reached by an inner-loop outcome. -/
def stOf (res : LoopRes) : DiffState :=
  match res with
  | .split _ _ s => s
  | .cont s => s

/-- The four frontier trim counters stay nonnegative. -/
def KOk (st : DiffState) : Prop :=
  0 ≤ st.k1start ∧ 0 ≤ st.k1end ∧ 0 ≤ st.k2start ∧ 0 ≤ st.k2end

theorem inB_true (vLen i : Int) (h1 : 0 ≤ i) (h2 : i < vLen) :
    inB vLen i = true := by
  simp [inB]
  omega

theorem diff_fwd_body_ok (t1 t2 : DMPString) (vOff vLen delta : Int)
    (front : Bool) (maxD : Nat) (d : Nat) (k1 : Int) (st : DiffState)
    (hOff : vOff = (maxD : Int)) (hLen : vLen = 2 * vOff)
    (hmd : 2 ≤ maxD) (hd : d + 1 ≤ maxD)
    (hklo : -(d : Int) ≤ k1) (hkhi : k1 ≤ (d : Int))
    (hok : st.vOk = true) (hK : KOk st) :
    (stOf (diff_fwd_body t1 t2 vOff vLen delta front d k1 st)).vOk = true ∧
    KOk (stOf (diff_fwd_body t1 t2 vOff vLen delta front d k1 st)) := by
  obtain ⟨h1, h2, h3, h4⟩ := hK
  subst hOff hLen
  have hcast : ((maxD : Int)) = (maxD : Int) := rfl
  have hokread : (st.vOk &&
      (if k1 = -(d : Int) then inB (2 * (maxD : Int)) ((maxD : Int) + k1 + 1)
       else if k1 = (d : Int) then inB (2 * (maxD : Int)) ((maxD : Int) + k1 - 1)
       else inB (2 * (maxD : Int)) ((maxD : Int) + k1 - 1) &&
         inB (2 * (maxD : Int)) ((maxD : Int) + k1 + 1))) = true := by
    rw [hok]
    by_cases hc1 : k1 = -(d : Int)
    · rw [if_pos hc1]
      rw [inB_true _ _ (by omega) (by omega)]
      rfl
    · rw [if_neg hc1]
      by_cases hc2 : k1 = (d : Int)
      · rw [if_pos hc2]
        rw [inB_true _ _ (by omega) (by omega)]
        rfl
      · rw [if_neg hc2]
        rw [inB_true _ _ (by omega) (by omega),
          inB_true _ _ (by omega) (by omega)]
        rfl
  have hokw : ((st.vOk &&
      (if k1 = -(d : Int) then inB (2 * (maxD : Int)) ((maxD : Int) + k1 + 1)
       else if k1 = (d : Int) then inB (2 * (maxD : Int)) ((maxD : Int) + k1 - 1)
       else inB (2 * (maxD : Int)) ((maxD : Int) + k1 - 1) &&
         inB (2 * (maxD : Int)) ((maxD : Int) + k1 + 1))) &&
      inB (2 * (maxD : Int)) ((maxD : Int) + k1)) = true := by
    rw [hokread, inB_true _ _ (by omega) (by omega)]
    rfl
  simp only [diff_fwd_body]
  generalize hOK : ((st.vOk &&
      (if k1 = -(d : Int) then inB (2 * (maxD : Int)) ((maxD : Int) + k1 + 1)
       else if k1 = (d : Int) then inB (2 * (maxD : Int)) ((maxD : Int) + k1 - 1)
       else inB (2 * (maxD : Int)) ((maxD : Int) + k1 - 1) &&
         inB (2 * (maxD : Int)) ((maxD : Int) + k1 + 1))) &&
      inB (2 * (maxD : Int)) ((maxD : Int) + k1)) = okv
  rw [hokw] at hOK
  have hokv : okv = true := hOK.symm
  repeat' split
  all_goals dsimp only [stOf, KOk]
  all_goals exact ⟨hokv, by omega, by omega, by omega, by omega⟩

theorem diff_bwd_body_ok (t1 t2 : DMPString) (vOff vLen delta : Int)
    (front : Bool) (maxD : Nat) (d : Nat) (k2 : Int) (st : DiffState)
    (hOff : vOff = (maxD : Int)) (hLen : vLen = 2 * vOff)
    (hmd : 2 ≤ maxD) (hd : d + 1 ≤ maxD)
    (hklo : -(d : Int) ≤ k2) (hkhi : k2 ≤ (d : Int))
    (hok : st.vOk = true) (hK : KOk st) :
    (stOf (diff_bwd_body t1 t2 vOff vLen delta front d k2 st)).vOk = true ∧
    KOk (stOf (diff_bwd_body t1 t2 vOff vLen delta front d k2 st)) := by
  obtain ⟨h1, h2, h3, h4⟩ := hK
  subst hOff hLen
  have hokread : (st.vOk &&
      (if k2 = -(d : Int) then inB (2 * (maxD : Int)) ((maxD : Int) + k2 + 1)
       else if k2 = (d : Int) then inB (2 * (maxD : Int)) ((maxD : Int) + k2 - 1)
       else inB (2 * (maxD : Int)) ((maxD : Int) + k2 - 1) &&
         inB (2 * (maxD : Int)) ((maxD : Int) + k2 + 1))) = true := by
    rw [hok]
    by_cases hc1 : k2 = -(d : Int)
    · rw [if_pos hc1]
      rw [inB_true _ _ (by omega) (by omega)]
      rfl
    · rw [if_neg hc1]
      by_cases hc2 : k2 = (d : Int)
      · rw [if_pos hc2]
        rw [inB_true _ _ (by omega) (by omega)]
        rfl
      · rw [if_neg hc2]
        rw [inB_true _ _ (by omega) (by omega),
          inB_true _ _ (by omega) (by omega)]
        rfl
  have hokw : ((st.vOk &&
      (if k2 = -(d : Int) then inB (2 * (maxD : Int)) ((maxD : Int) + k2 + 1)
       else if k2 = (d : Int) then inB (2 * (maxD : Int)) ((maxD : Int) + k2 - 1)
       else inB (2 * (maxD : Int)) ((maxD : Int) + k2 - 1) &&
         inB (2 * (maxD : Int)) ((maxD : Int) + k2 + 1))) &&
      inB (2 * (maxD : Int)) ((maxD : Int) + k2)) = true := by
    rw [hokread, inB_true _ _ (by omega) (by omega)]
    rfl
  simp only [diff_bwd_body]
  generalize hOK : ((st.vOk &&
      (if k2 = -(d : Int) then inB (2 * (maxD : Int)) ((maxD : Int) + k2 + 1)
       else if k2 = (d : Int) then inB (2 * (maxD : Int)) ((maxD : Int) + k2 - 1)
       else inB (2 * (maxD : Int)) ((maxD : Int) + k2 - 1) &&
         inB (2 * (maxD : Int)) ((maxD : Int) + k2 + 1))) &&
      inB (2 * (maxD : Int)) ((maxD : Int) + k2)) = okv
  rw [hokw] at hOK
  have hokv : okv = true := hOK.symm
  repeat' split
  all_goals dsimp only [stOf, KOk]
  all_goals exact ⟨hokv, by omega, by omega, by omega, by omega⟩

theorem diff_fwd_loop_ok (t1 t2 : DMPString) (vOff vLen delta : Int)
    (front : Bool) (maxD : Nat) (d : Nat)
    (hOff : vOff = (maxD : Int)) (hLen : vLen = 2 * vOff)
    (hmd : 2 ≤ maxD) (hd : d + 1 ≤ maxD) :
    ∀ (f : Nat) (k1 : Int) (st : DiffState), st.vOk = true → KOk st →
      -(d : Int) ≤ k1 →
      (stOf (diff_fwd_loop t1 t2 vOff vLen delta front d f k1 st)).vOk =
        true ∧
      KOk (stOf (diff_fwd_loop t1 t2 vOff vLen delta front d f k1 st)) := by
  intro f
  induction f with
  | zero => intro k1 st hok hK hklo; exact ⟨hok, hK⟩
  | succ f ih =>
    intro k1 st hok hK hklo
    rw [diff_fwd_loop_succ]
    by_cases hg : k1 ≤ (d : Int) - st.k1end
    · rw [if_pos hg]
      have hkhi : k1 ≤ (d : Int) := by
        have := hK.2.1
        omega
      have hbody := diff_fwd_body_ok t1 t2 vOff vLen delta front maxD d k1
        st hOff hLen hmd hd hklo hkhi hok hK
      cases hb : diff_fwd_body t1 t2 vOff vLen delta front d k1 st with
      | split x y st1 =>
        rw [hb] at hbody
        exact hbody
      | cont st1 =>
        rw [hb] at hbody
        exact ih (k1 + 2) st1 hbody.1 hbody.2 (by omega)
    · rw [if_neg hg]
      exact ⟨hok, hK⟩

theorem diff_bwd_loop_ok (t1 t2 : DMPString) (vOff vLen delta : Int)
    (front : Bool) (maxD : Nat) (d : Nat)
    (hOff : vOff = (maxD : Int)) (hLen : vLen = 2 * vOff)
    (hmd : 2 ≤ maxD) (hd : d + 1 ≤ maxD) :
    ∀ (f : Nat) (k2 : Int) (st : DiffState), st.vOk = true → KOk st →
      -(d : Int) ≤ k2 →
      (stOf (diff_bwd_loop t1 t2 vOff vLen delta front d f k2 st)).vOk =
        true ∧
      KOk (stOf (diff_bwd_loop t1 t2 vOff vLen delta front d f k2 st)) := by
  intro f
  induction f with
  | zero => intro k2 st hok hK hklo; exact ⟨hok, hK⟩
  | succ f ih =>
    intro k2 st hok hK hklo
    rw [diff_bwd_loop_succ]
    by_cases hg : k2 ≤ (d : Int) - st.k2end
    · rw [if_pos hg]
      have hkhi : k2 ≤ (d : Int) := by
        have := hK.2.2.2
        omega
      have hbody := diff_bwd_body_ok t1 t2 vOff vLen delta front maxD d k2
        st hOff hLen hmd hd hklo hkhi hok hK
      cases hb : diff_bwd_body t1 t2 vOff vLen delta front d k2 st with
      | split x y st1 =>
        rw [hb] at hbody
        exact hbody
      | cont st1 =>
        rw [hb] at hbody
        exact ih (k2 + 2) st1 hbody.1 hbody.2 (by omega)
    · rw [if_neg hg]
      exact ⟨hok, hK⟩

theorem diff_dloop_ok (t1 t2 : DMPString) (vOff vLen delta : Int)
    (front : Bool) (deadline : Option Int) (clock : Nat → Int) (maxD : Nat)
    (hOff : vOff = (maxD : Int)) (hLen : vLen = 2 * vOff) (hmd : 2 ≤ maxD) :
    ∀ (r d : Nat) (st : DiffState), d + r = maxD → st.vOk = true →
      KOk st →
      (diff_dloop t1 t2 vOff vLen delta front deadline clock r d st).vOk =
        true := by
  intro r
  induction r with
  | zero => intro d st _ hok _; exact hok
  | succ r ih =>
    intro d st hsum hok hK
    rw [diff_dloop_eq_of_pos _ _ _ _ _ _ _ _ _ _ _ (Nat.succ_pos r)]
    by_cases hdl : deadline_hit deadline (clock d) = true
    · rw [if_pos hdl]
      exact hok
    · rw [if_neg hdl]
      have hd : d + 1 ≤ maxD := by omega
      have hfwd := diff_fwd_loop_ok t1 t2 vOff vLen delta front maxD d
        hOff hLen hmd hd (d + 2) (-(d : Int) + st.k1start) st hok hK
        (by have := hK.1; omega)
      split
      next x y st1 heq =>
        rw [heq] at hfwd
        exact hfwd.1
      next st1 heq =>
        rw [heq] at hfwd
        dsimp only [stOf] at hfwd
        have hbwd := diff_bwd_loop_ok t1 t2 vOff vLen delta front maxD d
          hOff hLen hmd hd (d + 2) (-(d : Int) + st1.k2start) st1
          hfwd.1 hfwd.2 (by have := hfwd.2.2.2.1; omega)
        split
        next x y st2 heq2 =>
          rw [heq2] at hbwd
          exact hbwd.1
        next st2 heq2 =>
          rw [heq2] at hbwd
          dsimp only [stOf] at hbwd
          exact ih (d + 1) st2 (by omega) hbwd.1 hbwd.2

/-- Claim C5, counterexample: the declared length of `v1`/`v2` is
`v_length = 2 * max_d` (diff.c line 39), *not* `2 * max_d + 1` as
claimed; and for the one-unit inputs `[1]`, `[2]` (`max_d = 1`,
`v_length = 2`) the initial writes `v1[v_offset + 1] = v1[2]` and
`v2[2]` already fall outside the declared extent, so the instrumented
bounds flag of the run is `false`. -/
theorem diff_bisect_v_oob_small :
    (diff_bisect_run [1] [2] none (fun _ => 0)).vOk = false ∧
    bisect_v_length 1 1 = 2 ∧
    bisect_v_length 1 1 ≠ 2 * bisect_max_d 1 1 + 1 := by
  refine ⟨by decide, by decide, by decide⟩

/-- Claim C5 (amended): the diagonal vectors have declared length
`2 * max_d` with `max_d = ⌈(m+n)/2⌉`, and whenever `m + n ≥ 3` every
`v1`/`v2` access of the whole bisection run — the `memset` range, the
two seed writes at `v_offset + 1`, the frontier reads at
`k_offset ± 1` (under C short-circuit evaluation), the writes at
`k_offset`, and the two cross-check reads (which the source itself
guards with `0 ≤ offset < v_length`) — stays within
`[0, v_length)`.  For `m + n ≤ 2` the seed writes are out of bounds
(see the counterexample). -/
theorem diff_bisect_v_accesses_ok (t1 t2 : DMPString)
    (deadline : Option Int) (clock : Nat → Int)
    (h3 : 3 ≤ t1.length + t2.length) :
    (diff_bisect_run t1 t2 deadline clock).vOk = true ∧
    bisect_v_length t1.length t2.length =
      2 * bisect_max_d t1.length t2.length := by
  refine ⟨?_, rfl⟩
  have hmd : 2 ≤ bisect_max_d t1.length t2.length := by
    unfold bisect_max_d
    omega
  have hok0 : (inB ((bisect_v_length t1.length t2.length : Nat) : Int)
        ((bisect_max_d t1.length t2.length : Int) + 1) &&
      inB ((bisect_v_length t1.length t2.length : Nat) : Int)
        ((bisect_max_d t1.length t2.length : Int) + 1)) = true := by
    rw [inB_true _ _ (by omega) ?_]
    · rfl
    · unfold bisect_v_length
      push_cast
      omega
  unfold diff_bisect_run
  exact diff_dloop_ok t1 t2 _ _ _ _ deadline clock
    (bisect_max_d t1.length t2.length) rfl
    (by unfold bisect_v_length; push_cast; ring) hmd
    (bisect_max_d t1.length t2.length) 0 _ (by omega) hok0
    ⟨le_refl 0, le_refl 0, le_refl 0, le_refl 0⟩

/-- Witness for `diff_bisect_v_accesses_ok` on `[1, 2]` vs `[3]`
(`m + n = 3`). -/
theorem diff_bisect_v_accesses_ok_witness :
    (diff_bisect_run [1, 2] [3] none (fun _ => 0)).vOk = true ∧
    bisect_v_length 2 1 = 2 * bisect_max_d 2 1 :=
  diff_bisect_v_accesses_ok [1, 2] [3] none (fun _ => 0) (by decide)

/-! ## Exact matches at threshold 0 (claim C1) -/

theorem charAt_eq_getD (t : DMPString) (i : Int) (h0 : 0 ≤ i)
    (h : i.toNat < t.length) : charAt t i = t.getD i.toNat 0 := by
  unfold charAt
  rw [dif_pos ⟨h0, h⟩]
  exact get_eq_getD t _ h 0

/-- If `c` occurs at position `t < n` of the pattern, the cut-off mask
has bit `psize - t - 1` set. -/
theorem maskUpTo_testBit_of (psize : Nat) (p : DMPString) (c : Int) :
    ∀ (n t : Nat), t < n → p.getD t 0 = c →
      Nat.testBit (maskUpTo psize p c n) (psize - t - 1) = true := by
  intro n
  induction n with
  | zero => intro t ht _; exact absurd ht (Nat.not_lt_zero t)
  | succ n ih =>
    intro t ht hc
    rw [maskUpTo_succ]
    by_cases hn : p.getD n 0 = c
    · rw [if_pos hn, Nat.testBit_or]
      rcases Nat.lt_succ_iff_lt_or_eq.mp ht with h | h
      · rw [ih t h hc, Bool.true_or]
      · subst h
        rw [Nat.testBit_two_pow_self, Bool.or_true]
    · rw [if_neg hn]
      rcases Nat.lt_succ_iff_lt_or_eq.mp ht with h | h
      · exact ih t h hc
      · subst h
        exact absurd hc hn

theorem and_two_pow_eq_zero_of_lt (n k : Nat) (h : n < 2 ^ k) :
    n &&& 2 ^ k = 0 := by
  apply Nat.eq_of_testBit_eq
  intro b
  rw [Nat.testBit_and, Nat.zero_testBit]
  by_cases hb : b = k
  · subst hb
    rw [Nat.testBit_lt_two_pow h, Bool.false_and]
  · rw [Nat.testBit_two_pow, decide_eq_false (fun hkb => hb hkb.symm),
      Bool.and_false]

theorem and_two_pow_ne_zero_of_testBit (n k : Nat)
    (h : n.testBit k = true) : n &&& 2 ^ k ≠ 0 := by
  intro h0
  have hf : (n &&& 2 ^ k).testBit k = false := by
    rw [h0]
    exact Nat.zero_testBit k
  rw [Nat.testBit_and, h, Nat.testBit_two_pow, decide_eq_true rfl] at hf
  simp at hf

theorem score_exact_zero (pattern : DMPString) (loc : Int)
    (distance : Nat) :
    match_bitap_score 0 loc pattern loc distance = 0 := by
  rw [match_bitap_score_eq]
  simp

theorem score_off_pos (pattern : DMPString) (loc e : Int) (distance : Nat)
    (hne : e ≠ loc) : 0 < match_bitap_score 0 e pattern loc distance := by
  rw [match_bitap_score_eq]
  have habs : 0 < |(e : ℚ) - (loc : ℚ)| := by
    rw [abs_pos, sub_ne_zero]
    exact_mod_cast hne
  by_cases hd : distance = 0
  · rw [if_pos hd, if_neg (ne_of_gt habs)]
    norm_num
  · rw [if_neg hd]
    have hdq : (0 : ℚ) < (distance : ℚ) := by
      exact_mod_cast Nat.pos_of_ne_zero hd
    have := div_pos habs hdq
    simpa using this

theorem score_one_pos (pattern : DMPString) (loc : Int) (distance : Nat)
    (hp : 0 < pattern.length) :
    0 < match_bitap_score 1 loc pattern loc distance := by
  rw [match_bitap_score_eq]
  have h1 : (0 : ℚ) < (1 : ℚ) / (pattern.length : ℚ) := by
    apply div_pos one_pos
    exact_mod_cast hp
  by_cases hd : distance = 0
  · rw [if_pos hd, if_pos (by simp)]
    simpa using h1
  · rw [if_neg hd]
    simp only [sub_self, abs_zero, zero_div, add_zero, Nat.cast_one]
    exact h1

/-- With a threshold below the score of every strictly positive
radius, the binary search over `bin_mid` converges to `0`. -/
theorem binsearch_all_pos (pattern : DMPString) (loc : Int)
    (distance : Nat) (thr : ℚ) (i : Nat)
    (hsc : ∀ b : Int, 0 < b →
      thr < match_bitap_score i (loc + b) pattern loc distance) :
    ∀ (f : Nat) (binMid binMax : Int), 0 ≤ binMid → binMid.toNat < f →
      match_bitap_binsearch pattern loc distance thr i f 0 binMid binMax =
        0 := by
  intro f
  induction f with
  | zero => intro binMid binMax h0 hf; exact absurd hf (Nat.not_lt_zero _)
  | succ f ih =>
    intro binMid binMax h0 hf
    simp only [match_bitap_binsearch]
    by_cases hpos : (0 : Int) < binMid
    · rw [if_pos hpos, if_neg (not_le.mpr (hsc binMid hpos)), sub_zero,
        add_zero]
      exact ih (binMid / 2) binMid (by omega) (by omega)
    · rw [if_neg hpos]
      omega

/-- The alphabet-mask read performed for the text unit at index `x`
(`hash_lookup` through the NULL-defaulting `alpha_value` of match.c
lines 277-280, modelled by `getD 0`). -/
def alphaOf (text pattern : DMPString) : Int → Nat :=
  fun x =>
    (hash_lookup (generate_pattern_hash pattern) (charAt text x)).getD 0

/-- The pure model of the level-0 `rd` recurrence (match.c line 283):
`rdSeq s` is the bit-vector written at `j = F - s + 1` when the loop
started at `j = F` from the all-zero seed. -/
def rdSeq (A : Int → Nat) (F : Int) : Nat → Nat
  | 0 => 0
  | s + 1 => ((rdSeq A F s <<< 1) ||| 1) &&& A (F - (s : Int) - 1)

theorem rdSeq_succ (A : Int → Nat) (F : Int) (s : Nat) :
    rdSeq A F (s + 1) =
      ((rdSeq A F s <<< 1) ||| 1) &&& A (F - (s : Int) - 1) := rfl

/-- After `s` steps the bit-vector fits in `s` bits: each shift adds
one bit and the conjunction only clears bits. -/
theorem rdSeq_lt (A : Int → Nat) (F : Int) : ∀ s, rdSeq A F s < 2 ^ s := by
  intro s
  induction s with
  | zero => exact Nat.zero_lt_one
  | succ s ih =>
    have h1 : rdSeq A F (s + 1) ≤ (rdSeq A F s <<< 1) ||| 1 :=
      Nat.and_le_left
    have h2 : (rdSeq A F s <<< 1) ||| 1 < 2 ^ (s + 1) := by
      apply Nat.or_lt_two_pow
      · rw [Nat.shiftLeft_eq, pow_one, pow_succ]
        omega
      · exact Nat.one_lt_two_pow_iff.mpr (by omega)
    omega

/-- Sufficiency half of the Bitap bit invariant: bit `b` of `rdSeq s`
is set as soon as `b < s` and the last `b + 1` alphabet masks carry
the matching diagonal of bits. -/
theorem rdSeq_testBit_of (A : Int → Nat) (F : Int) :
    ∀ (s b : Nat), b < s →
      (∀ t : Nat, t ≤ b →
        Nat.testBit (A (F - (s : Int) + (t : Int))) (b - t) = true) →
      Nat.testBit (rdSeq A F s) b = true := by
  intro s
  induction s with
  | zero => intro b hb _; exact absurd hb (Nat.not_lt_zero b)
  | succ s ih =>
    intro b hb hA
    rw [rdSeq_succ, Nat.testBit_and, Bool.and_eq_true]
    constructor
    · rw [Nat.testBit_or]
      cases b with
      | zero =>
        have h1 : Nat.testBit 1 0 = true := by decide
        rw [h1, Bool.or_true]
      | succ k =>
        have h1 : Nat.testBit 1 (k + 1) = false := by
          rw [show (1 : Nat) = 2 ^ 0 from rfl, Nat.testBit_two_pow]
          simp
        rw [h1, Bool.or_false, Nat.testBit_shiftLeft,
          decide_eq_true (show 1 ≤ k + 1 by omega), Bool.true_and,
          show k + 1 - 1 = k from rfl]
        apply ih k (by omega)
        intro t ht
        have hstep := hA (t + 1) (by omega)
        have harg : F - ((s + 1 : Nat) : Int) + ((t + 1 : Nat) : Int) =
            F - (s : Int) + (t : Int) := by omega
        rw [harg, show k + 1 - (t + 1) = k - t from by omega] at hstep
        exact hstep
    · have hstep := hA 0 (Nat.zero_le b)
      have harg : F - ((s + 1 : Nat) : Int) + ((0 : Nat) : Int) =
          F - (s : Int) - 1 := by omega
      rw [harg, show b - 0 = b from rfl] at hstep
      exact hstep

/-- Level-0 pass of the bit-vector loop over an exact occurrence at
`loc`: entered at any `j` between the acceptance point `loc + 1` and
`finish = loc + pattern.size` with the `rd` recurrence in sync, a
threshold of `0` and `start = loc + 1`, it runs down to `j = loc + 1`,
fires the match bit there, accepts `best_loc = loc` at score `0` and
breaks. -/
theorem match_bitap_inner_exact (cfg : MatchCfg) (text pattern : DMPString)
    (loc : Int) (lastRd : Int → Nat) (hp : 0 < pattern.length)
    (hocc : ∀ t : Nat, t < pattern.length →
      charAt text (loc + (t : Int)) = pattern.getD t 0)
    (halpha : ∀ c, c ∈ pattern →
      hash_lookup (generate_pattern_hash pattern) c =
        some (patternMask pattern c)) :
    ∀ (n f : Nat) (j : Int) (st : RdState),
      j = loc + 1 + (n : Int) →
      j ≤ loc + (pattern.length : Int) →
      n + 1 ≤ f →
      st.start = loc + 1 →
      st.scoreThreshold = 0 →
      st.rd (j + 1) =
        rdSeq (alphaOf text pattern) (loc + (pattern.length : Int))
          ((loc + (pattern.length : Int) - j).toNat) →
      (match_bitap_inner cfg (generate_pattern_hash pattern) text pattern
          loc 0 lastRd (2 ^ (pattern.length - 1)) f j st).bestLoc = loc ∧
      (match_bitap_inner cfg (generate_pattern_hash pattern) text pattern
          loc 0 lastRd (2 ^ (pattern.length - 1)) f j st).scoreThreshold =
        0 := by
  intro n
  induction n with
  | zero =>
    intro f j st hj hj2 hf hstart hthr hrd
    cases f with
    | zero => exact absurd hf (by omega)
    | succ f =>
      have hj1 : j = loc + 1 := by omega
      subst hj1
      simp only [match_bitap_inner]
      rw [hstart, if_neg (by omega), if_pos trivial, hrd]
      have hsv : (loc + (pattern.length : Int) - (loc + 1)).toNat + 1 =
          pattern.length := by omega
      have hstep :
          ((rdSeq (alphaOf text pattern) (loc + (pattern.length : Int))
              ((loc + (pattern.length : Int) - (loc + 1)).toNat) <<< 1) |||
            1) &&&
            (hash_lookup (generate_pattern_hash pattern)
              (charAt text (loc + 1 - 1))).getD 0 =
          rdSeq (alphaOf text pattern) (loc + (pattern.length : Int))
            pattern.length := by
        have harg : loc + (pattern.length : Int) -
            (((loc + (pattern.length : Int) - (loc + 1)).toNat : Nat) :
              Int) - 1 = loc + 1 - 1 := by omega
        calc ((rdSeq (alphaOf text pattern) (loc + (pattern.length : Int))
                ((loc + (pattern.length : Int) - (loc + 1)).toNat) <<< 1) |||
              1) &&&
              (hash_lookup (generate_pattern_hash pattern)
                (charAt text (loc + 1 - 1))).getD 0 =
            rdSeq (alphaOf text pattern) (loc + (pattern.length : Int))
              ((loc + (pattern.length : Int) - (loc + 1)).toNat + 1) := by
              rw [rdSeq_succ, harg]
              rfl
          _ = rdSeq (alphaOf text pattern) (loc + (pattern.length : Int))
              pattern.length := by rw [hsv]
      rw [hstep]
      have hbit : Nat.testBit
          (rdSeq (alphaOf text pattern) (loc + (pattern.length : Int))
            pattern.length) (pattern.length - 1) = true := by
        apply rdSeq_testBit_of _ _ _ _ (by omega)
        intro t ht
        have htlt : t < pattern.length := by omega
        have harg : loc + (pattern.length : Int) -
            ((pattern.length : Nat) : Int) + (t : Int) = loc + (t : Int) := by
          ring
        rw [harg]
        have hAv : alphaOf text pattern (loc + (t : Int)) =
            patternMask pattern (pattern.getD t 0) := by
          unfold alphaOf
          rw [hocc t htlt, halpha (pattern.getD t 0) ?_]
          · rfl
          · rw [List.getD_eq_getElem pattern 0 htlt]
            exact List.getElem_mem htlt
        rw [hAv, show pattern.length - 1 - t = pattern.length - t - 1 from
          by omega]
        exact maskUpTo_testBit_of pattern.length pattern
          (pattern.getD t 0) pattern.length t htlt rfl
      rw [if_neg (and_two_pow_ne_zero_of_testBit _ _ hbit),
        show loc + 1 - 1 = loc from by ring, score_exact_zero, hthr,
        if_pos le_rfl, if_neg (lt_irrefl loc)]
      exact ⟨rfl, rfl⟩
  | succ n ih =>
    intro f j st hj hj2 hf hstart hthr hrd
    cases f with
    | zero => exact absurd hf (by omega)
    | succ f =>
      simp only [match_bitap_inner]
      rw [hstart, if_neg (by omega), if_pos trivial, hrd]
      have hsv : (loc + (pattern.length : Int) - j).toNat + 1 =
          (loc + (pattern.length : Int) - (j - 1)).toNat := by omega
      have hstep :
          ((rdSeq (alphaOf text pattern) (loc + (pattern.length : Int))
              ((loc + (pattern.length : Int) - j).toNat) <<< 1) ||| 1) &&&
            (hash_lookup (generate_pattern_hash pattern)
              (charAt text (j - 1))).getD 0 =
          rdSeq (alphaOf text pattern) (loc + (pattern.length : Int))
            ((loc + (pattern.length : Int) - (j - 1)).toNat) := by
        have harg : loc + (pattern.length : Int) -
            (((loc + (pattern.length : Int) - j).toNat : Nat) : Int) - 1 =
            j - 1 := by omega
        calc ((rdSeq (alphaOf text pattern) (loc + (pattern.length : Int))
                ((loc + (pattern.length : Int) - j).toNat) <<< 1) ||| 1) &&&
              (hash_lookup (generate_pattern_hash pattern)
                (charAt text (j - 1))).getD 0 =
            rdSeq (alphaOf text pattern) (loc + (pattern.length : Int))
              ((loc + (pattern.length : Int) - j).toNat + 1) := by
              rw [rdSeq_succ, harg]
              rfl
          _ = rdSeq (alphaOf text pattern) (loc + (pattern.length : Int))
              ((loc + (pattern.length : Int) - (j - 1)).toNat) := by
              rw [hsv]
      rw [hstep]
      have hlt : rdSeq (alphaOf text pattern) (loc + (pattern.length : Int))
          ((loc + (pattern.length : Int) - (j - 1)).toNat) <
          2 ^ (pattern.length - 1) := by
        have h1 := rdSeq_lt (alphaOf text pattern)
          (loc + (pattern.length : Int))
          ((loc + (pattern.length : Int) - (j - 1)).toNat)
        have h2 : (loc + (pattern.length : Int) - (j - 1)).toNat ≤
            pattern.length - 1 := by omega
        exact lt_of_lt_of_le h1 (Nat.pow_le_pow_right (by norm_num) h2)
      rw [if_pos (and_two_pow_eq_zero_of_lt _ _ hlt)]
      refine ih f (j - 1) _ (by omega) (by omega) (by omega) rfl hthr ?_
      show updN st.rd j
        (rdSeq (alphaOf text pattern) (loc + (pattern.length : Int))
          ((loc + (pattern.length : Int) - (j - 1)).toNat)) (j - 1 + 1) = _
      rw [show j - 1 + 1 = j from by ring]
      simp [updN]

/-- The error-level loop at threshold 0 over an exact occurrence:
level 0 binary-searches `bin_mid` down to `0`, scans
`[loc + 1, loc + pattern.size]`, accepts `best_loc = loc` at score `0`,
and the `score(1, loc) > 0` guard then breaks out of the loop. -/
theorem match_bitap_outer_exact (cfg : MatchCfg) (text pattern : DMPString)
    (loc : Nat) (hp : 0 < pattern.length)
    (hfit : loc + pattern.length ≤ text.length)
    (hocc : ∀ t : Nat, t < pattern.length →
      text.getD (loc + t) 0 = pattern.getD t 0)
    (st0 : MatchLoopState)
    (hthr : st0.scoreThreshold = 0)
    (hbm : 0 ≤ st0.binMax) :
    (match_bitap_outer cfg (generate_pattern_hash pattern) text pattern
        (loc : Int) (2 ^ (pattern.length - 1)) (pattern.length + 1) 0
        st0).bestLoc = (loc : Int) := by
  have hocc' : ∀ t : Nat, t < pattern.length →
      charAt text ((loc : Int) + (t : Int)) = pattern.getD t 0 := by
    intro t ht
    rw [charAt_eq_getD text _ (by omega) (by omega),
      show (((loc : Int) + (t : Int)).toNat) = loc + t from by omega]
    exact hocc t ht
  have halpha : ∀ c, c ∈ pattern →
      hash_lookup (generate_pattern_hash pattern) c =
        some (patternMask pattern c) := by
    have hfin := HTInv_go pattern hp pattern 0 (new_hash pattern.length)
      (by simp) (by omega) (HTInv_init pattern)
    obtain ⟨-, -, -, -, -, hlook⟩ := hfin
    intro c hc
    have hl := hlook c
    simp only [List.take_length] at hl
    rw [if_pos hc] at hl
    exact hl
  have hsc : ∀ b : Int, 0 < b →
      (0 : ℚ) < match_bitap_score 0 ((loc : Int) + b) pattern (loc : Int)
        cfg.distance :=
    fun b hb => score_off_pos pattern _ _ _ (by omega)
  have hbin : match_bitap_binsearch pattern (loc : Int) cfg.distance 0 0
      (st0.binMax.toNat + 2) 0 st0.binMax st0.binMax = 0 :=
    binsearch_all_pos pattern (loc : Int) cfg.distance 0 0 hsc
      (st0.binMax.toNat + 2) st0.binMax st0.binMax hbm (by omega)
  simp only [match_bitap_outer]
  rw [if_pos hp, hthr, hbin,
    show (loc : Int) - 0 + 1 = (loc : Int) + 1 from by ring,
    max_eq_right (by omega : (1 : Int) ≤ (loc : Int) + 1),
    show (loc : Int) + 0 = (loc : Int) from by ring,
    min_eq_left (by omega : (loc : Int) ≤ (text.length : Int))]
  have hinner := match_bitap_inner_exact cfg text pattern (loc : Int)
    st0.lastRd hp hocc' halpha (pattern.length - 1)
    (((loc : Int) + (pattern.length : Int)).toNat + 1)
    ((loc : Int) + (pattern.length : Int))
    ⟨updN (fun _ => 0) ((loc : Int) + (pattern.length : Int) + 1)
        (2 ^ 0 - 1), 0, st0.bestLoc, (loc : Int) + 1, st0.readsOk⟩
    (by omega) le_rfl (by omega) rfl rfl
    (by simp [updN, rdSeq])
  rw [hinner.2]
  have hgt : match_bitap_score (0 + 1) (loc : Int) pattern (loc : Int)
      cfg.distance > 0 := by
    rw [show 0 + 1 = 1 from rfl]
    exact score_one_pos pattern (loc : Int) cfg.distance hp
  rw [if_pos hgt]
  exact hinner.1

/-- Claim C1: for every pattern `P` with `0 < |P| ≤ maxBits`, every
text `T` containing `P` verbatim starting at index `i`, and every
match-distance value, `match_bitap(T, P, i)` at threshold `0` returns
exactly `i`: the pre-scan leaves the threshold at `0`, the level-0
binary search collapses `bin_mid` to `0`, the bit-vector pass fires
the match bit exactly at `j = i + 1` with score `0`, and the
`score(1, i) > 0` check stops the error-level loop. -/
theorem match_bitap_exact_match (cfg : MatchCfg) (text pattern : DMPString)
    (loc : Nat) (hthr : cfg.threshold = 0)
    (hbits : pattern.length ≤ cfg.maxBits) (hp : 0 < pattern.length)
    (hfit : loc + pattern.length ≤ text.length)
    (hocc : ∀ t : Nat, t < pattern.length →
      text.getD (loc + t) 0 = pattern.getD t 0) :
    match_bitap cfg text pattern loc = .ok (loc : Int) := by
  have hio : index_of text pattern loc = none :=
    index_of_go_none text pattern _ loc
  simp only [match_bitap, match_bitap_run]
  rw [if_neg (by omega : ¬ pattern.length > cfg.maxBits)]
  simp only [hio]
  rw [hthr]
  have hbm0 : (0 : Int) ≤
      ((pattern.length + text.length + 2 : Nat) : Int) - 2 := by
    push_cast
    omega
  rw [match_bitap_outer_exact cfg text pattern loc hp hfit hocc _ rfl hbm0]

/-- Witness for `match_bitap_exact_match`: text `[1, 2, 3]` contains
pattern `[2, 3]` verbatim at index 1, and the call returns 1. -/
theorem match_bitap_exact_match_witness :
    match_bitap ⟨0, 5, 32⟩ [1, 2, 3] [2, 3] 1 = .ok 1 :=
  match_bitap_exact_match ⟨0, 5, 32⟩ [1, 2, 3] [2, 3] 1 rfl (by decide)
    (by decide) (by decide) (by decide)

/-! ## Edit paths between two unit sequences (mathematical layer for
claim C2)

`FReach t1 t2 e x y` holds when the edit graph of `t1`/`t2` admits a
path from `(0,0)` to `(x,y)` using exactly `e` non-diagonal steps
(deletions move `x`, insertions move `y`, diagonal moves require equal
units and are free). -/

inductive FReach (t1 t2 : DMPString) : Nat → Nat → Nat → Prop where
  | start : FReach t1 t2 0 0 0
  | diag {e x y} : FReach t1 t2 e x y → x < t1.length → y < t2.length →
      t1.getD x 0 = t2.getD y 0 → FReach t1 t2 e (x + 1) (y + 1)
  | del {e x y} : FReach t1 t2 e x y → x < t1.length →
      FReach t1 t2 (e + 1) (x + 1) y
  | ins {e x y} : FReach t1 t2 e x y → y < t2.length →
      FReach t1 t2 (e + 1) x (y + 1)

theorem freach_le_len1 {t1 t2 : DMPString} {e x y : Nat}
    (h : FReach t1 t2 e x y) : x ≤ t1.length := by
  induction h with
  | start => exact Nat.zero_le _
  | diag _ hx _ _ _ => omega
  | del _ hx _ => omega
  | ins _ _ ih => exact ih

theorem freach_le_len2 {t1 t2 : DMPString} {e x y : Nat}
    (h : FReach t1 t2 e x y) : y ≤ t2.length := by
  induction h with
  | start => exact Nat.zero_le _
  | diag _ _ hy _ _ => omega
  | del _ _ ih => exact ih
  | ins _ hy _ => omega

/-- Each non-diagonal step changes `x - y` by one, so the diagonal of
any `e`-step reach lies within `[-e, e]`. -/
theorem freach_diag_abs {t1 t2 : DMPString} {e x y : Nat}
    (h : FReach t1 t2 e x y) :
    (x : Int) - y ≤ e ∧ (y : Int) - x ≤ e := by
  induction h with
  | start => exact ⟨by omega, by omega⟩
  | diag _ _ _ _ ih => push_cast; push_cast at ih; omega
  | del _ _ ih => push_cast; push_cast at ih; omega
  | ins _ _ ih => push_cast; push_cast at ih; omega

theorem freach_pad_del {t1 t2 : DMPString} {e x y : Nat}
    (h : FReach t1 t2 e x y) :
    ∀ j, x + j ≤ t1.length → FReach t1 t2 (e + j) (x + j) y := by
  intro j
  induction j with
  | zero => intro _; exact h
  | succ j ih =>
    intro hj
    have h1 := ih (by omega)
    have h2 : x + j < t1.length := by omega
    exact FReach.del h1 h2

theorem freach_pad_ins {t1 t2 : DMPString} {e x y : Nat}
    (h : FReach t1 t2 e x y) :
    ∀ j, y + j ≤ t2.length → FReach t1 t2 (e + j) x (y + j) := by
  intro j
  induction j with
  | zero => intro _; exact h
  | succ j ih =>
    intro hj
    have h1 := ih (by omega)
    have h2 : y + j < t2.length := by omega
    exact FReach.ins h1 h2

/-- Completing a partial reach with deletions then insertions. -/
theorem freach_complete {t1 t2 : DMPString} {e x y : Nat}
    (h : FReach t1 t2 e x y) :
    FReach t1 t2 (e + (t1.length - x) + (t2.length - y)) t1.length
      t2.length := by
  have h1 := freach_le_len1 h
  have h2 := freach_le_len2 h
  have hd := freach_pad_del h (t1.length - x) (by omega)
  rw [show x + (t1.length - x) = t1.length from by omega] at hd
  have hi := freach_pad_ins hd (t2.length - y) (by omega)
  rw [show y + (t2.length - y) = t2.length from by omega] at hi
  exact hi

/-- Any nonempty pair with a common unit admits a full edit path of
length `m + n - 2`: delete the prefix of `t1` before the common unit,
insert the prefix of `t2`, take the diagonal through the common unit,
then delete and insert the rests. -/
theorem freach_of_common {t1 t2 : DMPString} {c : Int}
    (h1 : c ∈ t1) (h2 : c ∈ t2) :
    FReach t1 t2 (t1.length + t2.length - 2) t1.length t2.length := by
  obtain ⟨i, hi, hc1⟩ := List.getElem_of_mem h1
  obtain ⟨j, hj, hc2⟩ := List.getElem_of_mem h2
  have hstep0 : FReach t1 t2 0 0 0 := FReach.start
  have hdel : FReach t1 t2 (0 + i) (0 + i) 0 :=
    freach_pad_del hstep0 i (by omega)
  have hins : FReach t1 t2 (0 + i + j) (0 + i) (0 + j) :=
    freach_pad_ins hdel j (by omega)
  have hdiag : FReach t1 t2 (0 + i + j) (0 + i + 1) (0 + j + 1) := by
    apply FReach.diag hins (by omega) (by omega)
    rw [List.getD_eq_getElem t1 0 (by omega), List.getD_eq_getElem t2 0
      (by omega)]
    simp only [Nat.zero_add]
    rw [hc1, hc2]
  have hfin := freach_complete hdiag
  have harith : 0 + i + j + (t1.length - (0 + i + 1)) +
      (t2.length - (0 + j + 1)) = t1.length + t2.length - 2 := by omega
  rw [harith] at hfin
  exact hfin

/-- Existence of a least-length full path. -/
theorem exists_min_dist {t1 t2 : DMPString} {e0 : Nat}
    (h : FReach t1 t2 e0 t1.length t2.length) :
    ∃ D, FReach t1 t2 D t1.length t2.length ∧
      ∀ e, FReach t1 t2 e t1.length t2.length → D ≤ e := by
  classical
  by_contra hno
  push_neg at hno
  have hstep : ∀ e, FReach t1 t2 e t1.length t2.length →
      ∃ e2 < e, FReach t1 t2 e2 t1.length t2.length := by
    intro e he
    obtain ⟨e2, he2, hlt⟩ := hno e he
    exact ⟨e2, by omega, he2⟩
  have hall : ∀ e e2, e2 ≤ e → FReach t1 t2 e2 t1.length t2.length →
      False := by
    intro e
    induction e with
    | zero =>
      intro e2 hle he2
      obtain ⟨e3, hlt, _⟩ := hstep e2 he2
      omega
    | succ e ih =>
      intro e2 hle he2
      obtain ⟨e3, hlt, he3⟩ := hstep e2 he2
      exact ih e3 (by omega) he3
  exact hall e0 e0 le_rfl h

/-! Edit-path chains: a reach of depth `e` decomposes into `e`
single-edit steps, each followed by a maximal-free diagonal run. -/

/-- Reflexive-transitive closure of single diagonal moves. -/
inductive DStar (t1 t2 : DMPString) : Nat × Nat → Nat × Nat → Prop where
  | refl (p : Nat × Nat) : DStar t1 t2 p p
  | step {x y : Nat} {q : Nat × Nat} : x < t1.length → y < t2.length →
      t1.getD x 0 = t2.getD y 0 → DStar t1 t2 (x + 1, y + 1) q →
      DStar t1 t2 (x, y) q

theorem dstar_snoc {t1 t2 : DMPString} {p q : Nat × Nat}
    (h : DStar t1 t2 p q) (hx : q.1 < t1.length) (hy : q.2 < t2.length)
    (he : t1.getD q.1 0 = t2.getD q.2 0) :
    DStar t1 t2 p (q.1 + 1, q.2 + 1) := by
  induction h with
  | refl p => exact DStar.step hx hy he (DStar.refl _)
  | step hx2 hy2 he2 _ ih => exact DStar.step hx2 hy2 he2 (ih hx hy he)

theorem dstar_freach {t1 t2 : DMPString} {e : Nat} {p q : Nat × Nat}
    (h : DStar t1 t2 p q) (hr : FReach t1 t2 e p.1 p.2) :
    FReach t1 t2 e q.1 q.2 := by
  induction h with
  | refl p => exact hr
  | step hx hy he _ ih => exact ih (FReach.diag hr hx hy he)

theorem dstar_diag {t1 t2 : DMPString} {p q : Nat × Nat}
    (h : DStar t1 t2 p q) :
    (q.1 : Int) - q.2 = (p.1 : Int) - p.2 ∧ p.1 ≤ q.1 := by
  induction h with
  | refl p => exact ⟨rfl, le_rfl⟩
  | step _ _ _ _ ih =>
    obtain ⟨h1, h2⟩ := ih
    constructor
    · rw [h1]; push_cast; ring
    · omega

/-- One edit (deletion or insertion) followed by a diagonal run. -/
def EditStep (t1 t2 : DMPString) (p q : Nat × Nat) : Prop :=
  (p.1 < t1.length ∧ DStar t1 t2 (p.1 + 1, p.2) q) ∨
  (p.2 < t2.length ∧ DStar t1 t2 (p.1, p.2 + 1) q)

/-- Chain extraction: an `e`-edit reach is the endpoint of a chain of
`e` edit steps from a depth-0 point. -/
theorem freach_chain {t1 t2 : DMPString} {e x y : Nat}
    (h : FReach t1 t2 e x y) :
    ∃ g : Nat → Nat × Nat, g e = (x, y) ∧
      FReach t1 t2 0 (g 0).1 (g 0).2 ∧
      ∀ i, i < e → EditStep t1 t2 (g i) (g (i + 1)) := by
  induction h with
  | start =>
    exact ⟨fun _ => (0, 0), rfl, FReach.start, fun i hi => absurd hi
      (by omega)⟩
  | diag h hx hy he ih =>
    obtain ⟨g, hge, hg0, hgs⟩ := ih
    rename_i e2 x2 y2
    cases e2 with
    | zero =>
      refine ⟨fun _ => (x2 + 1, y2 + 1), rfl, ?_, fun i hi => absurd hi
        (by omega)⟩
      have hfr : FReach t1 t2 0 ((x2, y2) : Nat × Nat).1
          ((x2, y2) : Nat × Nat).2 := h
      exact dstar_freach (DStar.step hx hy he (DStar.refl _)) hfr
    | succ e2 =>
      refine ⟨fun j => if j = e2 + 1 then (x2 + 1, y2 + 1) else g j, by
        simp, ?_, ?_⟩
      · simp only [if_neg (by omega : ¬ (0 : Nat) = e2 + 1)]
        exact hg0
      · intro i hi
        by_cases hie : i + 1 = e2 + 1
        · have hieq : i = e2 := by omega
          subst hieq
          simp only [if_pos rfl, if_neg (by omega : ¬ i = i + 1)]
          have hstep := hgs i (by omega)
          rw [hge] at hstep
          cases hstep with
          | inl hcase =>
            exact Or.inl ⟨hcase.1, dstar_snoc hcase.2 hx hy he⟩
          | inr hcase =>
            exact Or.inr ⟨hcase.1, dstar_snoc hcase.2 hx hy he⟩
        · simp only [if_neg (by omega : ¬ i = e2 + 1), if_neg hie]
          exact hgs i (by omega)
  | del h hx ih =>
    obtain ⟨g, hge, hg0, hgs⟩ := ih
    rename_i e2 x2 y2
    refine ⟨fun j => if j = e2 + 1 then (x2 + 1, y2) else g j, by simp,
      ?_, ?_⟩
    · simp only [if_neg (by omega : ¬ (0 : Nat) = e2 + 1)]
      exact hg0
    · intro i hi
      by_cases hie : i + 1 = e2 + 1
      · have hieq : i = e2 := by omega
        subst hieq
        simp only [if_pos rfl, if_neg (by omega : ¬ i = i + 1), hge]
        exact Or.inl ⟨hx, DStar.refl _⟩
      · simp only [if_neg (by omega : ¬ i = e2 + 1), if_neg hie]
        exact hgs i (by omega)
  | ins h hy ih =>
    obtain ⟨g, hge, hg0, hgs⟩ := ih
    rename_i e2 x2 y2
    refine ⟨fun j => if j = e2 + 1 then (x2, y2 + 1) else g j, by simp,
      ?_, ?_⟩
    · simp only [if_neg (by omega : ¬ (0 : Nat) = e2 + 1)]
      exact hg0
    · intro i hi
      by_cases hie : i + 1 = e2 + 1
      · have hieq : i = e2 := by omega
        subst hieq
        simp only [if_pos rfl, if_neg (by omega : ¬ i = i + 1), hge]
        exact Or.inr ⟨hy, DStar.refl _⟩
      · simp only [if_neg (by omega : ¬ i = e2 + 1), if_neg hie]
        exact hgs i (by omega)

/-- Along a chain, every intermediate point is a reach of its index. -/
theorem chain_points_freach {t1 t2 : DMPString} {g : Nat → Nat × Nat}
    (hg0 : FReach t1 t2 0 (g 0).1 (g 0).2)
    (hgs : ∀ i, i < e → EditStep t1 t2 (g i) (g (i + 1))) :
    ∀ i, i ≤ e → FReach t1 t2 i (g i).1 (g i).2 := by
  intro i
  induction i with
  | zero => intro _; exact hg0
  | succ i ih =>
    intro hi
    have hprev := ih (by omega)
    have hstep := hgs i (by omega)
    cases hstep with
    | inl hcase =>
      exact dstar_freach hcase.2 (FReach.del hprev hcase.1)
    | inr hcase =>
      exact dstar_freach hcase.2 (FReach.ins hprev hcase.1)

/-! Properties of the forward snake loop. -/

theorem fwd_snake_ge_start (t1 t2 : DMPString) :
    ∀ (f : Nat) (x0 y0 : Int), x0 ≤ (fwd_snake t1 t2 f x0 y0).1 := by
  intro f
  induction f with
  | zero => intro x0 y0; exact le_rfl
  | succ f ih =>
    intro x0 y0
    simp only [fwd_snake]
    split
    · exact le_trans (by omega) (ih (x0 + 1) (y0 + 1))
    · exact le_rfl

theorem fwd_snake_diag_eq (t1 t2 : DMPString) :
    ∀ (f : Nat) (x0 y0 : Int),
      (fwd_snake t1 t2 f x0 y0).1 - (fwd_snake t1 t2 f x0 y0).2 =
        x0 - y0 := by
  intro f
  induction f with
  | zero => intro x0 y0; rfl
  | succ f ih =>
    intro x0 y0
    simp only [fwd_snake]
    split
    · rw [ih (x0 + 1) (y0 + 1)]; ring
    · rfl

theorem fwd_snake_le_len1 (t1 t2 : DMPString) :
    ∀ (f : Nat) (x0 y0 : Int), x0 ≤ (t1.length : Int) →
      (fwd_snake t1 t2 f x0 y0).1 ≤ (t1.length : Int) := by
  intro f
  induction f with
  | zero => intro x0 y0 h; exact h
  | succ f ih =>
    intro x0 y0 h
    simp only [fwd_snake]
    split
    next hc => exact ih (x0 + 1) (y0 + 1) (by omega)
    next hc => exact h

theorem fwd_snake_le_len2 (t1 t2 : DMPString) :
    ∀ (f : Nat) (x0 y0 : Int), y0 ≤ (t2.length : Int) →
      (fwd_snake t1 t2 f x0 y0).2 ≤ (t2.length : Int) := by
  intro f
  induction f with
  | zero => intro x0 y0 h; exact h
  | succ f ih =>
    intro x0 y0 h
    simp only [fwd_snake]
    split
    next hc => exact ih (x0 + 1) (y0 + 1) (by omega)
    next hc => exact h

theorem fwd_snake_frozen (t1 t2 : DMPString) (f : Nat) (x0 y0 : Int)
    (h : (t1.length : Int) ≤ x0 ∨ (t2.length : Int) ≤ y0) :
    fwd_snake t1 t2 f x0 y0 = (x0, y0) := by
  cases f with
  | zero => rfl
  | succ f =>
    simp only [fwd_snake]
    rw [if_neg (by omega)]

/-- Snaking from a genuine reach stays a genuine reach. -/
theorem fwd_snake_freach (t1 t2 : DMPString) :
    ∀ (f : Nat) (e x y : Nat), FReach t1 t2 e x y →
      ∃ x2 y2 : Nat, fwd_snake t1 t2 f (x : Int) (y : Int) =
        ((x2 : Int), (y2 : Int)) ∧ FReach t1 t2 e x2 y2 := by
  intro f
  induction f with
  | zero => intro e x y h; exact ⟨x, y, rfl, h⟩
  | succ f ih =>
    intro e x y h
    simp only [fwd_snake]
    by_cases hc : (x : Int) < (t1.length : Int) ∧
        (y : Int) < (t2.length : Int) ∧
        charAt t1 (x : Int) = charAt t2 (y : Int)
    · rw [if_pos hc]
      obtain ⟨hx, hy, he⟩ := hc
      have hx2 : x < t1.length := by omega
      have hy2 : y < t2.length := by omega
      have hgd : t1.getD x 0 = t2.getD y 0 := by
        rw [charAt_eq_getD t1 (x : Int) (by omega) (by omega),
          charAt_eq_getD t2 (y : Int) (by omega) (by omega)] at he
        simpa using he
      have hr2 : FReach t1 t2 e (x + 1) (y + 1) :=
        FReach.diag h hx2 hy2 hgd
      obtain ⟨x2, y2, heq, hr3⟩ := ih e (x + 1) (y + 1) hr2
      refine ⟨x2, y2, ?_, hr3⟩
      rw [← heq]
      push_cast
      ring_nf
    · rw [if_neg hc]
      exact ⟨x, y, rfl, h⟩

/-- The snake dominates any diagonal run that starts at or before its
starting point. -/
theorem fwd_snake_ge_dstar {t1 t2 : DMPString} {p q : Nat × Nat}
    (h : DStar t1 t2 p q) :
    ∀ (f : Nat) (x0 y0 : Int), (p.1 : Int) ≤ x0 →
      x0 - y0 = (p.1 : Int) - (p.2 : Int) → (q.1 : Int) ≤ x0 + f →
      (q.1 : Int) ≤ (fwd_snake t1 t2 f x0 y0).1 := by
  induction h with
  | refl p =>
    intro f x0 y0 hge _ _
    exact le_trans hge (fwd_snake_ge_start t1 t2 f x0 y0)
  | step hx hy he htail ih =>
    rename_i x y q
    intro f x0 y0 hge hdiag hfuel
    by_cases hxq : (q.1 : Int) ≤ x0
    · exact le_trans hxq (fwd_snake_ge_start t1 t2 f x0 y0)
    · by_cases hx0 : (x : Int) + 1 ≤ x0
      · exact ih f x0 y0 (by push_cast; omega) (by push_cast; omega)
          hfuel
      · have hx0e : x0 = (x : Int) := by omega
        have hy0e : y0 = (y : Int) := by omega
        subst hx0e
        have hy0e2 : y0 = (y : Int) := hy0e
        cases f with
        | zero =>
          exfalso
          have := (dstar_diag htail).2
          omega
        | succ f =>
          simp only [fwd_snake]
          rw [if_pos ?hcnd]
          case hcnd =>
            refine ⟨by omega, by omega, ?_⟩
            rw [hy0e2, charAt_eq_getD t1 _ (by omega) (by omega),
              charAt_eq_getD t2 _ (by omega) (by omega)]
            simpa using he
          have := ih f ((x : Int) + 1) (y0 + 1) (by push_cast; omega)
            (by push_cast; omega) (by omega)
          exact this

/-! The backward machinery is the forward machinery on the reversed
sequences. -/

theorem charAt_reverse (t : DMPString) (i : Int) :
    charAt t.reverse i = charAt t ((t.length : Int) - i - 1) := by
  unfold charAt
  by_cases h : 0 ≤ i ∧ i.toNat < t.length
  · rw [dif_pos (by simpa using h), dif_pos (by constructor <;> omega)]
    rw [get_eq_getD, get_eq_getD, List.getD_eq_getElem t.reverse 0
      (by simpa using h.2), List.getElem_reverse,
      List.getD_eq_getElem t 0 (by omega)]
    congr 1
    omega
  · rw [dif_neg (by simpa using h), dif_neg (by omega)]

theorem bwd_snake_eq_fwd_reverse (t1 t2 : DMPString) :
    ∀ (f : Nat) (x y : Int),
      bwd_snake t1 t2 f x y = fwd_snake t1.reverse t2.reverse f x y := by
  intro f
  induction f with
  | zero => intro x y; rfl
  | succ f ih =>
    intro x y
    simp only [bwd_snake, fwd_snake, List.length_reverse,
      charAt_reverse]
    split
    next hc => exact ih (x + 1) (y + 1)
    next hc => rfl

/-- Transporting a diagonal run backwards: if the far end is reachable
in the reversed problem, so is the near end at the same depth. -/
theorem dstar_rev_reach {t1 t2 : DMPString} {p q : Nat × Nat} {j : Nat}
    (h : DStar t1 t2 p q)
    (hr : FReach t1.reverse t2.reverse j (t1.length - q.1)
      (t2.length - q.2)) :
    FReach t1.reverse t2.reverse j (t1.length - p.1)
      (t2.length - p.2) := by
  induction h with
  | refl p => exact hr
  | step hx hy he htail ih =>
    rename_i x y q
    have hih := ih hr
    have hd : FReach t1.reverse t2.reverse j (t1.length - x)
        (t2.length - y) := by
      have hstep := FReach.diag hih (x := t1.length - (x + 1))
        (y := t2.length - (y + 1)) (by simp; omega) (by simp; omega) ?_
      · rw [show t1.length - (x + 1) + 1 = t1.length - x from by omega,
          show t2.length - (y + 1) + 1 = t2.length - y from by omega]
          at hstep
        exact hstep
      · rw [List.getD_eq_getElem t1.reverse 0 (by simp; omega),
          List.getD_eq_getElem t2.reverse 0 (by simp; omega),
          List.getElem_reverse, List.getElem_reverse]
        have he2 : t1.getD x 0 = t2.getD y 0 := he
        rw [List.getD_eq_getElem t1 0 (by omega),
          List.getD_eq_getElem t2 0 (by omega)] at he2
        convert he2 using 2 <;> omega
    exact hd

/-- Transporting one edit step backwards. -/
theorem editstep_rev_reach {t1 t2 : DMPString} {p q : Nat × Nat}
    {j : Nat} (h : EditStep t1 t2 p q)
    (hr : FReach t1.reverse t2.reverse j (t1.length - q.1)
      (t2.length - q.2)) :
    FReach t1.reverse t2.reverse (j + 1) (t1.length - p.1)
      (t2.length - p.2) := by
  cases h with
  | inl hcase =>
    have hmid := dstar_rev_reach hcase.2 hr
    have hstep := FReach.del hmid (by simp; omega)
    rw [show t1.length - (p.1 + 1) + 1 = t1.length - p.1 from by omega]
      at hstep
    exact hstep
  | inr hcase =>
    have hmid := dstar_rev_reach hcase.2 hr
    have hstep := FReach.ins hmid (by simp; omega)
    rw [show t2.length - (p.2 + 1) + 1 = t2.length - p.2 from by omega]
      at hstep
    exact hstep

/-- Splitting a full minimal path: the point after `i` of its `e`
edits is forward-reachable in `i` edits and backward-reachable (in the
reversed problem) in `e - i` edits. -/
theorem path_split {t1 t2 : DMPString} {e : Nat}
    (h : FReach t1 t2 e t1.length t2.length) :
    ∀ i, i ≤ e → ∃ x y : Nat, x ≤ t1.length ∧ y ≤ t2.length ∧
      FReach t1 t2 i x y ∧
      FReach t1.reverse t2.reverse (e - i) (t1.length - x)
        (t2.length - y) := by
  obtain ⟨g, hge, hg0, hgs⟩ := freach_chain h
  have hpts := chain_points_freach hg0 hgs
  have hrev : ∀ j i, i + j = e →
      FReach t1.reverse t2.reverse j (t1.length - (g i).1)
        (t2.length - (g i).2) := by
    intro j
    induction j with
    | zero =>
      intro i hie
      have hieq : i = e := by omega
      subst hieq
      rw [hge, show t1.length - (t1.length, t2.length).1 = 0 from
        by simp, show t2.length - (t1.length, t2.length).2 = 0 from
        by simp]
      exact FReach.start
    | succ j ih =>
      intro i hie
      have hnext := ih (i + 1) (by omega)
      have hstep := hgs i (by omega)
      exact editstep_rev_reach hstep hnext
  intro i hi
  have hpt := hpts i hi
  have := hrev (e - i) i (by omega)
  exact ⟨(g i).1, (g i).2, freach_le_len1 hpt, freach_le_len2 hpt, hpt,
    this⟩

/-- Each edit changes the parity of `x + y + e` not at all: it is even
throughout. -/
theorem freach_parity {t1 t2 : DMPString} {e x y : Nat}
    (h : FReach t1 t2 e x y) : (x + y + e) % 2 = 0 := by
  induction h with
  | start => rfl
  | diag _ _ _ _ ih => omega
  | del _ _ ih => omega
  | ins _ _ ih => omega

/-- A depth-0 reach is a pure diagonal run from the origin. -/
theorem freach_zero_dstar {t1 t2 : DMPString} {x y : Nat}
    (h : FReach t1 t2 0 x y) : DStar t1 t2 (0, 0) (x, y) := by
  have hgen : ∀ e x2 y2, FReach t1 t2 e x2 y2 → e = 0 →
      DStar t1 t2 (0, 0) (x2, y2) := by
    intro e x2 y2 hr
    induction hr with
    | start => intro _; exact DStar.refl _
    | diag h2 hx hy he ih => intro h0; exact dstar_snoc (ih h0) hx hy he
    | del _ _ _ => intro h0; omega
    | ins _ _ _ => intro h0; omega
  exact hgen 0 x y h rfl

/-- Transporting a whole chain backwards from an arbitrary base
reach of the complement of its endpoint. -/
theorem chain_rev_transport {t1 t2 : DMPString} {g : Nat → Nat × Nat}
    {etot j : Nat}
    (hgs : ∀ i, i < etot → EditStep t1 t2 (g i) (g (i + 1)))
    (hbase : FReach t1.reverse t2.reverse j
      (t1.length - (g etot).1) (t2.length - (g etot).2)) :
    ∀ i, i ≤ etot → FReach t1.reverse t2.reverse (j + (etot - i))
      (t1.length - (g i).1) (t2.length - (g i).2) := by
  have hstep : ∀ jj i, i + jj = etot →
      FReach t1.reverse t2.reverse (j + jj) (t1.length - (g i).1)
        (t2.length - (g i).2) := by
    intro jj
    induction jj with
    | zero =>
      intro i hie
      have hieq : i = etot := by omega
      subst hieq
      exact hbase
    | succ jj ih =>
      intro i hie
      have hnext := ih (i + 1) (by omega)
      have hstep2 := hgs i (by omega)
      have := editstep_rev_reach hstep2 hnext
      rw [show j + jj + 1 = j + (jj + 1) from by omega] at this
      exact this
  intro i hi
  exact hstep (etot - i) i (by omega)

/-- A full path yields a chain that also records, for each prefix
depth, the backward reachability of the complement point. -/
theorem minimal_chain {t1 t2 : DMPString} {e : Nat}
    (h : FReach t1 t2 e t1.length t2.length) :
    ∃ g : Nat → Nat × Nat, g e = (t1.length, t2.length) ∧
      FReach t1 t2 0 (g 0).1 (g 0).2 ∧
      (∀ i, i < e → EditStep t1 t2 (g i) (g (i + 1))) ∧
      (∀ i, i ≤ e → FReach t1 t2 i (g i).1 (g i).2) ∧
      (∀ i, i ≤ e → FReach t1.reverse t2.reverse (e - i)
        (t1.length - (g i).1) (t2.length - (g i).2)) := by
  obtain ⟨g, hge, hg0, hgs⟩ := freach_chain h
  have hpts := chain_points_freach hg0 hgs
  have hbase : FReach t1.reverse t2.reverse 0 (t1.length - (g e).1)
      (t2.length - (g e).2) := by
    rw [hge, show t1.length - (t1.length, t2.length).1 = 0 from by simp,
      show t2.length - (t1.length, t2.length).2 = 0 from by simp]
    exact FReach.start
  have hrev := chain_rev_transport hgs hbase
  refine ⟨g, hge, hg0, hgs, hpts, ?_⟩
  intro i hi
  have := hrev i hi
  rw [show 0 + (e - i) = e - i from by omega] at this
  exact this

/-- A full path of the original problem is a full path of the reversed
problem at the same cost. -/
theorem freach_reverse_full {t1 t2 : DMPString} {e : Nat}
    (h : FReach t1 t2 e t1.length t2.length) :
    FReach t1.reverse t2.reverse e t1.reverse.length
      t2.reverse.length := by
  obtain ⟨g, hge, hg0, hgs, hpts, hrev⟩ := minimal_chain h
  have h0 := hrev 0 (by omega)
  have hstar : DStar t1 t2 (0, 0) ((g 0).1, (g 0).2) :=
    freach_zero_dstar hg0
  have := dstar_rev_reach hstar h0
  simp only [Nat.sub_zero, List.length_reverse] at this ⊢
  exact this

/-! ## Classification of the values held in the diagonal vectors

A slot of `v1` on diagonal `k` holds either the untouched `-1`, the
`x`-coordinate of a genuine forward reach on diagonal `k`, or an
"overshoot" value propagated from a genuine reach that hit the right
edge (`x = m`, overshooting values `> m`) or the bottom edge (`y = n`,
overshooting `y`-parts `> n`).  Each overshoot value carries a
certificate: its edge origin, the number `u ≥ 1` of value-increasing
hops and `w` of value-preserving hops since, all within the depth
budget `dA`. -/

def VGenuine (t1 t2 : DMPString) (dA : Nat) (k v : Int) : Prop :=
  ∃ e x y : Nat, e ≤ dA ∧ FReach t1 t2 e x y ∧ v = (x : Int) ∧
    (x : Int) - (y : Int) = k

def VXJunk (t1 t2 : DMPString) (dA : Nat) (k v : Int) : Prop :=
  (t1.length : Int) < v ∧
  ∃ e y0 u w : Nat, FReach t1 t2 e t1.length y0 ∧ 1 ≤ u ∧
    k = ((t1.length : Int) - (y0 : Int)) + u - w ∧
    v ≤ (t1.length : Int) + u ∧ e + u + w ≤ dA

def VYJunk (t1 t2 : DMPString) (dA : Nat) (k v : Int) : Prop :=
  (t2.length : Int) < v - k ∧ 0 ≤ v ∧
  ∃ e x0 u w : Nat, FReach t1 t2 e x0 t2.length ∧ 1 ≤ u ∧
    k = ((x0 : Int) - (t2.length : Int)) - u + w ∧
    v ≤ (x0 : Int) + u ∧ e + u + w ≤ dA

def VClass (t1 t2 : DMPString) (dA : Nat) (k v : Int) : Prop :=
  v = -1 ∨ VGenuine t1 t2 dA k v ∨ VXJunk t1 t2 dA k v ∨
    VYJunk t1 t2 dA k v

theorem vgenuine_mono {t1 t2 : DMPString} {dA dB : Nat} {k v : Int}
    (h : VGenuine t1 t2 dA k v) (hle : dA ≤ dB) :
    VGenuine t1 t2 dB k v := by
  obtain ⟨e, x, y, he, hr, hv, hk⟩ := h
  exact ⟨e, x, y, by omega, hr, hv, hk⟩

theorem vxjunk_mono {t1 t2 : DMPString} {dA dB : Nat} {k v : Int}
    (h : VXJunk t1 t2 dA k v) (hle : dA ≤ dB) : VXJunk t1 t2 dB k v := by
  obtain ⟨hv, e, y0, u, w, hr, hu, hk, hvb, hb⟩ := h
  exact ⟨hv, e, y0, u, w, hr, hu, hk, hvb, by omega⟩

theorem vyjunk_mono {t1 t2 : DMPString} {dA dB : Nat} {k v : Int}
    (h : VYJunk t1 t2 dA k v) (hle : dA ≤ dB) : VYJunk t1 t2 dB k v := by
  obtain ⟨hv, hv0, e, x0, u, w, hr, hu, hk, hvb, hb⟩ := h
  exact ⟨hv, hv0, e, x0, u, w, hr, hu, hk, hvb, by omega⟩

theorem vclass_mono {t1 t2 : DMPString} {dA dB : Nat} {k v : Int}
    (h : VClass t1 t2 dA k v) (hle : dA ≤ dB) : VClass t1 t2 dB k v := by
  rcases h with h | h | h | h
  · exact Or.inl h
  · exact Or.inr (Or.inl (vgenuine_mono h hle))
  · exact Or.inr (Or.inr (Or.inl (vxjunk_mono h hle)))
  · exact Or.inr (Or.inr (Or.inr (vyjunk_mono h hle)))

theorem vclass_ge_neg_one {t1 t2 : DMPString} {dA : Nat} {k v : Int}
    (h : VClass t1 t2 dA k v) : -1 ≤ v := by
  rcases h with h | h | h | h
  · omega
  · obtain ⟨e, x, y, _, _, hv, _⟩ := h; omega
  · obtain ⟨hv, _⟩ := h
    have : (0 : Int) ≤ (t1.length : Int) := by positivity
    omega
  · obtain ⟨_, hv0, _⟩ := h; omega

/-! Distance bounds extracted from slot certificates, under minimality
of `D`. -/

/-- Minimality in completion form: any partial reach bounds `D`. -/
def MinDist (t1 t2 : DMPString) (D : Nat) : Prop :=
  FReach t1 t2 D t1.length t2.length ∧
  ∀ e, FReach t1 t2 e t1.length t2.length → D ≤ e

theorem mindist_le {t1 t2 : DMPString} {D : Nat}
    (hD : MinDist t1 t2 D) {e x y : Nat} (h : FReach t1 t2 e x y) :
    D ≤ e + (t1.length - x) + (t2.length - y) :=
  hD.2 _ (freach_complete h)

theorem mindist_ge_delta {t1 t2 : DMPString} {D : Nat}
    (hD : MinDist t1 t2 D) :
    (t1.length : Int) - t2.length ≤ D ∧
      (t2.length : Int) - t1.length ≤ D :=
  freach_diag_abs hD.1

/-- A genuine right-edge value (`v ≥ m`) certifies a short total
path: `D ≤ dA + (k - Δ)`. -/
theorem dist_of_gen_m {t1 t2 : DMPString} {D dA : Nat} {k v : Int}
    (hD : MinDist t1 t2 D) (h : VGenuine t1 t2 dA k v)
    (hv : (t1.length : Int) ≤ v) :
    (D : Int) ≤ dA + (k - ((t1.length : Int) - t2.length)) := by
  obtain ⟨e, x, y, he, hr, hveq, hk⟩ := h
  have hxm : x = t1.length := by
    have := freach_le_len1 hr
    omega
  subst hxm
  have := mindist_le hD hr
  have h2 := freach_le_len2 hr
  push_cast at this ⊢
  omega

/-- A genuine bottom-edge value (`v - k ≥ n`) certifies
`D ≤ dA + (Δ - k)`. -/
theorem dist_of_gen_n {t1 t2 : DMPString} {D dA : Nat} {k v : Int}
    (hD : MinDist t1 t2 D) (h : VGenuine t1 t2 dA k v)
    (hv : (t2.length : Int) ≤ v - k) :
    (D : Int) ≤ dA + (((t1.length : Int) - t2.length) - k) := by
  obtain ⟨e, x, y, he, hr, hveq, hk⟩ := h
  have hyn : y = t2.length := by
    have := freach_le_len2 hr
    omega
  subst hyn
  have := mindist_le hD hr
  have h2 := freach_le_len1 hr
  push_cast at this ⊢
  omega

/-- A right-overshoot certificate gives `D ≤ dA + (k - Δ) - 2`. -/
theorem dist_of_xjunk {t1 t2 : DMPString} {D dA : Nat} {k v : Int}
    (hD : MinDist t1 t2 D) (h : VXJunk t1 t2 dA k v) :
    (D : Int) ≤ dA + (k - ((t1.length : Int) - t2.length)) - 2 := by
  obtain ⟨hv, e, y0, u, w, hr, hu, hk, hvb, hb⟩ := h
  have := mindist_le hD hr
  have h2 := freach_le_len2 hr
  push_cast at this ⊢
  omega

/-- A bottom-overshoot certificate gives `D ≤ dA + (Δ - k) - 2`. -/
theorem dist_of_yjunk {t1 t2 : DMPString} {D dA : Nat} {k v : Int}
    (hD : MinDist t1 t2 D) (h : VYJunk t1 t2 dA k v) :
    (D : Int) ≤ dA + (((t1.length : Int) - t2.length) - k) - 2 := by
  obtain ⟨hv, hv0, e, x0, u, w, hr, hu, hk, hvb, hb⟩ := h
  have := mindist_le hD hr
  have h2 := freach_le_len1 hr
  push_cast at this ⊢
  omega

/-- A bottom-overshoot value never exceeds the right edge (else `D`
would be shorter than any depth in play). -/
theorem dist_of_yjunk_gt_m {t1 t2 : DMPString} {D dA : Nat} {k v : Int}
    (hD : MinDist t1 t2 D) (h : VYJunk t1 t2 dA k v)
    (hv : (t1.length : Int) < v) : (D : Int) ≤ dA - 1 := by
  obtain ⟨hvy, hv0, e, x0, u, w, hr, hu, hk, hvb, hb⟩ := h
  have := mindist_le hD hr
  have h2 := freach_le_len1 hr
  push_cast at this ⊢
  omega

theorem dist_of_xjunk_y_gt_n {t1 t2 : DMPString} {D dA : Nat}
    {k v : Int} (hD : MinDist t1 t2 D) (h : VXJunk t1 t2 dA k v)
    (hv : (t2.length : Int) < v - k) : (D : Int) ≤ dA - 1 := by
  obtain ⟨hvx, e, y0, u, w, hr, hu, hk, hvb, hb⟩ := h
  have := mindist_le hD hr
  have h2 := freach_le_len2 hr
  push_cast at this ⊢
  omega

/-! ## The backward loop is the forward loop of the reversed problem

Swapping the two diagonal vectors and the two counter pairs of a
state turns `diff_bwd_body` into `diff_fwd_body` over the reversed
sequences with the `front` flag negated (the split payloads differ,
the states correspond). -/

def swapSt (st : DiffState) : DiffState :=
  { v1 := st.v2, v2 := st.v1, k1start := st.k2start, k1end := st.k2end,
    k2start := st.k1start, k2end := st.k1end, vOk := st.vOk,
    diags := st.diags }

def LoopResRel : LoopRes → LoopRes → Prop
  | .split _ _ s, .split _ _ s2 => s2 = swapSt s
  | .cont s, .cont s2 => s2 = swapSt s
  | _, _ => False

theorem diff_bwd_body_rel (t1 t2 : DMPString) (vOff vLen delta : Int)
    (front : Bool) (d : Nat) (k2 : Int) (st : DiffState) :
    LoopResRel (diff_bwd_body t1 t2 vOff vLen delta front d k2 st)
      (diff_fwd_body t1.reverse t2.reverse vOff vLen delta (!front) d k2
        (swapSt st)) := by
  simp only [diff_bwd_body, diff_fwd_body, swapSt, List.length_reverse,
    bwd_snake_eq_fwd_reverse]
  generalize ((st.vOk &&
      (if k2 = -(d : Int) then inB vLen (vOff + k2 + 1)
       else if k2 = (d : Int) then inB vLen (vOff + k2 - 1)
       else inB vLen (vOff + k2 - 1) && inB vLen (vOff + k2 + 1))) &&
      inB vLen (vOff + k2)) = ok
  by_cases hbr : k2 = -(d : Int) ∨ (k2 ≠ (d : Int) ∧
      st.v2 (vOff + k2 - 1) < st.v2 (vOff + k2 + 1))
  all_goals first
  | rw [if_pos hbr]
  | rw [if_neg hbr]
  all_goals (
    split
    next hT => exact rfl
    next hT =>
      split
      next hB => exact rfl
      next hB =>
        split
        next hf =>
          split
          next hgate =>
            split
            next hfire =>
              split
              next hfire2 => exact rfl
              next hfire2 =>
                show False
                omega
            next hfire =>
              split
              next hfire2 =>
                show False
                omega
              next hfire2 => exact rfl
          next hgate => exact rfl
        next hf => exact rfl)

theorem diff_bwd_loop_rel (t1 t2 : DMPString) (vOff vLen delta : Int)
    (front : Bool) (d : Nat) :
    ∀ (fuel : Nat) (k2 : Int) (st : DiffState),
      LoopResRel (diff_bwd_loop t1 t2 vOff vLen delta front d fuel k2 st)
        (diff_fwd_loop t1.reverse t2.reverse vOff vLen delta (!front) d
          fuel k2 (swapSt st)) := by
  intro fuel
  induction fuel with
  | zero => intro k2 st; exact rfl
  | succ f ih =>
    intro k2 st
    simp only [diff_bwd_loop, diff_fwd_loop]
    by_cases hg : k2 ≤ (d : Int) - st.k2end
    · rw [if_pos hg, if_pos (show k2 ≤ (d : Int) - (swapSt st).k1end
        from hg)]
      have hrel := diff_bwd_body_rel t1 t2 vOff vLen delta front d k2 st
      cases hb : diff_bwd_body t1 t2 vOff vLen delta front d k2 st with
      | split x y s =>
        rw [hb] at hrel
        cases hb2 : diff_fwd_body t1.reverse t2.reverse vOff vLen delta
            (!front) d k2 (swapSt st) with
        | split x2 y2 s2 =>
          rw [hb2] at hrel
          exact hrel
        | cont s2 =>
          rw [hb2] at hrel
          exact hrel.elim
      | cont s =>
        rw [hb] at hrel
        cases hb2 : diff_fwd_body t1.reverse t2.reverse vOff vLen delta
            (!front) d k2 (swapSt st) with
        | split x2 y2 s2 =>
          rw [hb2] at hrel
          exact hrel.elim
        | cont s2 =>
          rw [hb2] at hrel
          have hrel2 : s2 = swapSt s := hrel
          rw [hrel2]
          exact ih (k2 + 2) s
    · rw [if_neg hg, if_neg (show ¬ k2 ≤ (d : Int) - (swapSt st).k1end
        from hg)]
      exact rfl

theorem upd_self (f : Int → Int) (i v : Int) : upd f i v i = v := by
  simp [upd]

theorem upd_ne (f : Int → Int) (i v j : Int) (h : j ≠ i) :
    upd f i v j = f j := by
  simp [upd, h]

/-- The forward body after the operand selection (diff.c lines 80-106):
`diff_fwd_body` is this applied to the selected `x0`. -/
def diff_fwd_tail (t1 t2 : DMPString) (vOff vLen delta : Int)
    (front : Bool) (d : Nat) (k1 : Int) (st : DiffState) (x0 : Int) :
    LoopRes :=
  let len1 : Int := t1.length
  let len2 : Int := t2.length
  let a := vOff + k1
  let ok0 := st.vOk &&
    (if k1 = -(d : Int) then inB vLen (a + 1)
     else if k1 = (d : Int) then inB vLen (a - 1)
     else inB vLen (a - 1) && inB vLen (a + 1))
  let p := fwd_snake t1 t2 (t1.length + t2.length + 2) x0 (x0 - k1)
  let x1 := p.1
  let y1 := p.2
  let st1 : DiffState :=
    { st with v1 := upd st.v1 a x1, vOk := ok0 && inB vLen a,
              diags := st.diags + 1 }
  if x1 > len1 then .cont { st1 with k1end := st1.k1end + 2 }
  else if y1 > len2 then .cont { st1 with k1start := st1.k1start + 2 }
  else if front then
    let k2off := vOff + delta - k1
    if 0 ≤ k2off ∧ k2off < vLen ∧ st1.v2 k2off ≠ -1 then
      let x2 := len1 - st1.v2 k2off
      if x1 ≥ x2 then .split x1 y1 st1 else .cont st1
    else .cont st1
  else .cont st1

theorem diff_fwd_body_eq_tail (t1 t2 : DMPString) (vOff vLen delta : Int)
    (front : Bool) (d : Nat) (k1 : Int) (st : DiffState) :
    diff_fwd_body t1 t2 vOff vLen delta front d k1 st =
      diff_fwd_tail t1 t2 vOff vLen delta front d k1 st
        (if k1 = -(d : Int) ∨ (k1 ≠ (d : Int) ∧
            st.v1 (vOff + k1 - 1) < st.v1 (vOff + k1 + 1)) then
          st.v1 (vOff + k1 + 1)
        else st.v1 (vOff + k1 - 1) + 1) := rfl

/-- Computational analysis of the forward body tail: the written value
is the snake head, the untouched fields are framed, and the outcome is
one of the two trim branches or the middle branch, which splits as
soon as the guarded cross-read fires. -/
theorem diff_fwd_tail_step (t1 t2 : DMPString) (vOff vLen delta : Int)
    (front : Bool) (d : Nat) (k1 : Int) (st : DiffState) (x0 : Int) :
    ∃ (v : Int) (stx : DiffState),
      v = (fwd_snake t1 t2 (t1.length + t2.length + 2) x0 (x0 - k1)).1 ∧
      stx.v1 = upd st.v1 (vOff + k1) v ∧
      stx.v2 = st.v2 ∧ stx.k2start = st.k2start ∧
      stx.k2end = st.k2end ∧
      (((t1.length : Int) < v ∧ stx.k1start = st.k1start ∧
          stx.k1end = st.k1end + 2 ∧
          diff_fwd_tail t1 t2 vOff vLen delta front d k1 st x0 =
            .cont stx) ∨
        (v ≤ (t1.length : Int) ∧ (t2.length : Int) < v - k1 ∧
          stx.k1start = st.k1start + 2 ∧ stx.k1end = st.k1end ∧
          diff_fwd_tail t1 t2 vOff vLen delta front d k1 st x0 =
            .cont stx) ∨
        (v ≤ (t1.length : Int) ∧ v - k1 ≤ (t2.length : Int) ∧
          stx.k1start = st.k1start ∧ stx.k1end = st.k1end ∧
          (diff_fwd_tail t1 t2 vOff vLen delta front d k1 st x0 =
              .cont stx ∨
            diff_fwd_tail t1 t2 vOff vLen delta front d k1 st x0 =
              .split v (v - k1) stx) ∧
          (front = true → 0 ≤ vOff + delta - k1 →
            vOff + delta - k1 < vLen →
            st.v2 (vOff + delta - k1) ≠ -1 →
            (t1.length : Int) - st.v2 (vOff + delta - k1) ≤ v →
            diff_fwd_tail t1 t2 vOff vLen delta front d k1 st x0 =
              .split v (v - k1) stx))) := by
  have hdg := fwd_snake_diag_eq t1 t2 (t1.length + t2.length + 2) x0
    (x0 - k1)
  simp only [diff_fwd_tail]
  generalize (st.vOk &&
      (if k1 = -(d : Int) then inB vLen (vOff + k1 + 1)
       else if k1 = (d : Int) then inB vLen (vOff + k1 - 1)
       else inB vLen (vOff + k1 - 1) && inB vLen (vOff + k1 + 1)) &&
      inB vLen (vOff + k1)) = ok
  set p := fwd_snake t1 t2 (t1.length + t2.length + 2) x0 (x0 - k1)
    with hp
  have hd2 : p.2 = p.1 - k1 := by omega
  by_cases hT : p.1 > (t1.length : Int)
  · rw [if_pos hT]
    exact ⟨p.1, { st with
      v1 := upd st.v1 (vOff + k1) p.1
      vOk := ok
      diags := st.diags + 1
      k1end := st.k1end + 2 }, rfl, rfl, rfl,
      rfl, rfl, Or.inl ⟨hT, rfl, rfl, rfl⟩⟩
  · rw [if_neg hT]
    by_cases hB : p.2 > (t2.length : Int)
    · rw [if_pos hB]
      exact ⟨p.1, { st with
        v1 := upd st.v1 (vOff + k1) p.1
        vOk := ok
        diags := st.diags + 1
        k1start := st.k1start + 2 }, rfl, rfl,
        rfl, rfl, rfl, Or.inr (Or.inl ⟨by omega, by omega, rfl, rfl,
        rfl⟩)⟩
    · rw [if_neg hB]
      by_cases hf : front = true
      · rw [if_pos hf]
        by_cases hg : 0 ≤ vOff + delta - k1 ∧ vOff + delta - k1 < vLen ∧
            st.v2 (vOff + delta - k1) ≠ -1
        · rw [if_pos hg]
          by_cases hfi : p.1 ≥ (t1.length : Int) -
              st.v2 (vOff + delta - k1)
          · rw [if_pos hfi, hd2]
            exact ⟨p.1, { st with
              v1 := upd st.v1 (vOff + k1) p.1
              vOk := ok
              diags := st.diags + 1 }, rfl, rfl, rfl, rfl,
              rfl, Or.inr (Or.inr ⟨by omega, by omega, rfl, rfl,
              Or.inr rfl, fun _ _ _ _ _ => rfl⟩)⟩
          · rw [if_neg hfi]
            exact ⟨p.1, { st with
              v1 := upd st.v1 (vOff + k1) p.1
              vOk := ok
              diags := st.diags + 1 }, rfl, rfl, rfl, rfl,
              rfl, Or.inr (Or.inr ⟨by omega, by omega, rfl, rfl,
              Or.inl rfl, fun _ _ _ _ h5 => absurd h5 hfi⟩)⟩
        · rw [if_neg hg]
          exact ⟨p.1, { st with
            v1 := upd st.v1 (vOff + k1) p.1
            vOk := ok
            diags := st.diags + 1 }, rfl, rfl, rfl, rfl,
            rfl, Or.inr (Or.inr ⟨by omega, by omega, rfl, rfl,
            Or.inl rfl, fun _ h2 h3 h4 _ => absurd ⟨h2, h3, h4⟩ hg⟩)⟩
      · rw [if_neg hf]
        exact ⟨p.1, { st with
          v1 := upd st.v1 (vOff + k1) p.1
          vOk := ok
          diags := st.diags + 1 }, rfl, rfl, rfl, rfl,
          rfl, Or.inr (Or.inr ⟨by omega, by omega, rfl, rfl,
          Or.inl rfl, fun h1 _ _ _ _ => absurd h1 hf⟩)⟩

/-- One forward body step, fully analysed: given classified neighbour
slots, the written value is nonnegative and classified at budget `d`,
dominates any chain step landing on this diagonal whose predecessor
slot is bounded, and the branch taken matches the written value
against the two edges; in the middle branch the step splits as soon
as the guarded cross-read fires. -/
theorem diff_fwd_body_step (t1 t2 : DMPString) (D : Nat)
    (vOff vLen delta : Int) (front : Bool) (d : Nat) (k1 : Int)
    (st : DiffState)
    (hM : MinDist t1 t2 D) (hdD : d ≤ D)
    (hk1l : -(d : Int) ≤ k1) (hk1r : k1 ≤ (d : Int))
    (hd0 : d = 0 → st.v1 (vOff + k1 + 1) = 0)
    (hclp : VClass t1 t2 (d - 1) (k1 + 1) (st.v1 (vOff + k1 + 1)) ∨
      (d ≤ 1 ∧ k1 + 1 = 1 ∧ st.v1 (vOff + k1 + 1) = 0))
    (hclm : VClass t1 t2 (d - 1) (k1 - 1) (st.v1 (vOff + k1 - 1)) ∨
      (d ≤ 1 ∧ k1 - 1 = 1 ∧ st.v1 (vOff + k1 - 1) = 0))
    (hnegd : k1 = -(d : Int) → 0 < d → 0 ≤ st.v1 (vOff + k1 + 1))
    (hposd : k1 = (d : Int) → 0 < d → 0 ≤ st.v1 (vOff + k1 - 1))
    (hboth : k1 ≠ -(d : Int) → k1 ≠ (d : Int) →
      st.v1 (vOff + k1 - 1) = -1 → st.v1 (vOff + k1 + 1) = -1 →
      False) :
    ∃ (v : Int) (stx : DiffState),
      0 ≤ v ∧ VClass t1 t2 d k1 v ∧
      (∀ xp yp xq yq : Nat, (xq : Int) - (yq : Int) = k1 →
        EditStep t1 t2 (xp, yp) (xq, yq) →
        ((xp : Int) - (yp : Int) = k1 - 1 → k1 ≠ -(d : Int)) →
        ((xp : Int) - (yp : Int) = k1 + 1 → k1 ≠ (d : Int)) →
        ((xp : Int) - (yp : Int) = k1 - 1 →
          (xp : Int) ≤ st.v1 (vOff + k1 - 1)) →
        ((xp : Int) - (yp : Int) = k1 + 1 →
          (xp : Int) ≤ st.v1 (vOff + k1 + 1)) →
        xq ≤ t1.length → (xq : Int) ≤ v) ∧
      (∀ xq yq : Nat, DStar t1 t2 (0, 0) (xq, yq) →
        (xq : Int) - (yq : Int) = k1 → xq ≤ t1.length →
        (xq : Int) ≤ v) ∧
      stx.v1 = upd st.v1 (vOff + k1) v ∧
      stx.v2 = st.v2 ∧ stx.k2start = st.k2start ∧
      stx.k2end = st.k2end ∧
      (((t1.length : Int) < v ∧ stx.k1start = st.k1start ∧
          stx.k1end = st.k1end + 2 ∧
          diff_fwd_body t1 t2 vOff vLen delta front d k1 st =
            .cont stx) ∨
        (v ≤ (t1.length : Int) ∧ (t2.length : Int) < v - k1 ∧
          stx.k1start = st.k1start + 2 ∧ stx.k1end = st.k1end ∧
          diff_fwd_body t1 t2 vOff vLen delta front d k1 st =
            .cont stx) ∨
        (v ≤ (t1.length : Int) ∧ v - k1 ≤ (t2.length : Int) ∧
          stx.k1start = st.k1start ∧ stx.k1end = st.k1end ∧
          (diff_fwd_body t1 t2 vOff vLen delta front d k1 st =
              .cont stx ∨
            diff_fwd_body t1 t2 vOff vLen delta front d k1 st =
              .split v (v - k1) stx) ∧
          (front = true → 0 ≤ vOff + delta - k1 →
            vOff + delta - k1 < vLen →
            st.v2 (vOff + delta - k1) ≠ -1 →
            (t1.length : Int) - st.v2 (vOff + delta - k1) ≤ v →
            diff_fwd_body t1 t2 vOff vLen delta front d k1 st =
              .split v (v - k1) stx))) := by
  have hspge : -1 ≤ st.v1 (vOff + k1 + 1) := by
    rcases hclp with h | h
    · exact vclass_ge_neg_one h
    · rw [h.2.2]; omega
  have hsmge : -1 ≤ st.v1 (vOff + k1 - 1) := by
    rcases hclm with h | h
    · exact vclass_ge_neg_one h
    · rw [h.2.2]; omega
  by_cases hbr : k1 = -(d : Int) ∨ (k1 ≠ (d : Int) ∧
      st.v1 (vOff + k1 - 1) < st.v1 (vOff + k1 + 1))
  · -- the operand is the slot above
    have hx0eq : diff_fwd_body t1 t2 vOff vLen delta front d k1 st =
        diff_fwd_tail t1 t2 vOff vLen delta front d k1 st
          (st.v1 (vOff + k1 + 1)) := by
      rw [diff_fwd_body_eq_tail, if_pos hbr]
    obtain ⟨v, stx, hveq, hsv1, hsv2, hk2s, hk2e, htri⟩ :=
      diff_fwd_tail_step t1 t2 vOff vLen delta front d k1 st
        (st.v1 (vOff + k1 + 1))
    rw [← hx0eq] at htri
    have hx0nn : 0 ≤ st.v1 (vOff + k1 + 1) := by
      rcases hbr with hbd | ⟨hnd, hcmp⟩
      · rcases Nat.eq_zero_or_pos d with hd | hd
        · exact le_of_eq (hd0 hd).symm
        · exact hnegd hbd hd
      · omega
    have hvge : st.v1 (vOff + k1 + 1) ≤ v := by
      rw [hveq]
      exact fwd_snake_ge_start t1 t2 (t1.length + t2.length + 2) _ _
    have hv0 : 0 ≤ v := le_trans hx0nn hvge
    have hvc : VClass t1 t2 d k1 v := by
      rcases hclp with hcl | ⟨hd1, hkk, hv0eq⟩
      · rcases hcl with hm1 | hgen | hxj | hyj
        · exfalso; omega
        · obtain ⟨e, x, y, he, hr, hveq2, hkd⟩ := hgen
          rcases Nat.eq_zero_or_pos d with hd | hd
          · exfalso
            have hab := freach_diag_abs hr
            omega
          · by_cases hyn : y < t2.length
            · have hr2 := FReach.ins hr hyn
              obtain ⟨x2, y2, heq, hr3⟩ := fwd_snake_freach t1 t2
                (t1.length + t2.length + 2) (e + 1) x (y + 1) hr2
              push_cast at heq
              have hde := fwd_snake_diag_eq t1 t2
                (t1.length + t2.length + 2) ((x : Int)) ((y : Int) + 1)
              rw [heq] at hde
              simp at hde
              refine Or.inr (Or.inl ⟨e + 1, x2, y2, by omega, hr3,
                ?_, ?_⟩)
              · have h2 : st.v1 (vOff + k1 + 1) - k1 =
                    (y : Int) + 1 := by omega
                rw [hveq, h2, hveq2, heq]
              · omega
            · have hyeq : y = t2.length := by
                have := freach_le_len2 hr
                omega
              have hfroz := fwd_snake_frozen t1 t2
                (t1.length + t2.length + 2) (st.v1 (vOff + k1 + 1))
                (st.v1 (vOff + k1 + 1) - k1) (by right; omega)
              have hveqv : v = st.v1 (vOff + k1 + 1) := by
                rw [hveq, hfroz]
              rw [hyeq] at hr hkd
              refine Or.inr (Or.inr (Or.inr ⟨by omega, by omega, e, x,
                1, 0, hr, le_rfl, ?_, ?_, ?_⟩))
              · push_cast
                omega
              · push_cast
                omega
              · omega
        · obtain ⟨hgt, e, y0, u, w, hr, hu, hkd, hvb, hbud⟩ := hxj
          have hfroz := fwd_snake_frozen t1 t2
            (t1.length + t2.length + 2) (st.v1 (vOff + k1 + 1))
            (st.v1 (vOff + k1 + 1) - k1) (by left; omega)
          have hveqv : v = st.v1 (vOff + k1 + 1) := by rw [hveq, hfroz]
          refine Or.inr (Or.inr (Or.inl ⟨by omega, e, y0, u, w + 1, hr,
            hu, ?_, by omega, by omega⟩))
          push_cast
          omega
        · obtain ⟨hgt, hnn, e, x0c, u, w, hr, hu, hkd, hvb, hbud⟩ := hyj
          have hfroz := fwd_snake_frozen t1 t2
            (t1.length + t2.length + 2) (st.v1 (vOff + k1 + 1))
            (st.v1 (vOff + k1 + 1) - k1) (by right; omega)
          have hveqv : v = st.v1 (vOff + k1 + 1) := by rw [hveq, hfroz]
          refine Or.inr (Or.inr (Or.inr ⟨by omega, by omega, e, x0c,
            u + 1, w, hr, by omega, ?_, by omega, by omega⟩))
          push_cast
          omega
      · have hk10 : k1 = 0 := by omega
        obtain ⟨x2, y2, heq, hr3⟩ := fwd_snake_freach t1 t2
          (t1.length + t2.length + 2) 0 0 0 FReach.start
        push_cast at heq
        have hde := fwd_snake_diag_eq t1 t2
          (t1.length + t2.length + 2) 0 0
        rw [heq] at hde
        simp at hde
        refine Or.inr (Or.inl ⟨0, x2, y2, Nat.zero_le _, hr3, ?_, ?_⟩)
        · rw [hveq, hv0eq, hk10]
          rw [show (0 : Int) - 0 = 0 from by ring, heq]
        · omega
    have hdom1 : ∀ xp yp xq yq : Nat, (xq : Int) - (yq : Int) = k1 →
        EditStep t1 t2 (xp, yp) (xq, yq) →
        ((xp : Int) - (yp : Int) = k1 - 1 → k1 ≠ -(d : Int)) →
        ((xp : Int) - (yp : Int) = k1 + 1 → k1 ≠ (d : Int)) →
        ((xp : Int) - (yp : Int) = k1 - 1 →
          (xp : Int) ≤ st.v1 (vOff + k1 - 1)) →
        ((xp : Int) - (yp : Int) = k1 + 1 →
          (xp : Int) ≤ st.v1 (vOff + k1 + 1)) →
        xq ≤ t1.length → (xq : Int) ≤ v := by
      intro xp yp xq yq hdq hes hpd1 hpd2 hsmI hspI hxq
      rw [hveq]
      rcases hes with ⟨hxp, hstar⟩ | ⟨hyp, hstar⟩
      · have hdd := dstar_diag hstar
        have hpdiag : (xp : Int) - yp = k1 - 1 := by
          push_cast at hdd
          omega
        have hple := hsmI hpdiag
        have hx0ge : (xp : Int) + 1 ≤ st.v1 (vOff + k1 + 1) := by
          rcases hbr with hbd | ⟨hnd, hcmp⟩
          · exact absurd hbd (hpd1 hpdiag)
          · omega
        exact fwd_snake_ge_dstar hstar (t1.length + t2.length + 2)
          (st.v1 (vOff + k1 + 1)) (st.v1 (vOff + k1 + 1) - k1)
          (by push_cast; omega) (by push_cast; omega)
          (by push_cast; omega)
      · have hdd := dstar_diag hstar
        have hpdiag : (xp : Int) - yp = k1 + 1 := by
          push_cast at hdd
          omega
        have hple := hspI hpdiag
        exact fwd_snake_ge_dstar hstar (t1.length + t2.length + 2)
          (st.v1 (vOff + k1 + 1)) (st.v1 (vOff + k1 + 1) - k1)
          (by push_cast; omega) (by push_cast; omega)
          (by push_cast; omega)
    have hdom0 : ∀ xq yq : Nat, DStar t1 t2 (0, 0) (xq, yq) →
        (xq : Int) - (yq : Int) = k1 → xq ≤ t1.length →
        (xq : Int) ≤ v := by
      intro xq yq hstar hdq hxq
      rw [hveq]
      have hdd := dstar_diag hstar
      push_cast at hdd
      exact fwd_snake_ge_dstar hstar (t1.length + t2.length + 2)
        (st.v1 (vOff + k1 + 1)) (st.v1 (vOff + k1 + 1) - k1)
        (by push_cast; omega) (by push_cast; omega)
        (by push_cast; omega)
    exact ⟨v, stx, hv0, hvc, hdom1, hdom0, hsv1, hsv2, hk2s, hk2e,
      htri⟩
  · -- the operand is the slot below, plus one
    have hx0eq : diff_fwd_body t1 t2 vOff vLen delta front d k1 st =
        diff_fwd_tail t1 t2 vOff vLen delta front d k1 st
          (st.v1 (vOff + k1 - 1) + 1) := by
      rw [diff_fwd_body_eq_tail, if_neg hbr]
    obtain ⟨v, stx, hveq, hsv1, hsv2, hk2s, hk2e, htri⟩ :=
      diff_fwd_tail_step t1 t2 vOff vLen delta front d k1 st
        (st.v1 (vOff + k1 - 1) + 1)
    rw [← hx0eq] at htri
    have hdpos : 0 < d := by
      rcases Nat.eq_zero_or_pos d with hd | hd
      · exfalso
        apply hbr
        left
        omega
      · exact hd
    have hknd : k1 ≠ -(d : Int) := fun hcon => hbr (Or.inl hcon)
    have hsmnn : 0 ≤ st.v1 (vOff + k1 - 1) := by
      by_cases hkd : k1 = (d : Int)
      · exact hposd hkd hdpos
      · have hcmp : ¬(st.v1 (vOff + k1 - 1) < st.v1 (vOff + k1 + 1)) :=
          fun hlt => hbr (Or.inr ⟨hkd, hlt⟩)
        by_cases hm1 : st.v1 (vOff + k1 - 1) = -1
        · exfalso
          have hspm1 : st.v1 (vOff + k1 + 1) = -1 := by omega
          exact hboth hknd hkd hm1 hspm1
        · omega
    have hvge : st.v1 (vOff + k1 - 1) + 1 ≤ v := by
      rw [hveq]
      exact fwd_snake_ge_start t1 t2 (t1.length + t2.length + 2) _ _
    have hv0 : 0 ≤ v := by omega
    have hvc : VClass t1 t2 d k1 v := by
      rcases hclm with hcl | ⟨hd1, hkk, hv0eq⟩
      · rcases hcl with hm1 | hgen | hxj | hyj
        · exfalso; omega
        · obtain ⟨e, x, y, he, hr, hveq2, hkd⟩ := hgen
          by_cases hxn : x < t1.length
          · have hr2 := FReach.del hr hxn
            obtain ⟨x2, y2, heq, hr3⟩ := fwd_snake_freach t1 t2
              (t1.length + t2.length + 2) (e + 1) (x + 1) y hr2
            push_cast at heq
            have hde := fwd_snake_diag_eq t1 t2
              (t1.length + t2.length + 2) ((x : Int) + 1)
              ((y : Nat) : Int)
            rw [heq] at hde
            simp at hde
            refine Or.inr (Or.inl ⟨e + 1, x2, y2, by omega, hr3,
              ?_, ?_⟩)
            · have h1 : st.v1 (vOff + k1 - 1) + 1 = (x : Int) + 1 := by
                omega
              have h2 : st.v1 (vOff + k1 - 1) + 1 - k1 =
                  ((y : Nat) : Int) := by omega
              rw [hveq, h2, h1, heq]
            · omega
          · have hxeq : x = t1.length := by
              have := freach_le_len1 hr
              omega
            have hfroz := fwd_snake_frozen t1 t2
              (t1.length + t2.length + 2)
              (st.v1 (vOff + k1 - 1) + 1)
              (st.v1 (vOff + k1 - 1) + 1 - k1) (by left; omega)
            have hveqv : v = st.v1 (vOff + k1 - 1) + 1 := by
              rw [hveq, hfroz]
            rw [hxeq] at hr hkd
            refine Or.inr (Or.inr (Or.inl ⟨by omega, e, y, 1, 0, hr,
              le_rfl, ?_, ?_, ?_⟩))
            · push_cast
              omega
            · push_cast
              omega
            · omega
        · obtain ⟨hgt, e, y0, u, w, hr, hu, hkd, hvb, hbud⟩ := hxj
          have hfroz := fwd_snake_frozen t1 t2
            (t1.length + t2.length + 2) (st.v1 (vOff + k1 - 1) + 1)
            (st.v1 (vOff + k1 - 1) + 1 - k1) (by left; omega)
          have hveqv : v = st.v1 (vOff + k1 - 1) + 1 := by
            rw [hveq, hfroz]
          refine Or.inr (Or.inr (Or.inl ⟨by omega, e, y0, u + 1, w, hr,
            by omega, ?_, by omega, by omega⟩))
          push_cast
          omega
        · obtain ⟨hgt, hnn, e, x0c, u, w, hr, hu, hkd, hvb, hbud⟩ := hyj
          have hfroz := fwd_snake_frozen t1 t2
            (t1.length + t2.length + 2) (st.v1 (vOff + k1 - 1) + 1)
            (st.v1 (vOff + k1 - 1) + 1 - k1) (by right; omega)
          have hveqv : v = st.v1 (vOff + k1 - 1) + 1 := by
            rw [hveq, hfroz]
          by_cases hx0c : x0c < t1.length
          · have hr2 := FReach.del hr hx0c
            refine Or.inr (Or.inr (Or.inr ⟨by omega, by omega, e + 1,
              x0c + 1, u, w, hr2, hu, ?_, ?_, by omega⟩))
            · push_cast
              omega
            · push_cast
              omega
          · have hxceq : x0c = t1.length := by
              have := freach_le_len1 hr
              omega
            by_cases htight : st.v1 (vOff + k1 - 1) + 1 ≤
                (t1.length : Int) + u
            · refine Or.inr (Or.inr (Or.inr ⟨by omega, by omega, e,
                x0c, u, w + 1, hr, hu, ?_, ?_, by omega⟩))
              · push_cast
                omega
              · rw [hveqv, hxceq]
                omega
            · exfalso
              have hsmgt : (t1.length : Int) <
                  st.v1 (vOff + k1 - 1) := by
                rw [hxceq] at hvb
                omega
              have hdj := dist_of_yjunk_gt_m hM
                ⟨hgt, by omega, e, x0c, u, w, hr, hu, hkd, hvb, hbud⟩
                hsmgt
              have hcast : ((d - 1 : Nat) : Int) = (d : Int) - 1 := by
                omega
              rw [hcast] at hdj
              omega
      · exfalso
        omega
    have hdom1 : ∀ xp yp xq yq : Nat, (xq : Int) - (yq : Int) = k1 →
        EditStep t1 t2 (xp, yp) (xq, yq) →
        ((xp : Int) - (yp : Int) = k1 - 1 → k1 ≠ -(d : Int)) →
        ((xp : Int) - (yp : Int) = k1 + 1 → k1 ≠ (d : Int)) →
        ((xp : Int) - (yp : Int) = k1 - 1 →
          (xp : Int) ≤ st.v1 (vOff + k1 - 1)) →
        ((xp : Int) - (yp : Int) = k1 + 1 →
          (xp : Int) ≤ st.v1 (vOff + k1 + 1)) →
        xq ≤ t1.length → (xq : Int) ≤ v := by
      intro xp yp xq yq hdq hes hpd1 hpd2 hsmI hspI hxq
      rw [hveq]
      rcases hes with ⟨hxp, hstar⟩ | ⟨hyp, hstar⟩
      · have hdd := dstar_diag hstar
        have hpdiag : (xp : Int) - yp = k1 - 1 := by
          push_cast at hdd
          omega
        have hple := hsmI hpdiag
        exact fwd_snake_ge_dstar hstar (t1.length + t2.length + 2)
          (st.v1 (vOff + k1 - 1) + 1)
          (st.v1 (vOff + k1 - 1) + 1 - k1)
          (by push_cast; omega) (by push_cast; omega)
          (by push_cast; omega)
      · have hdd := dstar_diag hstar
        have hpdiag : (xp : Int) - yp = k1 + 1 := by
          push_cast at hdd
          omega
        have hple := hspI hpdiag
        have hkd : k1 ≠ (d : Int) := hpd2 hpdiag
        have hcmp : ¬(st.v1 (vOff + k1 - 1) < st.v1 (vOff + k1 + 1)) :=
          fun hlt => hbr (Or.inr ⟨hkd, hlt⟩)
        exact fwd_snake_ge_dstar hstar (t1.length + t2.length + 2)
          (st.v1 (vOff + k1 - 1) + 1)
          (st.v1 (vOff + k1 - 1) + 1 - k1)
          (by push_cast; omega) (by push_cast; omega)
          (by push_cast; omega)
    have hdom0 : ∀ xq yq : Nat, DStar t1 t2 (0, 0) (xq, yq) →
        (xq : Int) - (yq : Int) = k1 → xq ≤ t1.length →
        (xq : Int) ≤ v := by
      intro xq yq hstar hdq hxq
      rw [hveq]
      have hdd := dstar_diag hstar
      push_cast at hdd
      exact fwd_snake_ge_dstar hstar (t1.length + t2.length + 2)
        (st.v1 (vOff + k1 - 1) + 1)
        (st.v1 (vOff + k1 - 1) + 1 - k1)
        (by push_cast; omega) (by push_cast; omega)
        (by push_cast; omega)
    exact ⟨v, stx, hv0, hvc, hdom1, hdom0, hsv1, hsv2, hk2s, hk2e,
      htri⟩

/-! ## Invariants of the forward pass

`FwdEntryInv` holds of the `v1`-side data (value map and the two trim
counters) at the entry of depth-`d` processing; `FwdMidInv` holds
mid-pass, at the point where the inner loop is about to consider
diagonal `k1`.  The chain `g` (capped at `cap`) is an edit-step chain
of a minimal path whose slots dominate the recorded values. -/

def FwdEntryInv (t1 t2 : DMPString) (D : Nat) (vOff delta : Int)
    (g : Nat → Nat × Nat) (cap : Nat) (d : Nat) (v0 : Int → Int)
    (ks0 ke0 : Int) : Prop :=
  0 ≤ ks0 ∧ ks0 % 2 = 0 ∧ 0 ≤ ke0 ∧ ke0 % 2 = 0 ∧
  ks0 ≤ max 0 (2 * (d : Int) - 2 - ((D : Int) - delta)) ∧
  ke0 ≤ max 0 (2 * (d : Int) - 2 - (delta + (D : Int))) ∧
  (∀ c : Int, VClass t1 t2 (d - 1) c (v0 (vOff + c)) ∨
    (d ≤ 1 ∧ c = 1 ∧ v0 (vOff + c) = 0)) ∧
  (∀ c : Int,
    min (-(d : Int) + 1 + ks0)
      (max (-(d : Int) + 1) (delta - D + (d : Int) - 1)) ≤ c →
    c ≤ (d : Int) - 1 - ke0 → (c + (d : Int) + 1) % 2 = 0 →
    0 ≤ v0 (vOff + c)) ∧
  (∀ e : Nat, e < d → e ≤ cap →
    ((g e).1 : Int) ≤ v0 (vOff + (((g e).1 : Int) - ((g e).2 : Int)))) ∧
  (d ≤ 1 → ks0 = 0 ∧ ke0 = 0 ∧ v0 (vOff + 1) = 0)

def FwdMidInv (t1 t2 : DMPString) (D : Nat) (vOff delta : Int)
    (g : Nat → Nat × Nat) (cap : Nat) (d : Nat) (v0 : Int → Int)
    (ks0 ke0 : Int) (k1 : Int) (st : DiffState) : Prop :=
  ks0 ≤ st.k1start ∧ st.k1start % 2 = 0 ∧
  st.k1start ≤ max ks0 (2 * (d : Int) + delta - D) ∧
  ke0 ≤ st.k1end ∧ st.k1end % 2 = 0 ∧
  st.k1end ≤ max ke0 (2 * (d : Int) - delta - D) ∧
  (st.k1end ≠ ke0 → delta + D - (d : Int) + 2 ≤ k1 - 2) ∧
  -(d : Int) + st.k1start ≤ k1 ∧ (k1 + (d : Int)) % 2 = 0 ∧
  (∀ c : Int, -(d : Int) + ks0 ≤ c → c < k1 →
    (c + (d : Int)) % 2 = 0 →
    VClass t1 t2 d c (st.v1 (vOff + c)) ∧ 0 ≤ st.v1 (vOff + c)) ∧
  (∀ c : Int,
    (c < -(d : Int) + ks0 ∨ k1 ≤ c ∨ (c + (d : Int)) % 2 ≠ 0) →
    st.v1 (vOff + c) = v0 (vOff + c)) ∧
  (∀ e : Nat, e ≤ d → e ≤ cap → (d - e) % 2 = 0 →
    (((g e).1 : Int) - ((g e).2 : Int)) < k1 →
    ((g e).1 : Int) ≤ st.v1 (vOff + (((g e).1 : Int) - ((g e).2 : Int))))

/-- At entry of the pass, the mid-pass invariant holds at the initial
diagonal `-d + k1start`. -/
theorem diff_fwd_mid_init (t1 t2 : DMPString) (D : Nat)
    (vOff delta : Int) (g : Nat → Nat × Nat) (cap : Nat) (d : Nat)
    (hg0 : FReach t1 t2 0 (g 0).1 (g 0).2)
    (hgs : ∀ i, i < cap → EditStep t1 t2 (g i) (g (i + 1)))
    (hgcone : ∀ e, e ≤ cap →
      delta - ((D : Int) - e) ≤ ((g e).1 : Int) - ((g e).2 : Int) ∧
      ((g e).1 : Int) - ((g e).2 : Int) ≤ delta + ((D : Int) - e))
    (st : DiffState)
    (hE : FwdEntryInv t1 t2 D vOff delta g cap d st.v1 st.k1start
      st.k1end) :
    FwdMidInv t1 t2 D vOff delta g cap d st.v1 st.k1start st.k1end
      (-(d : Int) + st.k1start) st := by
  obtain ⟨e1, e1b, e1c, e1d, e2s, e3s, e4, e5, e6, e7⟩ := hE
  have hpt := chain_points_freach hg0 hgs
  refine ⟨le_rfl, e1b, le_max_left _ _, le_rfl, e1d, le_max_left _ _,
    fun h => absurd rfl h, le_rfl, by omega, ?_, fun c _ => rfl, ?_⟩
  · intro c hc1 hc2 _
    omega
  · intro e he hecap hpd hκ
    have hre := hpt e hecap
    have habs := freach_diag_abs hre
    have hcone := hgcone e hecap
    rcases Nat.lt_or_ge e d with hed | hed
    · exact e6 e hed hecap
    · exfalso
      have hed2 : e = d := by omega
      subst hed2
      omega

/-- The wrap-up: when the guard fails, the mid-pass invariant yields
the entry invariant of the next depth. -/
theorem diff_fwd_pass_end (t1 t2 : DMPString) (D : Nat)
    (vOff delta : Int) (g : Nat → Nat × Nat) (cap : Nat) (d : Nat)
    (hM : MinDist t1 t2 D)
    (hdelta : delta = (t1.length : Int) - t2.length)
    (hdD : d ≤ D)
    (hg0 : FReach t1 t2 0 (g 0).1 (g 0).2)
    (hgs : ∀ i, i < cap → EditStep t1 t2 (g i) (g (i + 1)))
    (hgcone : ∀ e, e ≤ cap →
      delta - ((D : Int) - e) ≤ ((g e).1 : Int) - ((g e).2 : Int) ∧
      ((g e).1 : Int) - ((g e).2 : Int) ≤ delta + ((D : Int) - e))
    (v0 : Int → Int) (ks0 ke0 : Int) (k1 : Int) (st : DiffState)
    (hE : FwdEntryInv t1 t2 D vOff delta g cap d v0 ks0 ke0)
    (hMid : FwdMidInv t1 t2 D vOff delta g cap d v0 ks0 ke0 k1 st)
    (hguard : (d : Int) - st.k1end < k1) :
    FwdEntryInv t1 t2 D vOff delta g cap (d + 1) st.v1 st.k1start
      st.k1end := by
  obtain ⟨e1, e1b, e1c, e1d, e2s, e3s, e4, e5, e6, e7⟩ := hE
  obtain ⟨m2, m1, m3, m4, m4b, m5, m6, m7, m8, m9, m10, m11⟩ := hMid
  have hΔ := mindist_ge_delta hM
  have hΔ1 : delta ≤ (D : Int) := by rw [hdelta]; exact hΔ.1
  have hΔ2 : -(D : Int) ≤ delta := by
    rw [hdelta]
    have := hΔ.2
    omega
  have hpar0 := freach_parity hM.1
  have hparδ : (delta + (D : Int)) % 2 = 0 := by rw [hdelta]; omega
  have hpt := chain_points_freach hg0 hgs
  refine ⟨by omega, m1, by omega, m4b, ?_, ?_, ?_, ?_, ?_, ?_⟩
  · push_cast
    omega
  · push_cast
    omega
  · intro c
    by_cases hin : -(d : Int) + ks0 ≤ c ∧ c < k1 ∧
        (c + (d : Int)) % 2 = 0
    · exact Or.inl (m9 c hin.1 hin.2.1 hin.2.2).1
    · have hd10 : c < -(d : Int) + ks0 ∨ k1 ≤ c ∨
          (c + (d : Int)) % 2 ≠ 0 := by omega
      have hval := m10 c hd10
      rw [hval]
      rcases e4 c with h | ⟨hd1, hc1, hv⟩
      · exact Or.inl (vclass_mono h (by omega))
      · rcases Nat.eq_zero_or_pos d with hd | hd
        · exact Or.inr ⟨by omega, hc1, hv⟩
        · exfalso
          obtain ⟨hks00, hke00, _⟩ := e7 (by omega)
          by_cases hke : st.k1end = ke0
          · exact hin ⟨by omega, by omega, by omega⟩
          · have h6 := m6 hke
            exact hin ⟨by omega, by omega, by omega⟩
  · intro c hlo hhi hp
    push_cast at hlo hhi hp
    refine (m9 c ?_ ?_ ?_).2
    · omega
    · omega
    · omega
  · intro e he hecap
    have hre := hpt e hecap
    have habs := freach_diag_abs hre
    have hpare := freach_parity hre
    have hcone := hgcone e hecap
    by_cases hpd : (d - e) % 2 = 0
    · by_cases hκ : ((g e).1 : Int) - ((g e).2 : Int) < k1
      · exact m11 e (by omega) hecap hpd hκ
      · rcases Nat.lt_or_ge e d with hed | hed
        · have hval := m10 (((g e).1 : Int) - ((g e).2 : Int))
            (Or.inr (Or.inl (by omega)))
          rw [hval]
          exact e6 e hed hecap
        · exfalso
          have hed2 : e = d := by omega
          subst hed2
          omega
    · have hval := m10 (((g e).1 : Int) - ((g e).2 : Int))
        (Or.inr (Or.inr (by omega)))
      rw [hval]
      exact e6 e (by omega) hecap
  · intro hd1
    have hd0 : d = 0 := by omega
    obtain ⟨hks00, hke00, hseed⟩ := e7 (by omega)
    refine ⟨by omega, by omega, ?_⟩
    have hval := m10 1 (Or.inr (Or.inr (by omega)))
    rw [hval]
    exact hseed

set_option maxHeartbeats 1600000 in
/-- The forward pass transfers the entry invariant from depth `d` to
depth `d + 1` whenever it continues, and leaves the backward share of
the state untouched. -/
theorem diff_fwd_loop_trans (t1 t2 : DMPString) (D : Nat)
    (vOff vLen delta : Int) (front : Bool) (d : Nat)
    (g : Nat → Nat × Nat) (cap : Nat)
    (hM : MinDist t1 t2 D)
    (hdelta : delta = (t1.length : Int) - t2.length)
    (hdD : d ≤ D)
    (hg0 : FReach t1 t2 0 (g 0).1 (g 0).2)
    (hgs : ∀ i, i < cap → EditStep t1 t2 (g i) (g (i + 1)))
    (hgcone : ∀ e, e ≤ cap →
      delta - ((D : Int) - e) ≤ ((g e).1 : Int) - ((g e).2 : Int) ∧
      ((g e).1 : Int) - ((g e).2 : Int) ≤ delta + ((D : Int) - e))
    (v0 : Int → Int) (ks0 ke0 : Int) (w2 : Int → Int) (q2s q2e : Int)
    (hE : FwdEntryInv t1 t2 D vOff delta g cap d v0 ks0 ke0) :
    ∀ (fuel : Nat) (k1 : Int) (st : DiffState),
      FwdMidInv t1 t2 D vOff delta g cap d v0 ks0 ke0 k1 st →
      (d : Int) - st.k1end - k1 < 2 * (fuel : Int) →
      st.v2 = w2 → st.k2start = q2s → st.k2end = q2e →
      ∀ st2, diff_fwd_loop t1 t2 vOff vLen delta front d fuel k1 st =
        .cont st2 →
      FwdEntryInv t1 t2 D vOff delta g cap (d + 1) st2.v1 st2.k1start
        st2.k1end ∧ st2.v2 = w2 ∧ st2.k2start = q2s ∧
        st2.k2end = q2e := by
  obtain ⟨e1, e1b, e1c, e1d, e2s, e3s, e4, e5, e6, e7⟩ := hE
  have hE2 : FwdEntryInv t1 t2 D vOff delta g cap d v0 ks0 ke0 :=
    ⟨e1, e1b, e1c, e1d, e2s, e3s, e4, e5, e6, e7⟩
  have hΔ := mindist_ge_delta hM
  have hΔ1 : delta ≤ (D : Int) := by rw [hdelta]; exact hΔ.1
  have hΔ2 : -(D : Int) ≤ delta := by
    rw [hdelta]
    have := hΔ.2
    omega
  have hpar0 := freach_parity hM.1
  have hparδ : (delta + (D : Int)) % 2 = 0 := by rw [hdelta]; omega
  have hpt := chain_points_freach hg0 hgs
  intro fuel
  induction fuel with
  | zero =>
    intro k1 st hMid hfuel hv2 hq2s hq2e st2 hloop
    have hst : st = st2 := by
      injection hloop
    subst hst
    obtain ⟨m2, m1, m3, m4, m4b, m5, m6, m7, m8, m9, m10, m11⟩ := hMid
    refine ⟨diff_fwd_pass_end t1 t2 D vOff delta g cap d hM hdelta hdD
      hg0 hgs hgcone v0 ks0 ke0 k1 st hE2
      ⟨m2, m1, m3, m4, m4b, m5, m6, m7, m8, m9, m10, m11⟩
      (by push_cast at hfuel; omega), hv2, hq2s, hq2e⟩
  | succ f ih =>
    intro k1 st hMid hfuel hv2 hq2s hq2e st2 hloop
    simp only [diff_fwd_loop] at hloop
    by_cases hg : k1 ≤ (d : Int) - st.k1end
    case neg =>
      rw [if_neg hg] at hloop
      have hst : st = st2 := by injection hloop
      subst hst
      obtain ⟨m2, m1, m3, m4, m4b, m5, m6, m7, m8, m9, m10, m11⟩ := hMid
      refine ⟨diff_fwd_pass_end t1 t2 D vOff delta g cap d hM hdelta hdD
        hg0 hgs hgcone v0 ks0 ke0 k1 st hE2
        ⟨m2, m1, m3, m4, m4b, m5, m6, m7, m8, m9, m10, m11⟩
        (by omega), hv2, hq2s, hq2e⟩
    case pos =>
      rw [if_pos hg] at hloop
      obtain ⟨m2, m1, m3, m4, m4b, m5, m6, m7, m8, m9, m10, m11⟩ := hMid
      have hbk1l : -(d : Int) ≤ k1 := by omega
      have hbk1r : k1 ≤ (d : Int) := by omega
      have hbd0 : d = 0 → st.v1 (vOff + k1 + 1) = 0 := by
        intro hd0
        have hk10 : k1 = 0 := by omega
        obtain ⟨hks00, hke00, hseed⟩ := e7 (by omega)
        have hval := m10 (k1 + 1) (Or.inr (Or.inr (by omega)))
        rw [show vOff + k1 + 1 = vOff + (k1 + 1) from by ring, hval,
          show vOff + (k1 + 1) = vOff + 1 from by rw [hk10]; ring]
        exact hseed
      have hbclp : VClass t1 t2 (d - 1) (k1 + 1)
          (st.v1 (vOff + k1 + 1)) ∨
          (d ≤ 1 ∧ k1 + 1 = 1 ∧ st.v1 (vOff + k1 + 1) = 0) := by
        have hval := m10 (k1 + 1) (Or.inr (Or.inr (by omega)))
        rcases e4 (k1 + 1) with h | ⟨hd1, hc1, hv⟩
        · left
          rw [show vOff + k1 + 1 = vOff + (k1 + 1) from by ring, hval]
          exact h
        · right
          refine ⟨hd1, hc1, ?_⟩
          rw [show vOff + k1 + 1 = vOff + (k1 + 1) from by ring, hval]
          exact hv
      have hbclm : VClass t1 t2 (d - 1) (k1 - 1)
          (st.v1 (vOff + k1 - 1)) ∨
          (d ≤ 1 ∧ k1 - 1 = 1 ∧ st.v1 (vOff + k1 - 1) = 0) := by
        have hval := m10 (k1 - 1) (Or.inr (Or.inr (by omega)))
        rcases e4 (k1 - 1) with h | ⟨hd1, hc1, hv⟩
        · left
          rw [show vOff + k1 - 1 = vOff + (k1 - 1) from by ring, hval]
          exact h
        · right
          refine ⟨hd1, hc1, ?_⟩
          rw [show vOff + k1 - 1 = vOff + (k1 - 1) from by ring, hval]
          exact hv
      have hbnegd : k1 = -(d : Int) → 0 < d →
          0 ≤ st.v1 (vOff + k1 + 1) := by
        intro hbd hdpos
        have hks00 : ks0 = 0 := by omega
        have hval := m10 (k1 + 1) (Or.inr (Or.inr (by omega)))
        rw [show vOff + k1 + 1 = vOff + (k1 + 1) from by ring, hval]
        exact e5 (k1 + 1) (by omega) (by omega) (by omega)
      have hbposd : k1 = (d : Int) → 0 < d →
          0 ≤ st.v1 (vOff + k1 - 1) := by
        intro hbd hdpos
        have hval := m10 (k1 - 1) (Or.inr (Or.inr (by omega)))
        rw [show vOff + k1 - 1 = vOff + (k1 - 1) from by ring, hval]
        exact e5 (k1 - 1) (by omega) (by omega) (by omega)
      have hbboth : k1 ≠ -(d : Int) → k1 ≠ (d : Int) →
          st.v1 (vOff + k1 - 1) = -1 → st.v1 (vOff + k1 + 1) = -1 →
          False := by
        intro hknd hkd hsm1 hsp1
        have hdpos : 0 < d := by omega
        rw [show vOff + k1 - 1 = vOff + (k1 - 1) from by ring,
          m10 (k1 - 1) (Or.inr (Or.inr (by omega)))] at hsm1
        rw [show vOff + k1 + 1 = vOff + (k1 + 1) from by ring,
          m10 (k1 + 1) (Or.inr (Or.inr (by omega)))] at hsp1
        by_cases hup : k1 + 1 ≤ (d : Int) - 1 - ke0
        · have := e5 (k1 + 1) (by omega) hup (by omega)
          omega
        · by_cases hdn : min (-(d : Int) + 1 + ks0)
              (max (-(d : Int) + 1) (delta - D + (d : Int) - 1)) ≤
              k1 - 1 ∧ k1 - 1 ≤ (d : Int) - 1 - ke0
          · have := e5 (k1 - 1) hdn.1 hdn.2 (by omega)
            omega
          · omega
      obtain ⟨v, stx, hv0, hvc, hdom1, hdom0, hsv1, hsv2, hk2s, hk2e,
        htri⟩ := diff_fwd_body_step t1 t2 D vOff vLen delta front d k1
          st hM hdD hbk1l hbk1r hbd0 hbclp hbclm hbnegd hbposd hbboth
      have hupds : stx.v1 (vOff + k1) = v := by
        rw [hsv1]
        exact upd_self _ _ _
      have hupdn : ∀ c : Int, c ≠ k1 →
          stx.v1 (vOff + c) = st.v1 (vOff + c) := by
        intro c hc
        rw [hsv1]
        exact upd_ne _ _ _ _ (by omega)
      have hm9n : ∀ c : Int, -(d : Int) + ks0 ≤ c → c < k1 + 2 →
          (c + (d : Int)) % 2 = 0 →
          VClass t1 t2 d c (stx.v1 (vOff + c)) ∧
            0 ≤ stx.v1 (vOff + c) := by
        intro c h1 h2 h3
        by_cases hck : c = k1
        · subst hck
          rw [hupds]
          exact ⟨hvc, hv0⟩
        · rw [hupdn c hck]
          exact m9 c h1 (by omega) h3
      have hm10n : ∀ c : Int, (c < -(d : Int) + ks0 ∨ k1 + 2 ≤ c ∨
          (c + (d : Int)) % 2 ≠ 0) →
          stx.v1 (vOff + c) = v0 (vOff + c) := by
        intro c hc
        have hck : c ≠ k1 := by omega
        rw [hupdn c hck]
        exact m10 c (by omega)
      have hm11n : ∀ e : Nat, e ≤ d → e ≤ cap → (d - e) % 2 = 0 →
          (((g e).1 : Int) - ((g e).2 : Int)) < k1 + 2 →
          ((g e).1 : Int) ≤
            stx.v1 (vOff + (((g e).1 : Int) - ((g e).2 : Int))) := by
        intro e he hecap hpd hκ
        by_cases hκk : (((g e).1 : Int) - ((g e).2 : Int)) = k1
        · rw [hκk, hupds]
          rcases Nat.eq_zero_or_pos e with he0 | hepos
          · subst he0
            have hz := freach_zero_dstar (hpt 0 (by omega))
            exact hdom0 (g 0).1 (g 0).2 hz hκk
              (freach_le_len1 (hpt 0 (by omega)))
          · have hes := hgs (e - 1) (by omega)
            rw [show e - 1 + 1 = e from by omega] at hes
            have hpp := hpt (e - 1) (by omega)
            have habsp := freach_diag_abs hpp
            refine hdom1 (g (e - 1)).1 (g (e - 1)).2 (g e).1 (g e).2
              hκk hes ?_ ?_ ?_ ?_ (freach_le_len1 (hpt e hecap))
            · intro hpdiag hcon
              omega
            · intro hpdiag hcon
              omega
            · intro hpdiag
              have hb := e6 (e - 1) (by omega) (by omega)
              rw [hpdiag] at hb
              rw [show vOff + k1 - 1 = vOff + (k1 - 1) from by ring,
                m10 (k1 - 1) (Or.inr (Or.inr (by omega)))]
              exact hb
            · intro hpdiag
              have hb := e6 (e - 1) (by omega) (by omega)
              rw [hpdiag] at hb
              rw [show vOff + k1 + 1 = vOff + (k1 + 1) from by ring,
                m10 (k1 + 1) (Or.inr (Or.inr (by omega)))]
              exact hb
        · have hpare := freach_parity (hpt e hecap)
          have hκlt : (((g e).1 : Int) - ((g e).2 : Int)) < k1 := by
            omega
          rw [hupdn _ (by omega)]
          exact m11 e he hecap hpd hκlt
      rcases htri with ⟨hTv, hTs, hTe, hTeq⟩ |
        ⟨hBv1, hBv2, hBs, hBe, hBeq⟩ |
        ⟨hMv1, hMv2, hMs, hMe, hMeq, hMfire⟩
      · -- the written value overshoots the right edge
        rw [hTeq] at hloop
        have hxk : delta + (D : Int) - d + 2 ≤ k1 := by
          rcases hvc with hm1 | hgen | hxj | hyj
          · omega
          · exfalso
            obtain ⟨e, x, y, _, hr, hveq2, _⟩ := hgen
            have := freach_le_len1 hr
            omega
          · have := dist_of_xjunk hM hxj
            rw [← hdelta] at this
            omega
          · exfalso
            have := dist_of_yjunk_gt_m hM hyj hTv
            omega
        refine ih (k1 + 2) stx
          ⟨by omega, by omega, by omega, by omega, by omega, by omega,
            fun _ => by omega, by omega, by omega, hm9n, hm10n, hm11n⟩
          (by push_cast; push_cast at hfuel; omega)
          (hsv2.trans hv2) (hk2s.trans hq2s) (hk2e.trans hq2e) st2 hloop
      · -- the written value overshoots the bottom edge
        rw [hBeq] at hloop
        have hxk : k1 ≤ delta - (D : Int) + d - 2 := by
          rcases hvc with hm1 | hgen | hxj | hyj
          · omega
          · exfalso
            obtain ⟨e, x, y, _, hr, hveq2, hkdg⟩ := hgen
            have := freach_le_len2 hr
            omega
          · exfalso
            obtain ⟨hgt, _⟩ := hxj
            omega
          · have := dist_of_yjunk hM hyj
            rw [← hdelta] at this
            omega
        refine ih (k1 + 2) stx
          ⟨by omega, by omega, by omega, by omega, by omega, by omega,
            fun hne => by have := m6 (by omega); omega, by omega,
            by omega, hm9n, hm10n, hm11n⟩
          (by push_cast; push_cast at hfuel; omega)
          (hsv2.trans hv2) (hk2s.trans hq2s) (hk2e.trans hq2e) st2 hloop
      · -- middle branch
        rcases hMeq with hcont | hsplit
        · rw [hcont] at hloop
          refine ih (k1 + 2) stx
            ⟨by omega, by omega, by omega, by omega, by omega, by omega,
              fun hne => by have := m6 (by omega); omega, by omega,
              by omega, hm9n, hm10n, hm11n⟩
            (by push_cast; push_cast at hfuel; omega)
            (hsv2.trans hv2) (hk2s.trans hq2s) (hk2e.trans hq2e) st2
            hloop
        · rw [hsplit] at hloop
          exact LoopRes.noConfusion hloop

/-- Reversing both sequences preserves minimal edit distance. -/
theorem mindist_reverse {t1 t2 : DMPString} {D : Nat}
    (hD : MinDist t1 t2 D) : MinDist t1.reverse t2.reverse D := by
  constructor
  · exact freach_reverse_full hD.1
  · intro e he
    apply hD.2
    have := freach_reverse_full he
    simpa using this

end FastDMP
